import Mathlib

/-!
# Verification of the json5pp JSON / JSON5 parser and stringifier

A shallow embedding of `json5pp.hpp` (the C++11 single-header JSON/JSON5
library): the dynamic value model, the rule-flag configuration (flags,
manipulators, contexts), the recursive-descent parser and the depth-first
stringifier, together with theorems checking the specification's claims.

Modelling conventions:
* The input medium (`std::istream` over a byte buffer) is a list of byte
  values (`Int`, so that `EOF = -1` can flow through the same variable as
  in the C++ code).  `get` at end of input yields `EOF` and leaves the
  stream empty; once the stream is exhausted every further `get` yields
  `EOF` again and `unget` fails, exactly like an `istream` whose `failbit`
  is set.  `unget` is always invoked with the character that was just
  read, so it is modelled as pushing that character back (a no-op for
  `EOF`, mirroring the failed `unget` after reading end-of-file).
* `double` is idealised as `ℚ` plus explicit `NaN` / `±Infinity`
  constructors; the claims proved about numbers only involve values on
  which IEEE-754 double arithmetic is exact.  The stream insertion
  `out << double` (defaultfloat, precision 6, i.e. printf `%g`) is
  modelled by `fmtG`.
* `unsigned long long` accumulation wraps modulo `2^64` (explicit `%`);
  the C++ `int` exponent accumulator (whose overflow would be UB) is
  idealised as an unbounded natural.
* Unbounded loops take an explicit fuel argument so that all definitions
  are structurally recursive and kernel-reducible; public entry points
  supply fuel amply larger than the number of loop steps possible on the
  given input (every loop iteration consumes at least one input byte).
  `PErr.fuel` marks fuel exhaustion and occurs in no theorem about
  concrete inputs.
-/

namespace Json5pp

/-! ## Input stream model (std::istream over bytes) -/

/-- The parser's input medium: the remaining bytes of the stream. -/
abbrev Stm := List Int

/-- `std::char_traits<char>::eof()`. -/
def eofCh : Int := -1

/-- `istream.get()`: next byte, or `eofCh` when exhausted. -/
def Stm.get : Stm → Int × Stm
  | [] => (eofCh, [])
  | c :: t => (c, t)

/-- `istream.unget()` after having just read `c`: pushes `c` back.  After a
`get` that hit end-of-input (`c = eofCh`) the C++ `unget` fails because the
failbit is set, so the model leaves the stream unchanged. -/
def Stm.unget (s : Stm) (c : Int) : Stm :=
  if c = eofCh then s else c :: s

/-- Byte list of an ASCII string, used for concrete inputs. -/
def bytesOf (t : String) : Stm := t.data.map (fun c => (c.toNat : Int))

/-! ## Errors

`syntax_error(ch, context_name)` carries the offending character (or EOF)
and a short production name.  `PErr.fuel` is the fuel-exhaustion marker of
the embedding (see the header comment). -/

inductive PErr where
  | syn (c : Int) (ctxName : String)
  | fuel
deriving Repr, DecidableEq

/-- Context-name string constants used by `syntax_error` in the source. -/
def ctxValue : String := "value"

def ctxNumber : String := "number"

def ctxString : String := "string"

def ctxArray : String := "array"

def ctxObject : String := "object"

def ctxObjectKey : String := "object-key"

def ctxComment : String := "comment"

def ctxNull : String := "null"

def ctxBoolean : String := "boolean"

/-! ## Rule flags (`impl::flags`, a 16-bit register) -/

namespace flags

def single_line_comment : Nat := 1 <<< 0

def multi_line_comment : Nat := 1 <<< 1

def explicit_plus_sign : Nat := 1 <<< 2

def leading_decimal_point : Nat := 1 <<< 3

def trailing_decimal_point : Nat := 1 <<< 4

def infinity_number : Nat := 1 <<< 5

def not_a_number : Nat := 1 <<< 6

def hexadecimal : Nat := 1 <<< 7

def single_quote : Nat := 1 <<< 8

def multi_line_string : Nat := 1 <<< 9

def trailing_comma : Nat := 1 <<< 10

def unquoted_key : Nat := 1 <<< 11

def json5_rules : Nat := (unquoted_key <<< 1) - 1

def all_rules : Nat := json5_rules

def crlf_newline : Nat := 1 <<< 14

def finished : Nat := 1 <<< 15

end flags

/-- `context_base::has_flag`: true when one or more of the `mask` bits are
set in `fl`. -/
def has_flag (fl mask : Nat) : Bool := (fl &&& mask) != 0

/-! ## Manipulators and contexts -/

/-- `impl::manipulator`: set-mask, clear-mask, optional indent override.
`indent` models the `int8_t` indent spec (positive: spaces, negative:
tabs, zero: no indent). -/
structure manipulator where
  flags_set : Nat
  flags_clear : Nat
  indent_set : Bool
  indent : Int
deriving Repr, DecidableEq

/-- The two-argument `manipulator(flags, set)` constructor. -/
def manipulator.ofFlags (fl : Nat) (set : Bool) : manipulator :=
  ⟨if set then fl else 0, if set then 0 else fl, false, 0⟩

/-- `impl::context_base`: the flags register plus the indent spec. -/
structure context_base where
  flags : Nat
  indent : Int
deriving Repr, DecidableEq

/-- A freshly constructed context (`flags(0), indent(0)`). -/
def context_base.init : context_base := ⟨0, 0⟩

/-- `context_base::apply_manipulator`:
`flags = (flags & ~clear) | set` on the 16-bit register (`^^^ 65535` is
the 16-bit complement), and the indent is replaced only when the
manipulator carries an indent override. -/
def apply_manipulator (c : context_base) (m : manipulator) : context_base :=
  { flags := (c.flags &&& (m.flags_clear ^^^ 65535)) ||| m.flags_set,
    indent := if m.indent_set then m.indent else c.indent }

/-- `context_base::get_indent`: `indent` spaces when positive, `-indent`
tabs when negative, empty when zero. -/
def get_indent (c : context_base) : List Int :=
  if c.indent > 0 then List.replicate c.indent.toNat 32
  else if c.indent < 0 then List.replicate (-c.indent).toNat 9
  else []

/-- `context_base::get_newline`: CRLF when the `crlf_newline` flag is set,
else LF. -/
def get_newline (fl : Nat) : List Int :=
  if has_flag fl flags.crlf_newline then [13, 10] else [10]

/-! ## The rule manipulator catalogue (`json5pp::rule`) -/

namespace rule

def single_line_comment (allow : Bool) : manipulator :=
  manipulator.ofFlags flags.single_line_comment allow

def multi_line_comment (allow : Bool) : manipulator :=
  manipulator.ofFlags flags.multi_line_comment allow

def comments (allow : Bool) : manipulator :=
  manipulator.ofFlags (flags.single_line_comment ||| flags.multi_line_comment) allow

def explicit_plus_sign (allow : Bool) : manipulator :=
  manipulator.ofFlags flags.explicit_plus_sign allow

def leading_decimal_point (allow : Bool) : manipulator :=
  manipulator.ofFlags flags.leading_decimal_point allow

def trailing_decimal_point (allow : Bool) : manipulator :=
  manipulator.ofFlags flags.trailing_decimal_point allow

def decimal_points (allow : Bool) : manipulator :=
  manipulator.ofFlags (flags.leading_decimal_point ||| flags.trailing_decimal_point) allow

def infinity_number (allow : Bool) : manipulator :=
  manipulator.ofFlags flags.infinity_number allow

def not_a_number (allow : Bool) : manipulator :=
  manipulator.ofFlags flags.not_a_number allow

def hexadecimal (allow : Bool) : manipulator :=
  manipulator.ofFlags flags.hexadecimal allow

def single_quote (allow : Bool) : manipulator :=
  manipulator.ofFlags flags.single_quote allow

def multi_line_string (allow : Bool) : manipulator :=
  manipulator.ofFlags flags.multi_line_string allow

def trailing_comma (allow : Bool) : manipulator :=
  manipulator.ofFlags flags.trailing_comma allow

def unquoted_key (allow : Bool) : manipulator :=
  manipulator.ofFlags flags.unquoted_key allow

def ecma404 : manipulator := ⟨0, flags.all_rules, false, 0⟩

def json5 : manipulator := ⟨flags.json5_rules, flags.all_rules, false, 0⟩

def no_indent : manipulator := ⟨0, 0, true, 0⟩

def tab_indent (tabs : Nat) : manipulator := ⟨0, 0, true, -(tabs : Int)⟩

def space_indent (spaces : Nat) : manipulator := ⟨0, 0, true, (spaces : Int)⟩

def lf_newline : manipulator := manipulator.ofFlags flags.crlf_newline false

def crlf_newline : manipulator := manipulator.ofFlags flags.crlf_newline true

def finished : manipulator := manipulator.ofFlags flags.finished true

end rule

/-! ## The value model (`json5pp::value`) -/

/-- `value::number_type` (`double`), idealised: exact rationals plus the
non-finite values `NaN` and `±Infinity`. -/
inductive JNum where
  | fin (q : ℚ)
  | posInf
  | negInf
  | nan
deriving Repr, DecidableEq

/-- The closed tagged variant: Null / Boolean / Number / String / Array /
Object.  Strings are byte sequences (`std::string`); objects are
`std::map<std::string, value>`, modelled as association lists kept in
strictly ascending key order. -/
inductive JVal where
  | null
  | boolean (b : Bool)
  | number (n : JNum)
  | str (bytes : List Int)
  | arr (elems : List JVal)
  | obj (entries : List (List Int × JVal))

/-! ## std::map on string keys -/

/-- `std::string::operator<`: lexicographic comparison of byte values. -/
def keyLt : List Int → List Int → Bool
  | [], [] => false
  | [], _ :: _ => true
  | _ :: _, [] => false
  | a :: as, b :: bs => if a < b then true else if b < a then false else keyLt as bs

/-- `std::map::emplace(key, v)`: insert at the sorted position when the key
is absent; leave the map unchanged when the key is already present. -/
def obj_emplace : List (List Int × JVal) → List Int → JVal → List (List Int × JVal)
  | [], key, v => [(key, v)]
  | (k, w) :: es, key, v =>
    if keyLt key k then (key, v) :: (k, w) :: es
    else if k = key then (k, w) :: es
    else (k, w) :: obj_emplace es key v

/-- Writing through the iterator returned by `emplace`: replace the value
stored at `key` (the key is present after `obj_emplace`). -/
def obj_assign : List (List Int × JVal) → List Int → JVal → List (List Int × JVal)
  | [], _, _ => []
  | (k, w) :: es, key, v =>
    if k = key then (k, v) :: es else (k, w) :: obj_assign es key v

/-- `std::map::operator[]`-style lookup (read side, used in theorems). -/
def obj_lookup : List (List Int × JVal) → List Int → Option JVal
  | [], _ => none
  | (k, w) :: es, key => if k = key then some w else obj_lookup es key

/-! ## Character classification helpers (`parse_context` statics) -/

/-- `is_digit`: `'0' <= ch && ch <= '9'`. -/
def is_digit (c : Int) : Bool := 48 ≤ c && c ≤ 57

/-- `to_number`: `ch - '0'`. -/
def to_number (c : Int) : Nat := (c - 48).toNat

/-- `to_number_hex`: hexadecimal digit value, `-1` on non-hex-digit. -/
def to_number_hex (c : Int) : Int :=
  if is_digit c then c - 48
  else if 65 ≤ c && c ≤ 70 then c - 65 + 10
  else if 97 ≤ c && c ≤ 102 then c - 97 + 10
  else -1

/-- `is_alpha`: ASCII letter. -/
def is_alpha (c : Int) : Bool := (65 ≤ c && c ≤ 90) || (97 ≤ c && c ≤ 122)

/-- `equals(ch, expected...)`: read one byte per expected byte until a
mismatch; result is whether all matched, the last byte read, and the
stream after it. -/
def eqSeq : List Int → Stm → Bool × Int × Stm
  | [], s => (true, eofCh, s)
  | e :: es, s =>
    let (c, s1) := s.get
    if c = e then
      match es with
      | [] => (true, c, s1)
      | _ :: _ => eqSeq es s1
    else (false, c, s1)

/-! ## Whitespace and comment skipping (`parse_context::skip_spaces`)

The C++ routine is one loop with two `goto` labels (`reeval_space`,
`reeval_asterisk`); it is rendered as three mutually recursive functions,
one per re-entry point, all driven by the same fuel. -/

mutual

/-- The body of `skip_spaces` from label `reeval_space` on, with `c` the
character under examination. -/
def skip_evalF : Nat → Nat → Int → Stm → Except PErr (Int × Stm)
  | 0, _, _, _ => .error .fuel
  | f + 1, fl, c, s =>
    if c == 9 || c == 10 || c == 13 || c == 32 then
      let (c2, s2) := s.get
      skip_evalF f fl c2 s2
    else if c == 47 then
      if has_flag fl (flags.single_line_comment ||| flags.multi_line_comment) then
        let (c2, s2) := s.get
        if has_flag fl flags.single_line_comment && c2 == 47 then
          line_skipF f fl s2
        else if has_flag fl flags.multi_line_comment && c2 == 42 then
          let (c3, s3) := s2.get
          block_astF f fl c3 s3
        else
          .ok (c2, s2)
      else .ok (c, s)
    else .ok (c, s)

/-- The single-line-comment loop: consume to end of line, then re-enter
`reeval_space` with the terminating character. -/
def line_skipF : Nat → Nat → Stm → Except PErr (Int × Stm)
  | 0, _, _ => .error .fuel
  | f + 1, fl, s =>
    let (c, s1) := s.get
    if c == eofCh || c == 13 || c == 10 then skip_evalF f fl c s1
    else line_skipF f fl s1

/-- The block-comment loop from label `reeval_asterisk` on, with `c` the
character under examination. -/
def block_astF : Nat → Nat → Int → Stm → Except PErr (Int × Stm)
  | 0, _, _, _ => .error .fuel
  | f + 1, fl, c, s =>
    if c == eofCh then .error (.syn c ctxComment)
    else if c != 42 then
      let (c2, s2) := s.get
      block_astF f fl c2 s2
    else
      let (c2, s2) := s.get
      if c2 == 42 then block_astF f fl c2 s2
      else if c2 == 47 then
        let (c3, s3) := s2.get
        skip_evalF f fl c3 s3
      else
        let (c3, s3) := s2.get
        block_astF f fl c3 s3

end

/-- `skip_spaces` with explicit fuel: read a byte and evaluate it. -/
def skip_spacesF (f : Nat) (fl : Nat) (s : Stm) : Except PErr (Int × Stm) :=
  let (c, s1) := s.get
  skip_evalF f fl c s1

/-- `parse_context::skip_spaces`.  Every loop step of the C++ routine
consumes at least one input byte, so the supplied fuel is ample. -/
def skip_spaces (fl : Nat) (s : Stm) : Except PErr (Int × Stm) :=
  skip_spacesF (2 * s.length + 4) fl s

/-! ## Number parsing (`parse_context::parse_number`) -/

/-- `2^64`, the modulus of the `unsigned long long` accumulators. -/
def wrap64 : Nat := 18446744073709551616

/-- The integer-digit loop: `for (; ch = istream.get(), is_digit(ch);)
{ int_part *= 10; int_part += to_number(ch); }`.  Returns the accumulator,
the first non-digit character and the stream after it. -/
def int_loopF : Nat → Nat → Stm → Except PErr (Nat × Int × Stm)
  | 0, _, _ => .error .fuel
  | f + 1, acc, s =>
    let (c, s1) := s.get
    if is_digit c then int_loopF f ((acc * 10 + to_number c) % wrap64) s1
    else .ok (acc, c, s1)

def int_loop (acc : Nat) (s : Stm) : Except PErr (Nat × Int × Stm) :=
  int_loopF (s.length + 1) acc s

/-- The fraction-digit loop: accumulates `frac_part` and counts
`frac_divs`. -/
def frac_loopF : Nat → Nat → Nat → Stm → Except PErr (Nat × Nat × Int × Stm)
  | 0, _, _, _ => .error .fuel
  | f + 1, acc, divs, s =>
    let (c, s1) := s.get
    if is_digit c then frac_loopF f ((acc * 10 + to_number c) % wrap64) (divs + 1) s1
    else .ok (acc, divs, c, s1)

def frac_loop (acc divs : Nat) (s : Stm) : Except PErr (Nat × Nat × Int × Stm) :=
  frac_loopF (s.length + 1) acc divs s

/-- The exponent-digit loop, entered with the current character `c` (which
the caller has checked to be a digit; `exp_part` is a C++ `int`, idealised
as an unbounded natural). -/
def exp_loopF : Nat → Nat → Int → Stm → Except PErr (Nat × Int × Stm)
  | 0, _, _, _ => .error .fuel
  | f + 1, acc, c, s =>
    if is_digit c then
      let (c2, s2) := s.get
      exp_loopF f (acc * 10 + to_number c) c2 s2
    else .ok (acc, c, s)

def exp_loop (acc : Nat) (c : Int) (s : Stm) : Except PErr (Nat × Int × Stm) :=
  exp_loopF (s.length + 2) acc c s

/-- The final value computation of `parse_number`:
`(int + frac·10^-divs) · 10^(±exp)`, negated for a leading minus; the
additions/multiplications are guarded by the same `> 0` tests as the C++
code. -/
def number_value (negative : Bool) (int_part frac_part : Nat) (frac_divs : Nat)
    (exp_negative : Bool) (exp_part : Nat) : ℚ :=
  let v : ℚ := (int_part : ℚ)
  let v : ℚ := if frac_part > 0 then v + (frac_part : ℚ) * (10 : ℚ) ^ (-(frac_divs : ℤ)) else v
  let v : ℚ := if exp_part > 0 then
      v * (10 : ℚ) ^ (if exp_negative then -(exp_part : ℤ) else (exp_part : ℤ)) else v
  if negative then -v else v

/-- The `[frac]` phase of `parse_number`: on a `.`, read fractional
digits and apply the trailing-decimal-point check. -/
def frac_phase (fl : Nat) (c : Int) (s : Stm) : Except PErr (Nat × Nat × Int × Stm) :=
  if c == 46 then do
    let (fp, fd, c', s') ← frac_loop 0 0 s
    if !has_flag fl flags.trailing_decimal_point && fd == 0 then .error (.syn c' ctxNumber)
    else pure (fp, fd, c', s')
  else pure (0, 0, c, s)

/-- The optional exponent sign step of the `[exp]` phase. -/
def exp_sign (c1 : Int) (s1 : Stm) : Bool × Int × Stm :=
  if c1 == 45 then (true, (Stm.get s1).1, (Stm.get s1).2)
  else if c1 == 43 then (false, (Stm.get s1).1, (Stm.get s1).2)
  else (false, c1, s1)

/-- The `[exp]` phase of `parse_number`: on `e`/`E`, optional sign then
one or more digits. -/
def exp_phase (c : Int) (s : Stm) : Except PErr (Nat × Bool × Int × Stm) :=
  if c == 101 || c == 69 then
    let (c1, s1) := Stm.get s
    let (en, c2, s2) := exp_sign c1 s1
    if !is_digit c2 then .error (.syn c2 ctxNumber)
    else do
      let (ep, c3, s3) ← exp_loop 0 c2 s2
      pure (ep, en, c3, s3)
  else pure (0, false, c, s)

/-- The fraction-and-exponent tail of `parse_number`, from the `if (ch ==
'.')` test on, with `c` the current character, ending with the final
`unget`. -/
def parse_number_tail (fl : Nat) (negative : Bool) (int_part : Nat) (c : Int) (s : Stm) :
    Except PErr (JVal × Stm) := do
  let (frac_part, frac_divs, c, s) ← frac_phase fl c s
  let (exp_part, exp_negative, c, s) ← exp_phase c s
  pure (JVal.number
    (.fin (number_value negative int_part frac_part frac_divs exp_negative exp_part)),
    s.unget c)

/-- The `[digit|digits]` block of `parse_number` (after the sign has been
consumed), with `c` the current character. -/
def parse_number_body (fl : Nat) (negative : Bool) (c : Int) (s : Stm) :
    Except PErr (JVal × Stm) :=
  if c == 48 then
    let (c1, s1) := s.get
    parse_number_tail fl negative 0 c1 s1
  else if is_digit c then do
    let (ip, c1, s1) ← int_loop (to_number c) s
    parse_number_tail fl negative ip c1 s1
  else if has_flag fl flags.leading_decimal_point && c == 46 then
    parse_number_tail fl negative 0 c s
  else if has_flag fl flags.infinity_number && c == 105 then
    match eqSeq (bytesOf "nfinity") s with
    | (true, _, s') => .ok (JVal.number (if negative then .negInf else .posInf), s')
    | (false, c', _) => .error (.syn c' ctxNumber)
  else if has_flag fl flags.not_a_number && c == 78 then
    match eqSeq (bytesOf "aN") s with
    | (true, _, s') => .ok (JVal.number .nan, s')
    | (false, c', _) => .error (.syn c' ctxNumber)
  else
    .error (.syn c ctxNumber)

/-- `parse_context::parse_number`, entered with the dispatch character
`c`: optional sign, then the digit block.  Note: the `hexadecimal` flag
is never consulted here (there is no `0x` branch in the source). -/
def parse_number (fl : Nat) (c : Int) (s : Stm) : Except PErr (JVal × Stm) :=
  if c == 45 then parse_number_body fl true (Stm.get s).1 (Stm.get s).2
  else if has_flag fl flags.explicit_plus_sign && c == 43 then
    parse_number_body fl false (Stm.get s).1 (Stm.get s).2
  else parse_number_body fl false c s

/-! ## Literal parsing (`parse_null`, `parse_boolean`) -/

def parse_null (s : Stm) : Except PErr (JVal × Stm) :=
  match eqSeq (bytesOf "ull") s with
  | (true, _, s') => .ok (JVal.null, s')
  | (false, c, _) => .error (.syn c ctxNull)

def parse_boolean (c : Int) (s : Stm) : Except PErr (JVal × Stm) :=
  if c == 116 then
    match eqSeq (bytesOf "rue") s with
    | (true, _, s') => .ok (JVal.boolean true, s')
    | (false, c', _) => .error (.syn c' ctxBoolean)
  else
    match eqSeq (bytesOf "alse") s with
    | (true, _, s') => .ok (JVal.boolean false, s')
    | (false, c', _) => .error (.syn c' ctxBoolean)

/-! ## String parsing (`parse_context::parse_string`) -/

/-- One step of the `\uXXXX` decoder: read a byte, require a hex digit. -/
def hexStep (cname : String) (code : Nat) (s : Stm) : Except PErr (Nat × Stm) :=
  let (c, s1) := s.get
  let n := to_number_hex c
  if n < 0 then .error (.syn c cname)
  else .ok (code * 16 + n.toNat, s1)

/-- `'u' hex hex hex hex`: the decoded UTF-16 code unit. -/
def hexQuad (cname : String) (s : Stm) : Except PErr (Nat × Stm) := do
  let (c1, s) ← hexStep cname 0 s
  let (c2, s) ← hexStep cname c1 s
  let (c3, s) ← hexStep cname c2 s
  hexStep cname c3 s

/-- Re-encoding of one code unit as 1-3 UTF-8 bytes. -/
def utf8enc (code : Nat) : List Int :=
  if code < 128 then [(code : Int)]
  else if code < 2048 then
    [((192 ||| (code >>> 6) : Nat) : Int), ((128 ||| (code &&& 63) : Nat) : Int)]
  else
    [((224 ||| (code >>> 12) : Nat) : Int), ((128 ||| ((code >>> 6) &&& 63) : Nat) : Int),
     ((128 ||| (code &&& 63) : Nat) : Int)]

mutual

/-- The character loop of `parse_string(std::string&, int, const char*)`,
accumulating the decoded bytes; the `[escape]` switch is the second
function of the mutual pair. -/
def str_loopF : Nat → Nat → Int → String → List Int → Stm → Except PErr (List Int × Stm)
  | 0, _, _, _, _, _ => .error .fuel
  | f + 1, fl, quote, cname, acc, s =>
    let (c, s1) := s.get
    if c == quote then .ok (acc, s1)
    else if c < 32 then .error (.syn c cname)
    else if c == 92 then
      let (e, s2) := s1.get
      str_escF f fl quote cname acc e s2
    else str_loopF f fl quote cname (acc ++ [c]) s1

/-- The `[escape]` switch of `parse_string`, entered with the character
`e` that follows the backslash. -/
def str_escF : Nat → Nat → Int → String → List Int → Int → Stm → Except PErr (List Int × Stm)
  | 0, _, _, _, _, _, _ => .error .fuel
  | f + 1, fl, quote, cname, acc, e, s2 =>
    if e == 39 then
      if has_flag fl flags.single_quote then str_loopF f fl quote cname (acc ++ [e]) s2
      else .error (.syn e cname)
    else if e == 34 || e == 92 || e == 47 then str_loopF f fl quote cname (acc ++ [e]) s2
    else if e == 98 then str_loopF f fl quote cname (acc ++ [8]) s2
    else if e == 102 then str_loopF f fl quote cname (acc ++ [12]) s2
    else if e == 110 then str_loopF f fl quote cname (acc ++ [10]) s2
    else if e == 114 then str_loopF f fl quote cname (acc ++ [13]) s2
    else if e == 116 then str_loopF f fl quote cname (acc ++ [9]) s2
    else if e == 117 then
      match hexQuad cname s2 with
      | .error er => .error er
      | .ok (code, s3) => str_loopF f fl quote cname (acc ++ utf8enc code) s3
    else if e == 13 then
      if has_flag fl flags.multi_line_string then
        let (c3, s3) := s2.get
        str_loopF f fl quote cname acc (if c3 == 10 then s3 else s3.unget c3)
      else .error (.syn e cname)
    else if e == 10 then
      if has_flag fl flags.multi_line_string then str_loopF f fl quote cname acc s2
      else .error (.syn e cname)
    else .error (.syn e cname)

end

/-- `parse_string(std::string& buffer, int quote, const char*
context_name)`: quote admissibility check, then the character loop. -/
def parse_string_b (fl : Nat) (quote : Int) (cname : String) (s : Stm) :
    Except PErr (List Int × Stm) :=
  if quote == 34 || (has_flag fl flags.single_quote && quote == 39) then
    str_loopF (2 * s.length + 4) fl quote cname [] s
  else .error (.syn quote cname)

/-- `parse_string(value&, int quote)`. -/
def parse_string_v (fl : Nat) (quote : Int) (s : Stm) : Except PErr (JVal × Stm) := do
  let (b, s') ← parse_string_b fl quote ctxString s
  pure (JVal.str b, s')

/-! ## Object key parsing (`parse_context::parse_key`) -/

/-- The bare-identifier loop of `parse_key`, with `c` the current
character. -/
def key_loopF : Nat → List Int → Int → Stm → Except PErr (List Int × Stm)
  | 0, _, _, _ => .error .fuel
  | f + 1, acc, c, s =>
    if c == 95 || c == 36 || is_alpha c then
      let (c2, s2) := s.get
      key_loopF f (acc ++ [c]) c2 s2
    else if is_digit c && !acc.isEmpty then
      let (c2, s2) := s.get
      key_loopF f (acc ++ [c]) c2 s2
    else if c == 58 then .ok (acc, s.unget c)
    else .error (.syn c ctxObjectKey)

/-- `parse_context::parse_key`. -/
def parse_key (fl : Nat) (s : Stm) : Except PErr (List Int × Stm) := do
  let (c, s1) ← skip_spaces fl s
  if has_flag fl flags.unquoted_key && c != 34 && c != 39 then
    key_loopF (2 * s1.length + 4) [] c s1
  else
    parse_string_b fl c ctxObjectKey s1

/-! ## The value grammar (`parse`, `parse_array`, `parse_object`)

These three are mutually recursive in the C++ source; the shared fuel
decreases at every call. -/

mutual

/-- `parse_context::parse(value&, const char* context_name)`: skip spaces
and comments, then dispatch on the first significant character. -/
def parse_valueF : Nat → Nat → Stm → String → Except PErr (JVal × Stm)
  | 0, _, _, _ => .error .fuel
  | f + 1, fl, s, cname => do
    let (c, s1) ← skip_spaces fl s
    if c == 123 then parse_objectF f fl [] s1
    else if c == 91 then parse_arrayF f fl [] s1
    else if c == 34 || c == 39 then parse_string_v fl c s1
    else if c == 110 then parse_null s1
    else if c == 116 || c == 102 then parse_boolean c s1
    else if is_digit c || c == 45 || c == 43 || c == 46 || c == 105 || c == 78 then
      parse_number fl c s1
    else .error (.syn c cname)

/-- The element loop of `parse_context::parse_array`, carrying the
elements accumulated so far. -/
def parse_arrayF : Nat → Nat → List JVal → Stm → Except PErr (JVal × Stm)
  | 0, _, _, _ => .error .fuel
  | f + 1, fl, elems, s => do
    let (c, s1) ← skip_spaces fl s
    if c == 93 then return (JVal.arr elems, s1)
    let s2 ←
      if elems.isEmpty then pure (s1.unget c)
      else if c != 44 then .error (.syn c ctxArray)
      else if has_flag fl flags.trailing_comma then do
        let (c2, s2) := s1.get
        if c2 == 93 then return (JVal.arr elems, s2)
        pure (s2.unget c2)
      else pure s1
    let (v, s3) ← parse_valueF f fl s2 ctxArray
    parse_arrayF f fl (elems ++ [v]) s3

/-- The member loop of `parse_context::parse_object`, carrying the map
accumulated so far: `emplace(key, nullptr)` followed by parsing into the
returned slot. -/
def parse_objectF : Nat → Nat → List (List Int × JVal) → Stm → Except PErr (JVal × Stm)
  | 0, _, _, _ => .error .fuel
  | f + 1, fl, entries, s => do
    let (c, s1) ← skip_spaces fl s
    if c == 125 then return (JVal.obj entries, s1)
    let s2 ←
      if entries.isEmpty then pure (s1.unget c)
      else if c != 44 then .error (.syn c ctxObject)
      else if has_flag fl flags.trailing_comma then do
        let (c2, s2) := s1.get
        if c2 == 125 then return (JVal.obj entries, s2)
        pure (s2.unget c2)
      else pure s1
    let (key, s3) ← parse_key fl s2
    let (c3, s4) ← skip_spaces fl s3
    if c3 != 58 then .error (.syn c3 ctxObject)
    else do
      let entries1 := obj_emplace entries key .null
      let (v, s5) ← parse_valueF f fl s4 ctxObject
      parse_objectF f fl (obj_assign entries1 key v) s5

end

/-- `parse_context::parse(value&, bool finished)`: parse one top-level
value; in finished mode additionally require only whitespace/comments up
to end-of-input. -/
def parse_topF (f : Nat) (fl : Nat) (finished : Bool) (s : Stm) : Except PErr (JVal × Stm) := do
  let (v, s1) ← parse_valueF f fl s ctxValue
  if finished then do
    let (c, s2) ← skip_spaces fl s1
    if c != eofCh then .error (.syn c ctxValue)
    else .ok (v, s2)
  else .ok (v, s1)

/-- Ample fuel for the value grammar on an input of `n` bytes: each
recursive step of `parse_valueF`/`parse_arrayF`/`parse_objectF` consumes
at least one byte or terminates. -/
def topFuel (n : Nat) : Nat := 2 * n + 8

/-- `json5pp::parse(istream, finished)` with an arbitrary rule
manipulator applied to a fresh context (the ECMA-404 / JSON5 entry points
instantiate `m`). -/
def parseWith (m : manipulator) (finished : Bool) (s : Stm) : Except PErr (JVal × Stm) :=
  let c := apply_manipulator context_base.init m
  parse_topF (topFuel s.length) c.flags finished s

/-- `json5pp::parse(const std::string&)`: ECMA-404 rules, finished. -/
def parse (text : String) : Except PErr (JVal × Stm) :=
  parseWith rule.ecma404 true (bytesOf text)

/-- `json5pp::parse5(const std::string&)`: JSON5 rules, finished. -/
def parse5 (text : String) : Except PErr (JVal × Stm) :=
  parseWith rule.json5 true (bytesOf text)

/-! ## Default numeric text rendering (`out << double`)

`value::stringify_to` clears the stream's format flags and width, so a
finite number is written in `defaultfloat` at the default precision 6,
i.e. with printf `%g` semantics: round to 6 significant digits, use fixed
notation when the decimal exponent `X` satisfies `-4 ≤ X < 6` and
scientific notation otherwise, and strip trailing fractional zeros. -/

/-- Decimal digits of a natural number, most significant first (the fuel
argument only serves structural recursion; `n + 1` always suffices). -/
def decDigitsAux : Nat → Nat → List Nat
  | 0, _ => []
  | f + 1, n => if n < 10 then [n] else decDigitsAux f (n / 10) ++ [n % 10]

def decDigits (n : Nat) : List Nat := decDigitsAux (n + 1) n

/-- ASCII bytes of a digit list. -/
def digitBytes (ds : List Nat) : List Int := ds.map (fun d => ((48 + d : Nat) : Int))

/-- ASCII decimal rendering of a natural number. -/
def decBytes (n : Nat) : List Int := digitBytes (decDigits n)

/-- Remove trailing zero digits (the `%g` stripping step). -/
def dropTrailingZeros (ds : List Nat) : List Nat :=
  (ds.reverse.dropWhile (fun d => d == 0)).reverse

/-- `m` rendered as exactly `f` decimal digits (left-padded with zeros;
requires `m < 10^f`). -/
def padDec (f m : Nat) : List Nat :=
  List.replicate (f - (decDigits m).length) 0 ++ decDigits m

/-- The decimal exponent of a positive rational: the unique `X` with
`10^X ≤ x < 10^(X+1)`. -/
def decExp (x : ℚ) : Int :=
  let cand : Int :=
    if 1 ≤ x then ((decDigits (⌊x⌋).toNat).length - 1 : Nat)
    else -(((decDigits (⌈1 / x⌉).toNat).length - 1 : Nat) : Int)
  if (10 : ℚ) ^ cand ≤ x then cand else cand - 1

/-- Round to the nearest integer (half away from zero on the positives,
which is what the printed doubles of this development hit exactly). -/
def roundQ (y : ℚ) : Nat := (⌊y + 1 / 2⌋).toNat

/-- The exponent field of scientific `%g` output: at least two digits. -/
def expField (x : Int) : List Int :=
  (if x < 0 then [(45 : Int)] else [(43 : Int)]) ++
    digitBytes (let ds := decDigits x.natAbs; if ds.length < 2 then 0 :: ds else ds)

/-- `%g` rendering of a positive rational at precision 6. -/
def fmtGpos (x : ℚ) : List Int :=
  let X0 := decExp x
  let d0 := roundQ (x * (10 : ℚ) ^ ((5 : Int) - X0))
  let d := if d0 = 1000000 then 100000 else d0
  let X := if d0 = 1000000 then X0 + 1 else X0
  if -4 ≤ X ∧ X < 6 then
    if 0 ≤ X then
      let f := ((5 : Int) - X).toNat
      let fds := dropTrailingZeros (padDec f (d % 10 ^ f))
      decBytes (d / 10 ^ f) ++ (if fds.isEmpty then [] else 46 :: digitBytes fds)
    else
      let fds := dropTrailingZeros (List.replicate (-1 - X).toNat 0 ++ decDigits d)
      [48, 46] ++ digitBytes fds
  else
    let fds := dropTrailingZeros (padDec 5 (d % 100000))
    decBytes (d / 100000) ++ (if fds.isEmpty then [] else 46 :: digitBytes fds) ++
      [101] ++ expField X

/-- `%g` rendering at precision 6 of a (finite) double value. -/
def fmtG (q : ℚ) : List Int :=
  if q = 0 then [48] else (if q < 0 then [(45 : Int)] else []) ++ fmtGpos |q|

/-! ## The stringifier (`value::stringify_to`, `value::stringify_string`) -/

/-- A lower-case hexadecimal digit byte (the `hex` table of
`stringify_string`). -/
def hexDigitB (d : Nat) : Int := if d < 10 then ((48 + d : Nat) : Int) else ((87 + d : Nat) : Int)

/-- The escape of one string byte in `stringify_string` (`(unsigned
char)i` is the `% 256` view of the stored byte). -/
def escChar (b : Int) : List Int :=
  let ch : Nat := (b % 256).toNat
  if ch == 34 then [92, 34]
  else if ch == 92 then [92, 92]
  else if ch == 8 then [92, 98]
  else if ch == 12 then [92, 102]
  else if ch == 10 then [92, 110]
  else if ch == 13 then [92, 114]
  else if ch == 9 then [92, 116]
  else if ch < 32 then [92, 117, 48, 48, hexDigitB (ch >>> 4), hexDigitB (ch &&& 15)]
  else [(ch : Int)]

/-- `value::stringify_string`: quote, escape `"` `\\` and the named
control characters, `\u00XX`-escape other control bytes, pass the rest
through. -/
def stringify_string (bs : List Int) : List Int :=
  34 :: (bs.map escChar).flatten ++ [34]

mutual

/-- `value::stringify_to(stringify_context&, const std::string indent)`:
depth-first rendering of one value, `pre` being the accumulated indent
string of the enclosing level. -/
def stringify_to (fl : Nat) (ind : Int) : JVal → List Int → List Int
  | .boolean b, _ => if b then bytesOf "true" else bytesOf "false"
  | .number (.fin q), _ => fmtG q
  | .number .nan, _ =>
    if has_flag fl flags.not_a_number then bytesOf "NaN" else bytesOf "null"
  | .number .posInf, _ =>
    if has_flag fl flags.infinity_number then bytesOf "infinity" else bytesOf "null"
  | .number .negInf, _ =>
    if has_flag fl flags.infinity_number then bytesOf "-infinity" else bytesOf "null"
  | .str bs, _ => stringify_string bs
  | .arr elems, pre =>
    if elems.isEmpty then bytesOf "[]"
    else if ind == 0 then 91 :: stringify_items fl ind elems ++ [93]
    else
      let nl := get_newline fl
      let inner := pre ++ get_indent ⟨fl, ind⟩
      91 :: stringify_items_indent fl ind elems nl inner ++ nl ++ pre ++ [93]
  | .obj entries, pre =>
    if entries.isEmpty then bytesOf "{}"
    else if ind == 0 then 123 :: stringify_members fl ind entries ++ [125]
    else
      let nl := get_newline fl
      let inner := pre ++ get_indent ⟨fl, ind⟩
      123 :: stringify_members_indent fl ind entries nl inner ++ nl ++ pre ++ [125]
  | .null, _ => bytesOf "null"

/-- The comma-joined elements of a non-indented array (the rotating
`delim` of the source contributes `[` before the first element — emitted
by the caller — and `,` before each further one). -/
def stringify_items (fl : Nat) (ind : Int) : List JVal → List Int
  | [] => []
  | v :: vs => stringify_to fl ind v [] ++ stringify_items_tail fl ind vs

def stringify_items_tail (fl : Nat) (ind : Int) : List JVal → List Int
  | [] => []
  | v :: vs => 44 :: stringify_to fl ind v [] ++ stringify_items_tail fl ind vs

/-- Elements of an indented array: each on its own line behind
`newline ++ inner`. -/
def stringify_items_indent (fl : Nat) (ind : Int) :
    List JVal → List Int → List Int → List Int
  | [], _, _ => []
  | v :: vs, nl, inner =>
    nl ++ inner ++ stringify_to fl ind v inner ++
      stringify_items_indent_tail fl ind vs nl inner

def stringify_items_indent_tail (fl : Nat) (ind : Int) :
    List JVal → List Int → List Int → List Int
  | [], _, _ => []
  | v :: vs, nl, inner =>
    44 :: (nl ++ inner ++ stringify_to fl ind v inner ++
      stringify_items_indent_tail fl ind vs nl inner)

/-- Members of a non-indented object: `key:value` with no inserted
whitespace. -/
def stringify_members (fl : Nat) (ind : Int) : List (List Int × JVal) → List Int
  | [] => []
  | (k, v) :: es =>
    stringify_string k ++ 58 :: stringify_to fl ind v [] ++ stringify_members_tail fl ind es

def stringify_members_tail (fl : Nat) (ind : Int) : List (List Int × JVal) → List Int
  | [] => []
  | (k, v) :: es =>
    44 :: (stringify_string k ++ 58 :: stringify_to fl ind v [] ++
      stringify_members_tail fl ind es)

/-- Members of an indented object: `key: value`, one per line. -/
def stringify_members_indent (fl : Nat) (ind : Int) :
    List (List Int × JVal) → List Int → List Int → List Int
  | [], _, _ => []
  | (k, v) :: es, nl, inner =>
    nl ++ inner ++ stringify_string k ++ 58 :: 32 :: stringify_to fl ind v inner ++
      stringify_members_indent_tail fl ind es nl inner

def stringify_members_indent_tail (fl : Nat) (ind : Int) :
    List (List Int × JVal) → List Int → List Int → List Int
  | [], _, _ => []
  | (k, v) :: es, nl, inner =>
    44 :: (nl ++ inner ++ stringify_string k ++ 58 :: 32 :: stringify_to fl ind v inner ++
      stringify_members_indent_tail fl ind es nl inner)

end

/-- `value::stringify(manipulators...)`: apply the manipulators to a
fresh stringify context, then render from a blank indent prefix
(`stringify_to(context, "")`). -/
def stringifyWith (ms : List manipulator) (v : JVal) : List Int :=
  let c := ms.foldl apply_manipulator context_base.init
  stringify_to c.flags c.indent v []

/-! ## Support definitions for the claims -/

/-- A valid stored string byte (C++ `char` viewed as unsigned). -/
def byteOK (b : Int) : Bool := 0 ≤ b && b < 256

/-- Strict ascending key order of an object entry list (the `std::map`
iteration-order invariant). -/
def keysAscB : List (List Int × JVal) → Bool
  | [] => true
  | [_] => true
  | (k1, _) :: (k2, v2) :: es => keyLt k1 k2 && keysAscB ((k2, v2) :: es)

mutual

/-- Round-trip-safe values: every number is a finite integer of magnitude
at most `999999` (so the default 6-significant-digit text rendering is
exact), every string consists of bytes, and every object satisfies the
`std::map` invariant.  All such values are producible by the parser. -/
def SafeB : JVal → Bool
  | .null => true
  | .boolean _ => true
  | .number (.fin q) => q.den == 1 && q.num.natAbs ≤ 999999
  | .number _ => false
  | .str bs => bs.all byteOK
  | .arr es => SafeL es
  | .obj es => keysAscB es && SafeE es

def SafeL : List JVal → Bool
  | [] => true
  | v :: vs => SafeB v && SafeL vs

def SafeE : List (List Int × JVal) → Bool
  | [] => true
  | (k, v) :: es => k.all byteOK && SafeB v && SafeE es

end

mutual

/-- A sufficient fuel for `parse_valueF` to parse the rendering of `v`. -/
def fuelNeed : JVal → Nat
  | .arr es => 1 + fuelNeedL es
  | .obj es => 1 + fuelNeedE es
  | _ => 1

def fuelNeedL : List JVal → Nat
  | [] => 1
  | v :: vs => 1 + max (fuelNeed v) (fuelNeedL vs)

def fuelNeedE : List (List Int × JVal) → Nat
  | [] => 1
  | (_, v) :: es => 1 + max (fuelNeed v) (fuelNeedE es)

end

/-- The net effect on the parsed map of one object member `key : value`:
`emplace(key, nullptr)` followed by writing the parsed value through the
returned iterator. -/
def obj_put (es : List (List Int × JVal)) (k : List Int) (v : JVal) :
    List (List Int × JVal) :=
  obj_assign (obj_emplace es k .null) k v

/-- A key that can be written inside a quoted JSON string without
escapes. -/
def plainKeyB (k : List Int) : Bool :=
  !k.isEmpty && k.all fun b => 32 ≤ b && b < 256 && b != 34 && b != 92

/-- `"key":number` as object-member text. -/
def mkEntryText (k : List Int) (n : Nat) : List Int :=
  34 :: k ++ [34, 58] ++ decBytes n

def mkEntriesTail : List (List Int × Nat) → List Int
  | [] => []
  | (k, n) :: es => 44 :: (mkEntryText k n ++ mkEntriesTail es)

/-- An object text `{"k1":n1,"k2":n2,...}` with arbitrary (possibly
repeated) keys in source order. -/
def mkObjText : List (List Int × Nat) → List Int
  | [] => [123, 125]
  | (k, n) :: es => 123 :: (mkEntryText k n ++ mkEntriesTail es) ++ [125]

/-- The map obtained by `obj_put`-folding the members in source order
(what `parse_object` computes). -/
def objBuildNum (entries : List (List Int × Nat)) : List (List Int × JVal) :=
  entries.foldl (fun m e => obj_put m e.1 (.number (.fin e.2))) []

/-- The value of the last occurrence of `k` in the member list. -/
def lastAssoc : List (List Int × Nat) → List Int → Option Nat
  | [], _ => none
  | (k', n) :: es, k =>
    match lastAssoc es k with
    | some m => some m
    | none => if k' = k then some n else none

/-- Whitespace bytes (the characters `skip_spaces` always consumes). -/
def wsB (c : Int) : Bool := c == 9 || c == 10 || c == 13 || c == 32

/-- A byte list consisting of whitespace only. -/
def wsOnly (bs : List Int) : Bool := bs.all wsB

/-- A byte (or `eofCh`) that terminates a number literal: not a digit and
none of `.`, `e`, `E`. -/
def numTerm (c : Int) : Bool := !is_digit c && c != 46 && c != 101 && c != 69

/-- An identifier-start character of an unquoted object key
(`IdentifierStart`). -/
def identStartB (c : Int) : Bool := c == 95 || c == 36 || is_alpha c

/-- A character allowed inside an unquoted object key. -/
def identCharB (c : Int) : Bool := identStartB c || is_digit c

/-- A well-formed bare (unquoted) object key. -/
def identKeyB : List Int → Bool
  | [] => false
  | c :: cs => identStartB c && cs.all identCharB

/-- A stream whose head (or end-of-input) terminates a number literal and
is a genuine byte, so that pushing it back restores the stream exactly. -/
def numTermS : Stm → Bool
  | [] => true
  | c :: _ => numTerm c && 0 ≤ c

/-- `s'` is what remains of `s` after consuming a prefix (the "trailing
input is left unconsumed" relation of streaming parses). -/
def suffixOf (s' s : Stm) : Prop := ∃ t, s = t ++ s'

/-! ## Round-trip statements

The five loop invariants of the render-then-reparse induction, one per
entry point of the value grammar (value; array/object element loops in
compact and indented form).  Each is a statement about a given fuel. -/

/-- Parsing the rendering of a safe value, after arbitrary leading
whitespace and before a number-terminating rest, recovers the value. -/
def RTvalue (f : Nat) : Prop := ∀ (fl : Nat) (ind : Int) (v : JVal) (ws pre : List Int)
    (rest : Stm) (cname : String),
  SafeB v = true → wsOnly ws = true → wsOnly pre = true → numTermS rest = true →
  fuelNeed v ≤ f →
  parse_valueF f fl (ws ++ stringify_to fl ind v pre ++ rest) cname = .ok (v, rest)

/-- The array element loop on the compact rendering of the remaining
elements. -/
def RTarrT (f : Nat) : Prop := ∀ (fl : Nat) (ind : Int) (vs acc : List JVal) (rest : Stm),
  SafeL vs = true → acc.isEmpty = false → fuelNeedL vs ≤ f →
  parse_arrayF f fl acc (stringify_items_tail fl ind vs ++ 93 :: rest) =
    .ok (.arr (acc ++ vs), rest)

/-- The array element loop on the indented rendering of the remaining
elements. -/
def RTarrTI (f : Nat) : Prop := ∀ (fl : Nat) (ind : Int) (vs acc : List JVal)
    (nl inner endws : List Int) (rest : Stm),
  SafeL vs = true → acc.isEmpty = false → wsOnly nl = true → wsOnly inner = true →
  wsOnly endws = true → fuelNeedL vs ≤ f →
  parse_arrayF f fl acc
      (stringify_items_indent_tail fl ind vs nl inner ++ (endws ++ 93 :: rest)) =
    .ok (.arr (acc ++ vs), rest)

/-- The object member loop on the compact rendering of the remaining
members. -/
def RTobjT (f : Nat) : Prop := ∀ (fl : Nat) (ind : Int) (es acc : List (List Int × JVal))
    (rest : Stm),
  SafeE es = true → acc.isEmpty = false → keysAscB (acc ++ es) = true → fuelNeedE es ≤ f →
  parse_objectF f fl acc (stringify_members_tail fl ind es ++ 125 :: rest) =
    .ok (.obj (acc ++ es), rest)

/-- The object member loop on the indented rendering of the remaining
members. -/
def RTobjTI (f : Nat) : Prop := ∀ (fl : Nat) (ind : Int) (es acc : List (List Int × JVal))
    (nl inner endws : List Int) (rest : Stm),
  SafeE es = true → acc.isEmpty = false → keysAscB (acc ++ es) = true → wsOnly nl = true →
  wsOnly inner = true → wsOnly endws = true → fuelNeedE es ≤ f →
  parse_objectF f fl acc
      (stringify_members_indent_tail fl ind es nl inner ++ (endws ++ 125 :: rest)) =
    .ok (.obj (acc ++ es), rest)

/-- All five round-trip invariants at a given fuel. -/
def RTall (f : Nat) : Prop := RTvalue f ∧ RTarrT f ∧ RTarrTI f ∧ RTobjT f ∧ RTobjTI f

/-! # Theorems -/

/-! ## Whitespace-skipping lemmas -/

lemma skip_evalF_sig (f fl : Nat) (c : Int) (s : Stm) (hc : wsB c = false) (h47 : c ≠ 47) :
    skip_evalF (f + 1) fl c s = .ok (c, s) := by
  have h1 : (c == 9 || c == 10 || c == 13 || c == 32) = false := hc
  have h2 : (c == 47) = false := by simpa using h47
  simp only [skip_evalF, h1, h2, Bool.false_eq_true, if_false]

lemma skip_evalF_ws (f fl : Nat) (c : Int) (s : Stm) (hc : wsB c = true) :
    skip_evalF (f + 1) fl c s = skip_spacesF f fl s := by
  have h1 : (c == 9 || c == 10 || c == 13 || c == 32) = true := hc
  simp only [skip_evalF, h1, if_true, skip_spacesF]

lemma skip_spacesF_ws (fl : Nat) (c : Int) (rest : Stm)
    (hc : wsB c = false) (h47 : c ≠ 47) :
    ∀ (ws : List Int) (f : Nat), wsOnly ws = true → ws.length + 2 ≤ f →
      skip_spacesF f fl (ws ++ c :: rest) = .ok (c, rest) := by
  intro ws
  induction ws with
  | nil =>
    intro f _ hf
    obtain ⟨f', rfl⟩ : ∃ f', f = f' + 1 := ⟨f - 1, by omega⟩
    simp only [List.nil_append, skip_spacesF, Stm.get]
    exact skip_evalF_sig f' fl c rest hc h47
  | cons w ws ih =>
    intro f hws hf
    obtain ⟨f', rfl⟩ : ∃ f', f = f' + 1 := ⟨f - 1, by omega⟩
    simp only [wsOnly, List.all_cons, Bool.and_eq_true] at hws
    simp only [List.cons_append, skip_spacesF, Stm.get]
    rw [skip_evalF_ws f' fl w _ hws.1]
    exact ih f' hws.2 (by simpa using Nat.le_of_succ_le_succ hf)

lemma skip_spacesF_ws_eof (fl : Nat) :
    ∀ (ws : List Int) (f : Nat), wsOnly ws = true → ws.length + 2 ≤ f →
      skip_spacesF f fl ws = .ok (eofCh, []) := by
  intro ws
  induction ws with
  | nil =>
    intro f _ hf
    obtain ⟨f', rfl⟩ : ∃ f', f = f' + 1 := ⟨f - 1, by omega⟩
    simp only [skip_spacesF, Stm.get]
    exact skip_evalF_sig f' fl eofCh [] (by decide) (by decide)
  | cons w ws ih =>
    intro f hws hf
    obtain ⟨f', rfl⟩ : ∃ f', f = f' + 1 := ⟨f - 1, by omega⟩
    simp only [wsOnly, List.all_cons, Bool.and_eq_true] at hws
    simp only [skip_spacesF, Stm.get]
    rw [skip_evalF_ws f' fl w _ hws.1]
    exact ih f' hws.2 (by simpa using Nat.le_of_succ_le_succ hf)

/-- `skip_spaces` on whitespace followed by a significant character. -/
lemma skip_spaces_ws (fl : Nat) (ws : List Int) (c : Int) (rest : Stm)
    (hws : wsOnly ws = true) (hc : wsB c = false) (h47 : c ≠ 47) :
    skip_spaces fl (ws ++ c :: rest) = .ok (c, rest) := by
  apply skip_spacesF_ws fl c rest hc h47 ws _ hws
  simp only [List.length_append, List.length_cons]
  omega

/-- `skip_spaces` on trailing whitespace runs into end-of-input. -/
lemma skip_spaces_ws_eof (fl : Nat) (ws : List Int) (hws : wsOnly ws = true) :
    skip_spaces fl ws = .ok (eofCh, []) := by
  apply skip_spacesF_ws_eof fl ws _ hws
  omega

/-- `skip_spaces` at a significant first character consumes just it. -/
lemma skip_spaces_sig (fl : Nat) (c : Int) (rest : Stm)
    (hc : wsB c = false) (h47 : c ≠ 47) :
    skip_spaces fl (c :: rest) = .ok (c, rest) :=
  skip_spaces_ws fl [] c rest rfl hc h47

/-! ## Claim C5: stringify of empty containers -/

/-- C5: for every flag configuration and every indentation setting (no
indent, or any unit character and repeat count), stringify of an empty
Array yields exactly `[]` and stringify of an empty Object yields exactly
`{}`. -/
theorem C5_empty_containers :
    (∀ (fl : Nat) (ind : Int) (pre : List Int),
      stringify_to fl ind (.arr []) pre = bytesOf "[]" ∧
      stringify_to fl ind (.obj []) pre = bytesOf "{}") ∧
    (∀ ms : List manipulator,
      stringifyWith ms (.arr []) = bytesOf "[]" ∧
      stringifyWith ms (.obj []) = bytesOf "{}") :=
  ⟨fun _ _ _ => ⟨rfl, rfl⟩, fun _ => ⟨rfl, rfl⟩⟩

/-! ## Claim C8: non-finite number rendering -/

/-- C8: stringify renders NaN as `NaN` when the not-a-number toggle is
enabled and as `null` otherwise, and renders +Infinity / -Infinity as
`infinity` / `-infinity` when the infinity toggle is enabled and as
`null` otherwise. -/
theorem C8_nonfinite_rendering :
    ∀ (fl : Nat) (ind : Int) (pre : List Int),
      stringify_to fl ind (.number .nan) pre =
        (if has_flag fl flags.not_a_number then bytesOf "NaN" else bytesOf "null") ∧
      stringify_to fl ind (.number .posInf) pre =
        (if has_flag fl flags.infinity_number then bytesOf "infinity" else bytesOf "null") ∧
      stringify_to fl ind (.number .negInf) pre =
        (if has_flag fl flags.infinity_number then bytesOf "-infinity" else bytesOf "null") :=
  fun _ _ _ => ⟨rfl, rfl, rfl⟩

/-! ## Claim C6: `{a:123,}` under json5 and ecma404 -/

/-- C6: parsing `{a:123,}` under the json5 preset yields an Object with
exactly one entry, key `a`, value Number `123`; under the ecma404 preset
it raises SyntaxError at character `a` (byte 97) in context
`object-key`. -/
theorem C6_trailing_comma_unquoted :
    parse5 "{a:123,}" = .ok (.obj [([97], .number (.fin 123))], []) ∧
    parse "{a:123,}" = .error (.syn 97 ctxObjectKey) :=
  ⟨rfl, rfl⟩

/-! ## Claim C1: hexadecimal numbers -/

/-- C1 (code bug): the `hexadecimal` rule flag exists but `parse_number`
has no `0x` branch, so parsing `-0x0a9f` raises SyntaxError at the `x`
(byte 120) even with the hexadecimal toggle enabled (the repository's own
test expects the Number `-0x0a9f = -2719`); with the toggle disabled it
raises the same SyntaxError, as the claim states. -/
theorem C1_hexadecimal_unimplemented :
    parseWith (rule.hexadecimal true) true (bytesOf "-0x0a9f") =
      .error (.syn 120 ctxValue) ∧
    parse5 "-0x0a9f" = .error (.syn 120 ctxValue) ∧
    parseWith (rule.hexadecimal false) true (bytesOf "-0x0a9f") =
      .error (.syn 120 ctxValue) ∧
    parse "-0x0a9f" = .error (.syn 120 ctxValue) :=
  ⟨rfl, rfl, rfl, rfl⟩

/-! ## Claim C9: manipulator application -/

/-- C9: (a) a single-toggle manipulator (two-argument constructor) changes
only the bits of its own mask, leaving every other bit of the 16-bit
RuleSet register and the indent setting unchanged; (b) in general a
manipulator is applied by clearing its clear-mask bits, then setting its
set-mask bits, then replacing the indent only if an indent override was
specified; (c) in a left-to-right sequence, the final value of every bit
touched by a later manipulator is determined by that manipulator alone —
it overrides whatever any earlier manipulator and the original context
contributed. -/
theorem C9_manipulator_application :
    (∀ (mask : Nat) (allow : Bool) (c : context_base) (i : Nat), i < 16 →
      mask.testBit i = false →
      (apply_manipulator c (manipulator.ofFlags mask allow)).flags.testBit i =
        c.flags.testBit i ∧
      (apply_manipulator c (manipulator.ofFlags mask allow)).indent = c.indent) ∧
    (∀ (m : manipulator) (c : context_base) (i : Nat), i < 16 →
      (apply_manipulator c m).flags.testBit i =
        (m.flags_set.testBit i || (c.flags.testBit i && !(m.flags_clear.testBit i))) ∧
      (apply_manipulator c m).indent = (if m.indent_set then m.indent else c.indent)) ∧
    (∀ (m1 m2 : manipulator) (c c' : context_base) (i : Nat), i < 16 →
      (m2.flags_set ||| m2.flags_clear).testBit i = true →
      (apply_manipulator (apply_manipulator c m1) m2).flags.testBit i =
        (apply_manipulator c' m2).flags.testBit i) := by
  have key : ∀ (m : manipulator) (c : context_base) (i : Nat), i < 16 →
      (apply_manipulator c m).flags.testBit i =
        (m.flags_set.testBit i || (c.flags.testBit i && !(m.flags_clear.testBit i))) := by
    intro m c i hi
    have h65535 : Nat.testBit 65535 i = true := by
      rw [show (65535 : Nat) = 2 ^ 16 - 1 from rfl, Nat.testBit_two_pow_sub_one]
      simpa using hi
    simp only [apply_manipulator, Nat.testBit_lor, Nat.testBit_land, Nat.testBit_xor, h65535,
      Bool.xor_true, Bool.or_comm]
  refine ⟨?_, ?_, ?_⟩
  · intro mask allow c i hi hm
    constructor
    · rw [key _ c i hi]
      cases allow <;>
        simp [manipulator.ofFlags, hm]
    · simp [apply_manipulator, manipulator.ofFlags]
  · intro m c i hi
    exact ⟨key m c i hi, rfl⟩
  · intro m1 m2 c c' i hi htouch
    rw [key m2 _ i hi, key m2 c' i hi]
    rw [Nat.testBit_lor] at htouch
    rcases Bool.or_eq_true_iff.mp htouch with h | h
    · simp [h]
    · simp [h]

/-- Witness for C9 at concrete inputs: toggling `trailing_comma` (bit 10)
on the context `⟨4095, 3⟩` leaves bit 0 and the indent unchanged, and
applying `ecma404` then `json5` gives the same bit 3 as `json5` alone. -/
theorem C9_manipulator_application_witness :
    ((0 : Nat) < 16 ∧ (1024 : Nat).testBit 0 = false) ∧
    ((apply_manipulator ⟨4095, 3⟩ (manipulator.ofFlags 1024 true)).flags.testBit 0 =
        (⟨4095, 3⟩ : context_base).flags.testBit 0 ∧
      (apply_manipulator ⟨4095, 3⟩ (manipulator.ofFlags 1024 true)).indent =
        (⟨4095, 3⟩ : context_base).indent) ∧
    (apply_manipulator (apply_manipulator ⟨9, 9⟩ rule.ecma404) rule.json5).flags.testBit 3 =
      (apply_manipulator ⟨21, 0⟩ rule.json5).flags.testBit 3 :=
  ⟨⟨by decide, by decide⟩,
    C9_manipulator_application.1 1024 true ⟨4095, 3⟩ 0 (by decide) (by decide),
    C9_manipulator_application.2.2 rule.ecma404 rule.json5 ⟨9, 9⟩ ⟨21, 0⟩ 3 (by decide)
      (by decide)⟩

/-! ## Claim C3: the dispatch of the parser entry point -/

/-- C3 counterexample: with comments enabled, a `/` that does not begin a
valid comment does not raise SyntaxError — `skip_spaces` silently consumes
it, so `/1` parses as the Number `1` under the json5 preset. -/
theorem C3_slash_counterexample :
    parse5 "/1" = .ok (.number (.fin 1), []) :=
  rfl

/-- C3 (amended): the entry point dispatches on the character returned by
the whitespace/comment skipper — `{` to object, `[` to array, `"` or `'`
to string, `n` to null, `t`/`f` to boolean, digits and `-`/`+`/`.`/`i`/`N`
to number, anything else raises SyntaxError (part 1, part 3) — but when
comments are enabled and a `/` is not followed by a valid comment opener,
the skipper consumes the `/` and yields the character after it, so
dispatch proceeds on that character instead of raising SyntaxError at the
`/` (part 2). -/
theorem C3_dispatch_amended :
    (∀ (f fl : Nat) (s : Stm) (cname : String),
      parse_valueF (f + 1) fl s cname =
        match skip_spaces fl s with
        | .error e => .error e
        | .ok (c, s1) =>
          if c == 123 then parse_objectF f fl [] s1
          else if c == 91 then parse_arrayF f fl [] s1
          else if c == 34 || c == 39 then parse_string_v fl c s1
          else if c == 110 then parse_null s1
          else if c == 116 || c == 102 then parse_boolean c s1
          else if is_digit c || c == 45 || c == 43 || c == 46 || c == 105 || c == 78 then
            parse_number fl c s1
          else .error (.syn c cname)) ∧
    (∀ (fl : Nat) (c : Int) (s : Stm),
      has_flag fl (flags.single_line_comment ||| flags.multi_line_comment) = true →
      (has_flag fl flags.single_line_comment && (c == 47)) = false →
      (has_flag fl flags.multi_line_comment && (c == 42)) = false →
      skip_spaces fl (47 :: c :: s) = .ok (c, s)) ∧
    (∀ (f fl : Nat) (s : Stm) (cname : String) (c : Int) (s1 : Stm),
      skip_spaces fl s = .ok (c, s1) →
      (c == 123 || c == 91 || c == 34 || c == 39 || c == 110 || c == 116 || c == 102 ||
        is_digit c || c == 45 || c == 43 || c == 46 || c == 105 || c == 78) = false →
      parse_valueF (f + 1) fl s cname = .error (.syn c cname)) := by
  have dispatch : ∀ (f fl : Nat) (s : Stm) (cname : String),
      parse_valueF (f + 1) fl s cname =
        match skip_spaces fl s with
        | .error e => .error e
        | .ok (c, s1) =>
          if c == 123 then parse_objectF f fl [] s1
          else if c == 91 then parse_arrayF f fl [] s1
          else if c == 34 || c == 39 then parse_string_v fl c s1
          else if c == 110 then parse_null s1
          else if c == 116 || c == 102 then parse_boolean c s1
          else if is_digit c || c == 45 || c == 43 || c == 46 || c == 105 || c == 78 then
            parse_number fl c s1
          else .error (.syn c cname) := by
    intro f fl s cname
    cases h : skip_spaces fl s with
    | error e =>
      show (do
        let (c, s1) ← skip_spaces fl s
        if c == 123 then parse_objectF f fl [] s1
        else if c == 91 then parse_arrayF f fl [] s1
        else if c == 34 || c == 39 then parse_string_v fl c s1
        else if c == 110 then parse_null s1
        else if c == 116 || c == 102 then parse_boolean c s1
        else if is_digit c || c == 45 || c == 43 || c == 46 || c == 105 || c == 78 then
          parse_number fl c s1
        else .error (.syn c cname) : Except PErr (JVal × Stm)) = _
      rw [h]
      rfl
    | ok cs =>
      obtain ⟨c, s1⟩ := cs
      show (do
        let (c, s1) ← skip_spaces fl s
        if c == 123 then parse_objectF f fl [] s1
        else if c == 91 then parse_arrayF f fl [] s1
        else if c == 34 || c == 39 then parse_string_v fl c s1
        else if c == 110 then parse_null s1
        else if c == 116 || c == 102 then parse_boolean c s1
        else if is_digit c || c == 45 || c == 43 || c == 46 || c == 105 || c == 78 then
          parse_number fl c s1
        else .error (.syn c cname) : Except PErr (JVal × Stm)) = _
      rw [h]
      rfl
  refine ⟨dispatch, ?_, ?_⟩
  · intro fl c s hflag hsl hml
    have hsl' : ¬(has_flag fl flags.single_line_comment = true ∧ c = 47) := by
      rintro ⟨ha, hb⟩
      rw [ha, hb] at hsl
      simp at hsl
    have hml' : ¬(has_flag fl flags.multi_line_comment = true ∧ c = 42) := by
      rintro ⟨ha, hb⟩
      rw [ha, hb] at hml
      simp at hml
    have hlen : 2 * (47 :: c :: s : Stm).length + 4 = (2 * s.length + 7) + 1 := by
      simp [List.length_cons]
      omega
    simp only [skip_spaces, hlen, skip_spacesF, Stm.get]
    simp only [skip_evalF, hflag, Stm.get]
    norm_num [hsl', hml']
  · intro f fl s cname c s1 hskip hset
    rw [dispatch f fl s cname, hskip]
    simp only [Bool.or_eq_false_iff] at hset
    obtain ⟨⟨⟨⟨⟨⟨⟨⟨⟨⟨⟨⟨h1, h2⟩, h3⟩, h4⟩, h5⟩, h6⟩, h7⟩, h8⟩, h9⟩, h10⟩, h11⟩, h12⟩, h13⟩ := hset
    simp [h1, h2, h3, h4, h5, h6, h7, h8, h9, h10, h11, h12, h13]

/-! ## Monadic reduction helpers -/

lemma okBind {α β : Type} (v : α) (g : α → Except PErr β) :
    (Except.ok v >>= g) = g v := rfl

lemma errBind {α β : Type} (e : PErr) (g : α → Except PErr β) :
    ((Except.error e : Except PErr α) >>= g) = .error e := rfl

/-! ## Claim C10: bare keys must be followed immediately by the colon -/

lemma identStartB_not_ws {c : Int} (h : identStartB c = true) :
    wsB c = false ∧ c ≠ 47 ∧ (c != 34 && c != 39) = true := by
  simp only [identStartB, is_alpha, Bool.or_eq_true, beq_iff_eq, Bool.and_eq_true,
    decide_eq_true_eq] at h
  refine ⟨?_, ?_, ?_⟩
  · simp only [wsB, Bool.or_eq_false_iff, beq_eq_false_iff_ne]
    omega
  · omega
  · simp only [Bool.and_eq_true, bne_iff_ne]
    omega

lemma key_loopF_step (f : Nat) (acc : List Int) (c : Int) (s : Stm)
    (hc : (identStartB c || (is_digit c && !acc.isEmpty)) = true) :
    key_loopF (f + 1) acc c s =
      key_loopF f (acc ++ [c]) (Stm.get s).1 (Stm.get s).2 := by
  cases h1 : identStartB c with
  | true =>
    have h1' : (c == 95 || c == 36 || is_alpha c) = true := h1
    simp only [key_loopF, h1', if_true]
  | false =>
    have h2 : (is_digit c && !acc.isEmpty) = true := by
      rw [h1, Bool.false_or] at hc
      exact hc
    have h1' : (c == 95 || c == 36 || is_alpha c) = false := h1
    simp only [key_loopF, h1', h2, Bool.false_eq_true, if_false, if_true]

lemma key_loopF_err (d : Int) (hd : identCharB d = false) (hd58 : d ≠ 58) (rest : Stm) :
    ∀ (ks acc : List Int) (c : Int) (f : Nat),
      ks.all identCharB = true →
      (identStartB c || (is_digit c && !acc.isEmpty)) = true →
      ks.length + 2 ≤ f →
      key_loopF f acc c (ks ++ d :: rest) = .error (.syn d ctxObjectKey) := by
  have hstart : identStartB d = false := by
    simp only [identCharB, Bool.or_eq_false_iff] at hd
    exact hd.1
  have hdig : is_digit d = false := by
    simp only [identCharB, Bool.or_eq_false_iff] at hd
    exact hd.2
  intro ks
  induction ks with
  | nil =>
    intro acc c f _ hc hf
    obtain ⟨f', rfl⟩ : ∃ f', f = f' + 1 := ⟨f - 1, by omega⟩
    rw [key_loopF_step f' acc c _ hc]
    obtain ⟨f'', rfl⟩ : ∃ f'', f' = f'' + 1 := ⟨f' - 1, by omega⟩
    have h1' : (d == 95 || d == 36 || is_alpha d) = false := hstart
    have h2 : (is_digit d && !(acc ++ [c]).isEmpty) = false := by
      rw [hdig]
      rfl
    have h58 : (d == 58) = false := by simpa using hd58
    simp only [List.nil_append, Stm.get, key_loopF, h1', h2, h58, Bool.false_eq_true, if_false]
  | cons k ks ih =>
    intro acc c f hks hc hf
    obtain ⟨f', rfl⟩ : ∃ f', f = f' + 1 := ⟨f - 1, by omega⟩
    rw [key_loopF_step f' acc c _ hc]
    simp only [List.all_cons, Bool.and_eq_true] at hks
    simp only [List.cons_append, Stm.get]
    apply ih (acc ++ [c]) k f' hks.2 _ (by simp at hf ⊢; omega)
    have hk : identCharB k = true := hks.1
    simp only [identCharB, Bool.or_eq_true] at hk
    rcases hk with h | h
    · simp [h]
    · simp [h]

/-- C10: with the unquoted-key toggle enabled, a bare object key must be
followed immediately by the colon: any character `d` after the
identifier characters that is not a letter, digit, `_`, `$` or `:` —
a space in particular — raises SyntaxError at `d` in context
`object-key`; so `{a :1}` fails under json5 while `{a:1}` succeeds. -/
theorem C10_bare_key_requires_colon :
    (∀ (fl : Nat) (k : List Int) (d : Int) (rest : Stm),
      has_flag fl flags.unquoted_key = true →
      identKeyB k = true → identCharB d = false → d ≠ 58 →
      parse_key fl (k ++ d :: rest) = .error (.syn d ctxObjectKey)) ∧
    parse5 "{a :1}" = .error (.syn 32 ctxObjectKey) ∧
    parse5 "{a:1}" = .ok (.obj [([97], .number (.fin 1))], []) := by
  refine ⟨?_, rfl, rfl⟩
  intro fl k d rest hfl hk hd hd58
  match k, hk with
  | c0 :: ks, hk =>
    simp only [identKeyB, Bool.and_eq_true] at hk
    obtain ⟨hstart, hks⟩ := hk
    obtain ⟨hws, h47, hq⟩ := identStartB_not_ws hstart
    simp only [parse_key, List.cons_append]
    rw [skip_spaces_sig fl c0 (ks ++ d :: rest) hws h47, okBind]
    simp only [hfl, hq, Bool.true_and, if_true]
    apply key_loopF_err d hd hd58 rest ks [] c0 _ hks (by simp [hstart])
    simp only [List.length_append, List.length_cons]
    omega

/-- Witness for C10 at a concrete input: key `a` followed by a space. -/
theorem C10_bare_key_requires_colon_witness :
    parse_key 4095 ([97] ++ 32 :: bytesOf ":1\x7d") = .error (.syn 32 ctxObjectKey) :=
  C10_bare_key_requires_colon.1 4095 [97] 32 (bytesOf ":1\x7d") (by decide) (by decide)
    (by decide) (by decide)

/-- Witness for C3 at concrete inputs: under json5 flags (4095) the
skipper consumes `/` before `1`, and a lone `*` is dispatched to
SyntaxError. -/
theorem C3_dispatch_amended_witness :
    skip_spaces 4095 [47, 49] = .ok (49, []) ∧
    parse_valueF 6 0 [42] ctxValue = .error (.syn 42 ctxValue) :=
  ⟨C3_dispatch_amended.2.1 4095 49 [] (by decide) (by decide) (by decide),
    C3_dispatch_amended.2.2 5 0 [42] ctxValue 42 [] rfl (by decide)⟩

/-! ## Claim C7: finished vs streaming completion

The frame machinery: every parser routine leaves a suffix of its input
stream (consumption only moves forward; `unget` only restores the byte
just read). -/

lemma suffixOf_refl (s : Stm) : suffixOf s s := ⟨[], rfl⟩

lemma suffixOf_trans {s3 s2 s1 : Stm} (h21 : suffixOf s2 s1) (h32 : suffixOf s3 s2) :
    suffixOf s3 s1 := by
  obtain ⟨t1, rfl⟩ := h21
  obtain ⟨t2, rfl⟩ := h32
  exact ⟨t1 ++ t2, by simp⟩

lemma unget_suffix (s : Stm) (c : Int) : suffixOf s (s.unget c) := by
  unfold Stm.unget
  split
  · exact suffixOf_refl s
  · exact ⟨[c], rfl⟩

lemma get_unget_suffix (s : Stm) : suffixOf ((Stm.get s).2.unget (Stm.get s).1) s := by
  cases s with
  | nil => exact suffixOf_refl _
  | cons c t =>
    simp only [Stm.get, Stm.unget]
    split
    · exact ⟨[c], rfl⟩
    · exact suffixOf_refl _

lemma get_suffix (s : Stm) : suffixOf (Stm.get s).2 s :=
  suffixOf_trans (get_unget_suffix s) (unget_suffix _ _)

lemma skip_group_suffix : ∀ f : Nat,
    (∀ fl c s c' s', skip_evalF f fl c s = .ok (c', s') →
      suffixOf (s'.unget c') (s.unget c)) ∧
    (∀ fl s c' s', line_skipF f fl s = .ok (c', s') → suffixOf (s'.unget c') s) ∧
    (∀ fl c s c' s', block_astF f fl c s = .ok (c', s') → suffixOf (s'.unget c') s) := by
  intro f
  induction f with
  | zero =>
    refine ⟨?_, ?_, ?_⟩ <;> intro _ _ <;> intros <;> simp_all [skip_evalF, line_skipF, block_astF]
  | succ f ih =>
    obtain ⟨ihE, ihL, ihB⟩ := ih
    refine ⟨?_, ?_, ?_⟩
    · intro fl c s c' s' h
      simp only [skip_evalF] at h
      have huc : suffixOf s (s.unget c) := unget_suffix s c
      have hgu : suffixOf ((Stm.get s).2.unget (Stm.get s).1) s := get_unget_suffix s
      have hg : suffixOf (Stm.get s).2 s := get_suffix s
      split at h
      · exact suffixOf_trans huc (suffixOf_trans hgu (ihE fl _ _ _ _ h))
      · split at h
        · split at h
          · split at h
            · exact suffixOf_trans huc (suffixOf_trans hg (ihL fl _ _ _ h))
            · split at h
              · refine suffixOf_trans huc (suffixOf_trans hg ?_)
                exact suffixOf_trans (get_suffix (Stm.get s).2) (ihB fl _ _ _ _ h)
              · cases h
                exact suffixOf_trans huc hgu
          · cases h
            exact suffixOf_refl _
        · cases h
          exact suffixOf_refl _
    · intro fl s c' s' h
      simp only [line_skipF] at h
      split at h
      · exact suffixOf_trans (get_unget_suffix s) (ihE fl _ _ _ _ h)
      · exact suffixOf_trans (get_suffix s) (ihL fl _ _ _ h)
    · intro fl c s c' s' h
      simp only [block_astF] at h
      split at h
      · exact absurd h (by simp)
      · split at h
        · exact suffixOf_trans (get_suffix s) (ihB fl _ _ _ _ h)
        · split at h
          · exact suffixOf_trans (get_suffix s) (ihB fl _ _ _ _ h)
          · split at h
            · exact suffixOf_trans (get_suffix s)
                (suffixOf_trans (get_unget_suffix _) (ihE fl _ _ _ _ h))
            · exact suffixOf_trans (get_suffix s)
                (suffixOf_trans (get_suffix _) (ihB fl _ _ _ _ h))

lemma skip_spaces_suffix {fl : Nat} {s : Stm} {c' : Int} {s' : Stm}
    (h : skip_spaces fl s = .ok (c', s')) : suffixOf (s'.unget c') s := by
  simp only [skip_spaces, skip_spacesF] at h
  exact suffixOf_trans (get_unget_suffix s) ((skip_group_suffix _).1 fl _ _ _ _ h)

lemma skip_spaces_suffix' {fl : Nat} {s : Stm} {c' : Int} {s' : Stm}
    (h : skip_spaces fl s = .ok (c', s')) : suffixOf s' s :=
  suffixOf_trans (skip_spaces_suffix h) (unget_suffix s' c')

lemma eqSeq_suffix : ∀ (cs : List Int) (s : Stm) {b : Bool} {c' : Int} {s' : Stm},
    eqSeq cs s = (b, c', s') → suffixOf s' s := by
  intro cs
  induction cs with
  | nil =>
    intro s b c' s' h
    cases h
    exact suffixOf_refl s
  | cons e es ih =>
    intro s b c' s' h
    simp only [eqSeq] at h
    split at h
    · match es, h with
      | [], h => cases h; exact get_suffix s
      | _ :: _, h => exact suffixOf_trans (get_suffix s) (ih _ h)
    · cases h
      exact get_suffix s

lemma int_loopF_suffix : ∀ (f acc : Nat) (s : Stm) {acc' : Nat} {c' : Int} {s' : Stm},
    int_loopF f acc s = .ok (acc', c', s') → suffixOf (s'.unget c') s := by
  intro f
  induction f with
  | zero => intro acc s acc' c' s' h; simp [int_loopF] at h
  | succ f ih =>
    intro acc s acc' c' s' h
    simp only [int_loopF] at h
    split at h
    · exact suffixOf_trans (get_suffix s) (ih _ _ h)
    · cases h
      exact get_unget_suffix s

lemma frac_loopF_suffix : ∀ (f acc divs : Nat) (s : Stm) {a d : Nat} {c' : Int} {s' : Stm},
    frac_loopF f acc divs s = .ok (a, d, c', s') → suffixOf (s'.unget c') s := by
  intro f
  induction f with
  | zero => intro acc divs s a d c' s' h; simp [frac_loopF] at h
  | succ f ih =>
    intro acc divs s a d c' s' h
    simp only [frac_loopF] at h
    split at h
    · exact suffixOf_trans (get_suffix s) (ih _ _ _ h)
    · cases h
      exact get_unget_suffix s

lemma exp_loopF_suffix : ∀ (f acc : Nat) (c : Int) (s : Stm) {a : Nat} {c' : Int} {s' : Stm},
    exp_loopF f acc c s = .ok (a, c', s') → suffixOf (s'.unget c') (s.unget c) := by
  intro f
  induction f with
  | zero => intro acc c s a c' s' h; simp [exp_loopF] at h
  | succ f ih =>
    intro acc c s a c' s' h
    simp only [exp_loopF] at h
    split at h
    · exact suffixOf_trans (unget_suffix s c)
        (suffixOf_trans (get_unget_suffix s) (ih _ _ _ h))
    · cases h
      exact suffixOf_refl _

lemma hexStep_suffix {cname : String} (code : Nat) (s : Stm) {n : Nat} {s' : Stm}
    (h : hexStep cname code s = .ok (n, s')) : suffixOf s' s := by
  simp only [hexStep] at h
  split at h
  · simp at h
  · cases h
    exact get_suffix s

lemma hexQuad_suffix {cname : String} {s : Stm} {n : Nat} {s' : Stm}
    (h : hexQuad cname s = .ok (n, s')) : suffixOf s' s := by
  simp only [hexQuad] at h
  cases h1 : hexStep cname 0 s with
  | error e => simp only [h1, errBind] at h; exact Except.noConfusion h
  | ok p1 =>
    obtain ⟨n1, t1⟩ := p1
    simp only [h1, okBind] at h
    cases h2 : hexStep cname n1 t1 with
    | error e => simp only [h2, errBind] at h; exact Except.noConfusion h
    | ok p2 =>
      obtain ⟨n2, t2⟩ := p2
      simp only [h2, okBind] at h
      cases h3 : hexStep cname n2 t2 with
      | error e => simp only [h3, errBind] at h; exact Except.noConfusion h
      | ok p3 =>
        obtain ⟨n3, t3⟩ := p3
        simp only [h3, okBind] at h
        exact suffixOf_trans (hexStep_suffix 0 s h1)
          (suffixOf_trans (hexStep_suffix n1 t1 h2)
            (suffixOf_trans (hexStep_suffix n2 t2 h3) (hexStep_suffix n3 t3 h)))

lemma str_loop_suffix : ∀ f : Nat,
    (∀ (fl : Nat) (q : Int) (cn : String) (acc : List Int) (s : Stm) {b : List Int} {s' : Stm},
      str_loopF f fl q cn acc s = .ok (b, s') → suffixOf s' s) ∧
    (∀ (fl : Nat) (q : Int) (cn : String) (acc : List Int) (e : Int) (s : Stm)
      {b : List Int} {s' : Stm},
      str_escF f fl q cn acc e s = .ok (b, s') → suffixOf s' s) := by
  intro f
  induction f with
  | zero =>
    constructor
    · intro fl q cn acc s b s' h
      simp only [str_loopF] at h
      exact Except.noConfusion h
    · intro fl q cn acc e s b s' h
      simp only [str_escF] at h
      exact Except.noConfusion h
  | succ f ih =>
    obtain ⟨ihL, ihE⟩ := ih
    constructor
    · intro fl q cn acc s b s' h
      simp only [str_loopF] at h
      have hg : suffixOf (Stm.get s).2 s := get_suffix s
      split at h
      · cases h
        exact hg
      · split at h
        · exact Except.noConfusion h
        · split at h
          · exact suffixOf_trans hg (suffixOf_trans (get_suffix _) (ihE _ _ _ _ _ _ h))
          · exact suffixOf_trans hg (ihL _ _ _ _ _ h)
    · intro fl q cn acc e s b s' h
      simp only [str_escF] at h
      rcases Bool.eq_false_or_eq_true (e == 39) with h1 | h1
      · rw [if_pos h1] at h
        split at h
        · exact ihL _ _ _ _ _ h
        · exact Except.noConfusion h
      · rw [if_neg (by simp [h1])] at h
        rcases Bool.eq_false_or_eq_true (e == 34 || e == 92 || e == 47) with h2 | h2
        · rw [if_pos h2] at h
          exact ihL _ _ _ _ _ h
        · rw [if_neg (by simp [h2])] at h
          rcases Bool.eq_false_or_eq_true (e == 98) with h3 | h3
          · rw [if_pos h3] at h
            exact ihL _ _ _ _ _ h
          · rw [if_neg (by simp [h3])] at h
            rcases Bool.eq_false_or_eq_true (e == 102) with h4 | h4
            · rw [if_pos h4] at h
              exact ihL _ _ _ _ _ h
            · rw [if_neg (by simp [h4])] at h
              rcases Bool.eq_false_or_eq_true (e == 110) with h5 | h5
              · rw [if_pos h5] at h
                exact ihL _ _ _ _ _ h
              · rw [if_neg (by simp [h5])] at h
                rcases Bool.eq_false_or_eq_true (e == 114) with h6 | h6
                · rw [if_pos h6] at h
                  exact ihL _ _ _ _ _ h
                · rw [if_neg (by simp [h6])] at h
                  rcases Bool.eq_false_or_eq_true (e == 116) with h7 | h7
                  · rw [if_pos h7] at h
                    exact ihL _ _ _ _ _ h
                  · rw [if_neg (by simp [h7])] at h
                    rcases Bool.eq_false_or_eq_true (e == 117) with h8 | h8
                    · rw [if_pos h8] at h
                      cases hq : hexQuad cn s with
                      | error er => simp only [hq] at h; exact Except.noConfusion h
                      | ok p =>
                        obtain ⟨code, s3⟩ := p
                        simp only [hq] at h
                        exact suffixOf_trans (hexQuad_suffix hq) (ihL _ _ _ _ _ h)
                    · rw [if_neg (by simp [h8])] at h
                      rcases Bool.eq_false_or_eq_true (e == 13) with h9 | h9
                      · rw [if_pos h9] at h
                        split at h
                        · refine suffixOf_trans ?_ (ihL _ _ _ _ _ h)
                          split
                          · exact get_suffix _
                          · exact get_unget_suffix _
                        · exact Except.noConfusion h
                      · rw [if_neg (by simp [h9])] at h
                        rcases Bool.eq_false_or_eq_true (e == 10) with h10 | h10
                        · rw [if_pos h10] at h
                          split at h
                          · exact ihL _ _ _ _ _ h
                          · exact Except.noConfusion h
                        · rw [if_neg (by simp [h10])] at h
                          exact Except.noConfusion h

lemma key_loopF_suffix : ∀ (f : Nat) (acc : List Int) (c : Int) (s : Stm)
    {k : List Int} {s' : Stm},
    key_loopF f acc c s = .ok (k, s') → suffixOf s' (s.unget c) := by
  intro f
  induction f with
  | zero =>
    intro acc c s k s' h
    simp only [key_loopF] at h
    exact Except.noConfusion h
  | succ f ih =>
    intro acc c s k s' h
    simp only [key_loopF] at h
    split at h
    · exact suffixOf_trans (unget_suffix s c)
        (suffixOf_trans (get_unget_suffix s) (ih _ _ _ h))
    · split at h
      · exact suffixOf_trans (unget_suffix s c)
          (suffixOf_trans (get_unget_suffix s) (ih _ _ _ h))
      · split at h
        · cases h
          exact suffixOf_refl _
        · exact Except.noConfusion h

lemma parse_string_b_suffix {fl : Nat} {quote : Int} {cn : String} {s : Stm}
    {b : List Int} {s' : Stm} (h : parse_string_b fl quote cn s = .ok (b, s')) :
    suffixOf s' s := by
  simp only [parse_string_b] at h
  split at h
  · exact (str_loop_suffix _).1 _ _ _ _ _ h
  · exact Except.noConfusion h

lemma parse_key_suffix {fl : Nat} {s : Stm} {k : List Int} {s' : Stm}
    (h : parse_key fl s = .ok (k, s')) : suffixOf s' s := by
  simp only [parse_key] at h
  cases hsk : skip_spaces fl s with
  | error e => simp only [hsk, errBind] at h; exact Except.noConfusion h
  | ok p =>
    obtain ⟨c, s1⟩ := p
    simp only [hsk, okBind] at h
    have hstrong := skip_spaces_suffix hsk
    split at h
    · exact suffixOf_trans hstrong (key_loopF_suffix _ _ _ _ h)
    · exact suffixOf_trans hstrong
        (suffixOf_trans (unget_suffix s1 c) (parse_string_b_suffix h))

lemma frac_phase_suffix {fl : Nat} {c : Int} {s : Stm} {fp fd : Nat} {c' : Int} {s' : Stm}
    (h : frac_phase fl c s = .ok (fp, fd, c', s')) : suffixOf (s'.unget c') (s.unget c) := by
  simp only [frac_phase] at h
  split at h
  · cases hfl : frac_loop 0 0 s with
    | error e => simp only [hfl, errBind] at h; exact Except.noConfusion h
    | ok p =>
      obtain ⟨a, d, c2, s2⟩ := p
      simp only [hfl, okBind] at h
      split at h
      · exact Except.noConfusion h
      · cases h
        exact suffixOf_trans (unget_suffix s c) (frac_loopF_suffix _ _ _ _ hfl)
  · cases h
    exact suffixOf_refl _

lemma exp_sign_suffix (c1 : Int) (s1 : Stm) :
    suffixOf ((exp_sign c1 s1).2.2.unget (exp_sign c1 s1).2.1) (s1.unget c1) := by
  simp only [exp_sign]
  split
  · exact suffixOf_trans (unget_suffix s1 c1) (get_unget_suffix s1)
  · split
    · exact suffixOf_trans (unget_suffix s1 c1) (get_unget_suffix s1)
    · exact suffixOf_refl _

lemma exp_phase_suffix {c : Int} {s : Stm} {ep : Nat} {en : Bool} {c' : Int} {s' : Stm}
    (h : exp_phase c s = .ok (ep, en, c', s')) : suffixOf (s'.unget c') (s.unget c) := by
  simp only [exp_phase] at h
  split at h
  · split at h
    · exact Except.noConfusion h
    · cases hel : exp_loop 0 (exp_sign (Stm.get s).1 (Stm.get s).2).2.1
          (exp_sign (Stm.get s).1 (Stm.get s).2).2.2 with
      | error e => simp only [hel, errBind] at h; exact Except.noConfusion h
      | ok p =>
        obtain ⟨a, c3, s3⟩ := p
        simp only [hel, okBind] at h
        cases h
        refine suffixOf_trans (unget_suffix s c) ?_
        refine suffixOf_trans (get_unget_suffix s) ?_
        refine suffixOf_trans (exp_sign_suffix (Stm.get s).1 (Stm.get s).2) ?_
        exact exp_loopF_suffix _ _ _ _ hel
  · cases h
    exact suffixOf_refl _

lemma parse_number_tail_suffix {fl : Nat} {neg : Bool} {ip : Nat} {c : Int} {s : Stm}
    {v : JVal} {s' : Stm} (h : parse_number_tail fl neg ip c s = .ok (v, s')) :
    suffixOf s' (s.unget c) := by
  simp only [parse_number_tail] at h
  cases hfr : frac_phase fl c s with
  | error e => simp only [hfr, errBind] at h; exact Except.noConfusion h
  | ok p =>
    obtain ⟨fp, fd, c1, s1⟩ := p
    simp only [hfr, okBind] at h
    cases hex : exp_phase c1 s1 with
    | error e => simp only [hex, errBind] at h; exact Except.noConfusion h
    | ok p2 =>
      obtain ⟨ep, en, c3, s3⟩ := p2
      simp only [hex, okBind] at h
      cases h
      exact suffixOf_trans (frac_phase_suffix hfr) (exp_phase_suffix hex)

lemma parse_number_suffix {fl : Nat} {c : Int} {s : Stm} {v : JVal} {s' : Stm}
    (h : parse_number fl c s = .ok (v, s')) : suffixOf s' (s.unget c) := by
  simp only [parse_number] at h
  have core : ∀ (neg : Bool) (c0 : Int) (s0 : Stm),
      (if (c0 == 48) = true then
        parse_number_tail fl neg 0 (Stm.get s0).1 (Stm.get s0).2
      else if is_digit c0 = true then
        (do
          let (ip, c1, s1) ← int_loop (to_number c0) s0
          parse_number_tail fl neg ip c1 s1)
      else if (has_flag fl flags.leading_decimal_point && c0 == 46) = true then
        parse_number_tail fl neg 0 c0 s0
      else if (has_flag fl flags.infinity_number && c0 == 105) = true then
        (match eqSeq (bytesOf "nfinity") s0 with
        | (true, _, s') => .ok (JVal.number (if neg then .negInf else .posInf), s')
        | (false, c', _) => .error (.syn c' ctxNumber))
      else if (has_flag fl flags.not_a_number && c0 == 78) = true then
        (match eqSeq (bytesOf "aN") s0 with
        | (true, _, s') => .ok (JVal.number .nan, s')
        | (false, c', _) => .error (.syn c' ctxNumber))
      else .error (.syn c0 ctxNumber)) = .ok (v, s') →
      suffixOf s' (s0.unget c0) := by
    intro neg c0 s0 h
    split at h
    · exact suffixOf_trans (unget_suffix s0 c0)
        (suffixOf_trans (get_unget_suffix s0) (parse_number_tail_suffix h))
    · split at h
      · cases hil : int_loop (to_number c0) s0 with
        | error e => simp only [hil, errBind] at h; exact Except.noConfusion h
        | ok p =>
          obtain ⟨ip, c1, s1⟩ := p
          simp only [hil, okBind] at h
          refine suffixOf_trans (unget_suffix s0 c0) ?_
          exact suffixOf_trans (int_loopF_suffix _ _ _ hil) (parse_number_tail_suffix h)
      · split at h
        · exact parse_number_tail_suffix h
        · split at h
          · match heq : eqSeq (bytesOf "nfinity") s0, h with
            | (true, c2, s2), h =>
              cases h
              exact suffixOf_trans (unget_suffix s0 c0) (eqSeq_suffix _ _ heq)
            | (false, c2, s2), h => exact Except.noConfusion h
          · split at h
            · match heq : eqSeq (bytesOf "aN") s0, h with
              | (true, c2, s2), h =>
                cases h
                exact suffixOf_trans (unget_suffix s0 c0) (eqSeq_suffix _ _ heq)
              | (false, c2, s2), h => exact Except.noConfusion h
            · exact Except.noConfusion h
  split at h
  · exact suffixOf_trans (unget_suffix s c)
      (suffixOf_trans (get_unget_suffix s) (core true _ _ h))
  · split at h
    · exact suffixOf_trans (unget_suffix s c)
        (suffixOf_trans (get_unget_suffix s) (core false _ _ h))
    · exact core false c s h

lemma parse_null_suffix {s : Stm} {v : JVal} {s' : Stm}
    (h : parse_null s = .ok (v, s')) : suffixOf s' s := by
  simp only [parse_null] at h
  match heq : eqSeq (bytesOf "ull") s, h with
  | (true, c2, s2), h => cases h; exact eqSeq_suffix _ _ heq
  | (false, c2, s2), h => exact Except.noConfusion h

lemma parse_boolean_suffix {c : Int} {s : Stm} {v : JVal} {s' : Stm}
    (h : parse_boolean c s = .ok (v, s')) : suffixOf s' s := by
  simp only [parse_boolean] at h
  split at h
  · match heq : eqSeq (bytesOf "rue") s, h with
    | (true, c2, s2), h => cases h; exact eqSeq_suffix _ _ heq
    | (false, c2, s2), h => exact Except.noConfusion h
  · match heq : eqSeq (bytesOf "alse") s, h with
    | (true, c2, s2), h => cases h; exact eqSeq_suffix _ _ heq
    | (false, c2, s2), h => exact Except.noConfusion h

lemma parse_string_v_suffix {fl : Nat} {q : Int} {s : Stm} {v : JVal} {s' : Stm}
    (h : parse_string_v fl q s = .ok (v, s')) : suffixOf s' s := by
  simp only [parse_string_v] at h
  cases hb : parse_string_b fl q ctxString s with
  | error e => simp only [hb, errBind] at h; exact Except.noConfusion h
  | ok p =>
    obtain ⟨b, s2⟩ := p
    simp only [hb, okBind] at h
    cases h
    exact parse_string_b_suffix hb

lemma pureBind {α β : Type} (v : α) (g : α → Except PErr β) :
    ((pure v : Except PErr α) >>= g) = g v := rfl

lemma value_group_suffix : ∀ f : Nat,
    (∀ (fl : Nat) (s : Stm) (cname : String) {v : JVal} {s' : Stm},
      parse_valueF f fl s cname = .ok (v, s') → suffixOf s' s) ∧
    (∀ (fl : Nat) (elems : List JVal) (s : Stm) {v : JVal} {s' : Stm},
      parse_arrayF f fl elems s = .ok (v, s') → suffixOf s' s) ∧
    (∀ (fl : Nat) (entries : List (List Int × JVal)) (s : Stm) {v : JVal} {s' : Stm},
      parse_objectF f fl entries s = .ok (v, s') → suffixOf s' s) := by
  intro f
  induction f with
  | zero =>
    refine ⟨?_, ?_, ?_⟩ <;> intro fl x s <;> intros v s' h <;>
      simp only [parse_valueF, parse_arrayF, parse_objectF] at h <;>
      exact Except.noConfusion h
  | succ f ih =>
    obtain ⟨ihV, ihA, ihO⟩ := ih
    have hskip : ∀ {fl : Nat} {s s1 : Stm} {c : Int},
        skip_spaces fl s = .ok (c, s1) → suffixOf s1 s := fun h => skip_spaces_suffix' h
    have hskipU : ∀ {fl : Nat} {s s1 : Stm} {c : Int},
        skip_spaces fl s = .ok (c, s1) → suffixOf (s1.unget c) s := fun h => skip_spaces_suffix h
    refine ⟨?_, ?_, ?_⟩
    · intro fl s cname v s' h
      simp only [parse_valueF] at h
      cases hsk : skip_spaces fl s with
      | error e => simp only [hsk, errBind] at h; exact Except.noConfusion h
      | ok p =>
        obtain ⟨c, s1⟩ := p
        simp only [hsk, okBind] at h
        split at h
        · exact suffixOf_trans (hskip hsk) (ihO _ _ _ h)
        · split at h
          · exact suffixOf_trans (hskip hsk) (ihA _ _ _ h)
          · split at h
            · exact suffixOf_trans (hskip hsk) (parse_string_v_suffix h)
            · split at h
              · exact suffixOf_trans (hskip hsk) (parse_null_suffix h)
              · split at h
                · exact suffixOf_trans (hskip hsk) (parse_boolean_suffix h)
                · split at h
                  · exact suffixOf_trans (hskipU hsk) (parse_number_suffix h)
                  · exact Except.noConfusion h
    · intro fl elems s v s' h
      simp only [parse_arrayF] at h
      cases hsk : skip_spaces fl s with
      | error e => simp only [hsk, errBind] at h; exact Except.noConfusion h
      | ok p =>
        obtain ⟨c, s1⟩ := p
        simp only [hsk, okBind] at h
        have after : ∀ (s2 : Stm), suffixOf s2 s →
            (do
              let (v2, s3) ← parse_valueF f fl s2 ctxArray
              parse_arrayF f fl (elems ++ [v2]) s3) = .ok (v, s') →
            suffixOf s' s := by
          intro s2 hs2 h
          cases hv : parse_valueF f fl s2 ctxArray with
          | error e => simp only [hv, errBind] at h; exact Except.noConfusion h
          | ok p2 =>
            obtain ⟨v2, s3⟩ := p2
            simp only [hv, okBind] at h
            exact suffixOf_trans (suffixOf_trans hs2 (ihV _ _ _ hv)) (ihA _ _ _ h)
        split at h
        · cases h
          exact hskip hsk
        · simp only [pureBind] at h
          split at h
          · exact after _ (hskipU hsk) h
          · split at h
            · simp only [errBind] at h
              exact Except.noConfusion h
            · split at h
              · split at h
                · cases h
                  exact suffixOf_trans (hskip hsk) (get_suffix s1)
                · exact after _ (suffixOf_trans (hskip hsk) (get_unget_suffix s1)) h
              · exact after _ (hskip hsk) h
    · intro fl entries s v s' h
      simp only [parse_objectF] at h
      cases hsk : skip_spaces fl s with
      | error e => simp only [hsk, errBind] at h; exact Except.noConfusion h
      | ok p =>
        obtain ⟨c, s1⟩ := p
        simp only [hsk, okBind] at h
        have after : ∀ (s2 : Stm), suffixOf s2 s →
            (do
              let (key, s3) ← parse_key fl s2
              let (c3, s4) ← skip_spaces fl s3
              if c3 != 58 then Except.error (.syn c3 ctxObject)
              else do
                let (v2, s5) ← parse_valueF f fl s4 ctxObject
                parse_objectF f fl (obj_assign (obj_emplace entries key .null) key v2) s5) =
              .ok (v, s') →
            suffixOf s' s := by
          intro s2 hs2 h
          cases hk : parse_key fl s2 with
          | error e => simp only [hk, errBind] at h; exact Except.noConfusion h
          | ok p2 =>
            obtain ⟨key, s3⟩ := p2
            simp only [hk, okBind] at h
            cases hc : skip_spaces fl s3 with
            | error e => simp only [hc, errBind] at h; exact Except.noConfusion h
            | ok p3 =>
              obtain ⟨c3, s4⟩ := p3
              simp only [hc, okBind] at h
              split at h
              · exact Except.noConfusion h
              · cases hv : parse_valueF f fl s4 ctxObject with
                | error e => simp only [hv, errBind] at h; exact Except.noConfusion h
                | ok p4 =>
                  obtain ⟨v2, s5⟩ := p4
                  simp only [hv, okBind] at h
                  refine suffixOf_trans ?_ (ihO _ _ _ h)
                  refine suffixOf_trans ?_ (ihV _ _ _ hv)
                  refine suffixOf_trans ?_ (hskip hc)
                  exact suffixOf_trans hs2 (parse_key_suffix hk)
        split at h
        · cases h
          exact hskip hsk
        · simp only [pureBind] at h
          split at h
          · exact after _ (hskipU hsk) h
          · split at h
            · simp only [errBind] at h
              exact Except.noConfusion h
            · split at h
              · split at h
                · cases h
                  exact suffixOf_trans (hskip hsk) (get_suffix s1)
                · exact after _ (suffixOf_trans (hskip hsk) (get_unget_suffix s1)) h
              · exact after _ (hskip hsk) h

/-- C7: after the single top-level value has been parsed, finished mode
skips remaining whitespace/comments and raises SyntaxError unless
end-of-input follows (part 1 relates the two modes exactly); in streaming
mode the trailing input is left unconsumed — the resulting stream is a
suffix of the input medium, from which a subsequent value can be parsed
(part 2). -/
theorem C7_completion_modes :
    (∀ (f fl : Nat) (s : Stm),
      parse_topF f fl true s =
        match parse_topF f fl false s with
        | .error e => .error e
        | .ok (v, s1) =>
          match skip_spaces fl s1 with
          | .error e => .error e
          | .ok (c, s2) => if c == eofCh then .ok (v, s2) else .error (.syn c ctxValue)) ∧
    (∀ (f fl : Nat) (s : Stm) (v : JVal) (s' : Stm),
      parse_topF f fl false s = .ok (v, s') → suffixOf s' s) := by
  constructor
  · intro f fl s
    cases hv : parse_valueF f fl s ctxValue with
    | error e =>
      simp only [parse_topF, hv, errBind]
    | ok p =>
      obtain ⟨v, s1⟩ := p
      simp only [parse_topF, hv, okBind, if_true, Bool.false_eq_true, if_false]
      cases hsk : skip_spaces fl s1 with
      | error e => simp only [hsk, errBind]
      | ok p2 =>
        obtain ⟨c, s2⟩ := p2
        simp only [hsk, okBind]
        cases hc : c == eofCh
        · simp [bne, hc]
        · simp [bne, hc]
  · intro f fl s v s' h
    simp only [parse_topF] at h
    cases hv : parse_valueF f fl s ctxValue with
    | error e => simp only [hv, errBind] at h; exact Except.noConfusion h
    | ok p =>
      obtain ⟨v2, s1⟩ := p
      simp only [hv, okBind, Bool.false_eq_true, if_false] at h
      cases h
      exact (value_group_suffix f).1 fl s ctxValue hv

/-- Witness for C7 on the medium `"1 2"`: the streaming parse returns
Number 1 leaving `" 2"` unconsumed (a suffix of the input), and parsing
the leftover stream again yields Number 2. -/
theorem C7_completion_modes_witness :
    suffixOf [32, 50] (bytesOf "1 2") ∧
    parse_topF 14 0 false (bytesOf "1 2") = .ok (.number (.fin 1), [32, 50]) ∧
    parse_topF 14 0 false [32, 50] = .ok (.number (.fin 2), []) :=
  ⟨C7_completion_modes.2 14 0 (bytesOf "1 2") (.number (.fin 1)) [32, 50] rfl, rfl, rfl⟩

/-! ## Claims C2 and C4: parse-success machinery

Decimal digit facts, then lemmas showing that the parser accepts the
texts produced by the stringifier (and the constructed object texts of
C4), recovering the original data. -/

/-- Digit-list accumulation, as performed by the parser's digit loops. -/
lemma foldAcc_ge (ds : List Nat) : ∀ a : Nat, a ≤ ds.foldl (fun x d => x * 10 + d) a := by
  induction ds with
  | nil => intro a; simp
  | cons d ds ih =>
    intro a
    simp only [List.foldl_cons]
    exact le_trans (by omega) (ih (a * 10 + d))

lemma numTermS_facts {rest : Stm} (h : numTermS rest = true) :
    is_digit (Stm.get rest).1 = false ∧ ((Stm.get rest).1 == 46) = false ∧
    ((Stm.get rest).1 == 101) = false ∧ ((Stm.get rest).1 == 69) = false ∧
    (Stm.get rest).2.unget (Stm.get rest).1 = rest := by
  cases rest with
  | nil => exact ⟨by decide, by decide, by decide, by decide, rfl⟩
  | cons c t =>
    simp only [numTermS, numTerm, Bool.and_eq_true, Bool.not_eq_true', bne_iff_ne,
      decide_eq_true_eq] at h
    obtain ⟨⟨⟨⟨hd, h46⟩, h101⟩, h69⟩, hge⟩ := h
    refine ⟨hd, beq_eq_false_iff_ne.mpr h46, beq_eq_false_iff_ne.mpr h101,
      beq_eq_false_iff_ne.mpr h69, ?_⟩
    simp only [Stm.get, Stm.unget]
    rw [if_neg]
    intro hc
    rw [hc] at hge
    exact absurd hge (by decide)

/-- The integer-digit loop accumulates a digit list exactly (no 64-bit
wrap when the final value is below `2^64`). -/
lemma int_loopF_digits : ∀ (ds : List Nat) (acc : Nat) (rest : Stm) (f : Nat),
    (∀ d ∈ ds, d < 10) →
    is_digit (Stm.get rest).1 = false →
    ds.foldl (fun x d => x * 10 + d) acc < wrap64 →
    ds.length + 1 ≤ f →
    int_loopF f acc (digitBytes ds ++ rest) =
      .ok (ds.foldl (fun x d => x * 10 + d) acc, (Stm.get rest).1, (Stm.get rest).2) := by
  intro ds
  induction ds with
  | nil =>
    intro acc rest f _ hrest _ hf
    obtain ⟨f', rfl⟩ : ∃ f', f = f' + 1 := ⟨f - 1, by omega⟩
    simp only [digitBytes, List.map_nil, List.nil_append, int_loopF, List.foldl_nil, hrest,
      Bool.false_eq_true, if_false]
  | cons d ds ih =>
    intro acc rest f hds hrest hb hf
    obtain ⟨f', rfl⟩ : ∃ f', f = f' + 1 := ⟨f - 1, by omega⟩
    have hd : d < 10 := hds d (by simp)
    have hdig : is_digit ((48 + d : Nat) : Int) = true := by
      simp only [is_digit, Bool.and_eq_true, decide_eq_true_eq]
      omega
    have hnum : to_number ((48 + d : Nat) : Int) = d := by
      simp only [to_number]
      omega
    have hb' : ds.foldl (fun x d => x * 10 + d) (acc * 10 + d) < wrap64 := by
      simpa using hb
    have hmono := foldAcc_ge ds (acc * 10 + d)
    have hnw : (acc * 10 + d) % wrap64 = acc * 10 + d := Nat.mod_eq_of_lt (by omega)
    simp only [digitBytes, List.map_cons, List.cons_append, int_loopF, Stm.get, hdig, if_true,
      hnum, hnw, List.foldl_cons]
    have hlen : ds.length + 1 ≤ f' := by
      simp only [List.length_cons] at hf
      omega
    exact ih (acc * 10 + d) rest f' (fun x hx => hds x (by simp [hx])) hrest hb' hlen

lemma decDigitsAux_spec : ∀ (f n : Nat), n < 10 ^ f →
    (∀ d ∈ decDigitsAux f n, d < 10) ∧
    (decDigitsAux f n).foldl (fun x d => x * 10 + d) 0 = n ∧
    n < 10 ^ (decDigitsAux f n).length ∧
    (1 ≤ n → 10 ^ ((decDigitsAux f n).length - 1) ≤ n ∧
      ∃ d0 ds, decDigitsAux f n = d0 :: ds ∧ 1 ≤ d0) := by
  intro f
  induction f with
  | zero =>
    intro n hn
    interval_cases n
    exact ⟨by simp [decDigitsAux], by simp [decDigitsAux], by simp [decDigitsAux], by omega⟩
  | succ f ih =>
    intro n hn
    by_cases hsm : n < 10
    · refine ⟨?_, ?_, ?_, ?_⟩
      · intro d hd
        simp only [decDigitsAux, if_pos hsm, List.mem_singleton] at hd
        omega
      · simp [decDigitsAux, if_pos hsm]
      · simp only [decDigitsAux, if_pos hsm, List.length_singleton]
        omega
      · intro hn1
        refine ⟨by simp [decDigitsAux, if_pos hsm]; omega, n, [], by simp [decDigitsAux, if_pos hsm], hn1⟩
    · have hdiv : n / 10 < 10 ^ f := by
        rw [Nat.div_lt_iff_lt_mul (by omega)]
        calc n < 10 ^ (f + 1) := hn
        _ = 10 ^ f * 10 := by ring
      have hd1 : 1 ≤ n / 10 := by
        rw [Nat.le_div_iff_mul_le (by omega)]
        omega
      obtain ⟨ihAll, ihVal, ihLen, ihPos⟩ := ih (n / 10) hdiv
      obtain ⟨ihLow, d0, ds, ihCons, ihD0⟩ := ihPos hd1
      have hunf : decDigitsAux (f + 1) n = decDigitsAux f (n / 10) ++ [n % 10] := by
        simp [decDigitsAux, if_neg hsm]
      refine ⟨?_, ?_, ?_, ?_⟩
      · intro d hd
        rw [hunf] at hd
        rcases List.mem_append.mp hd with h | h
        · exact ihAll d h
        · simp only [List.mem_singleton] at h
          omega
      · rw [hunf, List.foldl_append, ihVal]
        simp only [List.foldl_cons, List.foldl_nil]
        omega
      · rw [hunf]
        simp only [List.length_append, List.length_singleton]
        have h10 : 10 ^ ((decDigitsAux f (n / 10)).length + 1) =
            10 ^ (decDigitsAux f (n / 10)).length * 10 := by ring
        rw [h10]
        have := Nat.div_add_mod n 10
        have hm : n % 10 < 10 := Nat.mod_lt n (by omega)
        nlinarith [ihLen]
      · intro _
        constructor
        · rw [hunf]
          simp only [List.length_append, List.length_singleton]
          have hlen1 : 1 ≤ (decDigitsAux f (n / 10)).length := by
            rw [ihCons]
            simp
          have : 10 ^ ((decDigitsAux f (n / 10)).length + 1 - 1) =
              10 ^ ((decDigitsAux f (n / 10)).length - 1) * 10 := by
            rw [Nat.add_sub_cancel]
            conv_lhs => rw [show (decDigitsAux f (n / 10)).length =
              (decDigitsAux f (n / 10)).length - 1 + 1 from by omega]
            ring
          rw [this]
          have hdm := Nat.div_add_mod n 10
          have hmul : 10 ^ ((decDigitsAux f (n / 10)).length - 1) * 10 ≤ (n / 10) * 10 :=
            Nat.mul_le_mul_right 10 ihLow
          omega
        · refine ⟨d0, ds ++ [n % 10], ?_, ihD0⟩
          rw [hunf, ihCons]
          simp

lemma decDigits_spec (n : Nat) :
    (∀ d ∈ decDigits n, d < 10) ∧
    (decDigits n).foldl (fun x d => x * 10 + d) 0 = n ∧
    n < 10 ^ (decDigits n).length ∧
    (1 ≤ n → 10 ^ ((decDigits n).length - 1) ≤ n ∧
      ∃ d0 ds, decDigits n = d0 :: ds ∧ 1 ≤ d0) := by
  have hb : n < 10 ^ (n + 1) := by
    calc n < 10 ^ n := Nat.lt_pow_self (by omega) n
    _ ≤ 10 ^ (n + 1) := Nat.pow_le_pow_right (by omega) (by omega)
  exact decDigitsAux_spec (n + 1) n hb

/-! ### `%g` on small integers -/

lemma dropTrailingZeros_zeros (zs : List Nat) (h : ∀ d ∈ zs, d = 0) :
    dropTrailingZeros zs = [] := by
  have : zs.reverse.dropWhile (fun d => d == 0) = [] := by
    apply List.dropWhile_eq_nil_iff.mpr
    intro x hx
    simp [h x (List.mem_reverse.mp hx)]
  simp [dropTrailingZeros, this]

lemma roundQ_natCast (m : Nat) : roundQ (m : ℚ) = m := by
  unfold roundQ
  have : ⌊(m : ℚ) + 1 / 2⌋ = (m : ℤ) := by
    apply Int.floor_eq_iff.mpr
    constructor
    · push_cast
      linarith
    · push_cast
      linarith
  rw [this]
  simp

lemma zpow_ofNat10 (k : Nat) : (10 : ℚ) ^ ((k : Nat) : ℤ) = ((10 ^ k : Nat) : ℚ) := by
  rw [zpow_natCast]
  push_cast
  ring

lemma fmtGpos_nat (n : Nat) (h1 : 1 ≤ n) (h2 : n ≤ 999999) :
    fmtGpos (n : ℚ) = decBytes n := by
  obtain ⟨hall, hval, hlen, hpos⟩ := decDigits_spec n
  obtain ⟨hlow, d0, ds, hcons, hd0⟩ := hpos h1
  set L := (decDigits n).length with hL
  have hL1 : 1 ≤ L := by
    rw [hL, hcons]
    simp
  have hL6 : L ≤ 6 := by
    by_contra hc
    have : 10 ^ 6 ≤ 10 ^ (L - 1) := Nat.pow_le_pow_right (by omega) (by omega)
    omega
  have hcast1 : (1 : ℚ) ≤ (n : ℚ) := by
    exact_mod_cast h1
  have hfloor : (⌊(n : ℚ)⌋).toNat = n := by
    rw [Int.floor_natCast]
    simp
  have hcand : decExp (n : ℚ) = ((L : Int) - 1) := by
    unfold decExp
    rw [if_pos hcast1, hfloor]
    have hc : (((decDigits n).length - 1 : Nat) : Int) = (L : Int) - 1 := by
      rw [← hL]
      omega
    rw [hc, if_pos]
    have hz : (10 : ℚ) ^ ((L : Int) - 1) = ((10 ^ (L - 1) : Nat) : ℚ) := by
      have : (L : Int) - 1 = ((L - 1 : Nat) : Int) := by omega
      rw [this, zpow_ofNat10]
    rw [hz]
    exact_mod_cast hlow
  unfold fmtGpos
  rw [hcand]
  dsimp only
  have hexp : (5 : Int) - ((L : Int) - 1) = ((6 - L : Nat) : Int) := by omega
  have hmul : (n : ℚ) * (10 : ℚ) ^ ((5 : Int) - ((L : Int) - 1)) =
      ((n * 10 ^ (6 - L) : Nat) : ℚ) := by
    rw [hexp, zpow_ofNat10]
    push_cast
    ring
  rw [hmul, roundQ_natCast]
  have hdlow : 10 ^ 5 ≤ n * 10 ^ (6 - L) := by
    calc 10 ^ 5 = 10 ^ (L - 1) * 10 ^ (6 - L) := by
          rw [← pow_add]
          congr 1
          omega
    _ ≤ n * 10 ^ (6 - L) := Nat.mul_le_mul_right _ hlow
  have hdhigh : n * 10 ^ (6 - L) < 10 ^ 6 := by
    calc n * 10 ^ (6 - L) < 10 ^ L * 10 ^ (6 - L) :=
          mul_lt_mul_of_pos_right hlen (pow_pos (by omega) _)
    _ = 10 ^ 6 := by
          rw [← pow_add]
          congr 1
          omega
  have hne : n * 10 ^ (6 - L) ≠ 1000000 := by
    intro hc
    rw [hc] at hdhigh
    norm_num at hdhigh
  rw [if_neg hne, if_neg hne]
  have hrange : -4 ≤ (L : Int) - 1 ∧ (L : Int) - 1 < 6 := by omega
  rw [if_pos hrange, if_pos (by omega : (0 : Int) ≤ (L : Int) - 1)]
  have hf : ((5 : Int) - ((L : Int) - 1)).toNat = 6 - L := by omega
  rw [hf]
  have hdiv : n * 10 ^ (6 - L) / 10 ^ (6 - L) = n :=
    Nat.mul_div_cancel n (pow_pos (by omega) _)
  have hmod : n * 10 ^ (6 - L) % 10 ^ (6 - L) = 0 := Nat.mul_mod_left n _
  rw [hdiv, hmod]
  have hzero : dropTrailingZeros (padDec (6 - L) 0) = [] := by
    apply dropTrailingZeros_zeros
    intro d hd
    simp only [padDec] at hd
    rcases List.mem_append.mp hd with h | h
    · exact List.eq_of_mem_replicate h
    · have : decDigits 0 = [0] := rfl
      rw [this] at h
      simpa using h
  rw [hzero]
  simp

/-- `%g` rendering of a safe integer value: optional minus sign followed
by the decimal digits. -/
lemma fmtG_int (q : ℚ) (hden : q.den = 1) (habs : q.num.natAbs ≤ 999999) :
    fmtG q = (if q < 0 then [(45 : Int)] else []) ++ decBytes q.num.natAbs := by
  by_cases hz : q = 0
  · subst hz
    decide
  · unfold fmtG
    rw [if_neg hz]
    congr 1
    have habs' : |q| = ((q.num.natAbs : Nat) : ℚ) := by
      have hq : ((q.num : Int) : ℚ) = q := by
        conv_rhs => rw [← Rat.num_div_den q]
        rw [hden]
        simp
      rw [Int.cast_natAbs, Int.cast_abs, hq]
    have h1 : 1 ≤ q.num.natAbs := by
      have : q.num ≠ 0 := Rat.num_ne_zero.mpr hz
      omega
    rw [habs']
    exact fmtGpos_nat _ h1 habs

/-! ### Parsing back a rendered integer -/

/-- When the remaining input starts with a number terminator, the
fraction/exponent tail of `parse_number` is a no-op and the terminator is
pushed back. -/
lemma parse_number_tail_term (fl : Nat) (neg : Bool) (ip : Nat) (c : Int) (s rest : Stm)
    (hget : Stm.get rest = (c, s)) (h : numTermS rest = true) :
    parse_number_tail fl neg ip c s =
      .ok (.number (.fin (if neg then -(ip : ℚ) else (ip : ℚ))), rest) := by
  have hfacts := numTermS_facts h
  have h46 : (c == 46) = false := by have t := hfacts.2.1; rw [hget] at t; exact t
  have h101 : (c == 101) = false := by have t := hfacts.2.2.1; rw [hget] at t; exact t
  have h69 : (c == 69) = false := by have t := hfacts.2.2.2.1; rw [hget] at t; exact t
  have hui : s.unget c = rest := by have t := hfacts.2.2.2.2; rw [hget] at t; exact t
  have hfr : frac_phase fl c s = pure (0, 0, c, s) := by
    unfold frac_phase
    simp only [h46, Bool.false_eq_true, if_false]
  have hex : exp_phase c s = pure (0, false, c, s) := by
    unfold exp_phase
    simp only [h101, h69, Bool.or_self, Bool.false_eq_true, if_false]
  unfold parse_number_tail
  rw [hfr]
  simp only [pureBind]
  rw [hex]
  simp only [pureBind, hui]
  simp only [number_value, gt_iff_lt, lt_self_iff_false, if_false]
  rfl

/-- The digit block of `parse_number` on the decimal rendering of a
small natural number. -/
lemma parse_number_body_digits (fl : Nat) (neg : Bool) (n : Nat) (hn : n ≤ 999999)
    (rest : Stm) (hrest : numTermS rest = true) : ∀ (c : Int) (t : Stm),
    decBytes n ++ rest = c :: t →
    parse_number_body fl neg c t =
      .ok (.number (.fin (if neg then -(n : ℚ) else (n : ℚ))), rest) := by
  obtain ⟨hds, hfold, _, hpos⟩ := decDigits_spec n
  rcases hg : Stm.get rest with ⟨cr, sr⟩
  have hrd : is_digit cr = false := by
    have t := (numTermS_facts hrest).1
    rw [hg] at t
    exact t
  by_cases hn0 : n = 0
  · subst hn0
    intro c t hct
    have h48 : decBytes 0 = [48] := by decide
    rw [h48, List.cons_append, List.nil_append] at hct
    injection hct with h1 h2
    subst h1
    subst h2
    unfold parse_number_body
    rw [if_pos (by decide : (((48 : Int) == 48) = true)), hg]
    exact parse_number_tail_term fl neg 0 cr sr rest hg hrest
  · intro c t hct
    obtain ⟨hlow, d0, ds, hdd, hd0⟩ := hpos (by omega)
    have hd09 : d0 < 10 := hds d0 (by rw [hdd]; simp)
    have hdb : decBytes n = ((48 + d0 : Nat) : Int) :: digitBytes ds := by
      rw [decBytes, hdd]
      rfl
    rw [hdb, List.cons_append] at hct
    injection hct with h1 h2
    subst h1
    subst h2
    have hc48 : (((48 + d0 : Nat) : Int) == 48) = false := by
      simp only [beq_eq_false_iff_ne, ne_eq]
      intro hcc
      omega
    have hdig : is_digit ((48 + d0 : Nat) : Int) = true := by
      simp only [is_digit, Bool.and_eq_true, decide_eq_true_eq]
      constructor <;> omega
    have hnum : to_number ((48 + d0 : Nat) : Int) = d0 := by
      simp only [to_number]
      omega
    have hfold' : ds.foldl (fun x d => x * 10 + d) d0 = n := by
      rw [hdd, List.foldl_cons] at hfold
      have hz : 0 * 10 + d0 = d0 := by omega
      rwa [hz] at hfold
    have hloop : int_loop (to_number ((48 + d0 : Nat) : Int)) (digitBytes ds ++ rest) =
        .ok (n, cr, sr) := by
      rw [hnum, int_loop]
      have := int_loopF_digits ds d0 rest ((digitBytes ds ++ rest).length + 1)
        (fun x hx => hds x (by rw [hdd]; simp [hx])) (numTermS_facts hrest).1
        (by rw [hfold']; simp only [wrap64]; omega)
        (by simp only [List.length_append, digitBytes, List.length_map]; omega)
      rw [this, hfold', hg]
    unfold parse_number_body
    simp only [hc48, Bool.false_eq_true, if_false, hdig, if_true, hloop, okBind]
    exact parse_number_tail_term fl neg n cr sr rest hg hrest

/-- `parse_number` on the `%g` rendering of a safe integer value,
followed by a terminator: the value round-trips. -/
lemma parse_number_fmtG (fl : Nat) (q : ℚ) (hden : q.den = 1) (habs : q.num.natAbs ≤ 999999)
    (rest : Stm) (hrest : numTermS rest = true) : ∀ (c : Int) (t : Stm),
    fmtG q ++ rest = c :: t →
    parse_number fl c t = .ok (.number (.fin q), rest) := by
  have hq : ((q.num : Int) : ℚ) = q := by
    conv_rhs => rw [← Rat.num_div_den q]
    rw [hden]
    simp
  have hfg := fmtG_int q hden habs
  by_cases hneg : q < 0
  · rw [if_pos hneg] at hfg
    intro c t hct
    rw [hfg, List.cons_append, List.nil_append] at hct
    have h1 : (45 : Int) = c := by injection hct
    have h2 : decBytes q.num.natAbs ++ rest = t := by injection hct
    subst h1
    have hne : decBytes q.num.natAbs ++ rest ≠ [] := by
      intro hemp
      have h0 : decBytes q.num.natAbs = [] ∧ rest = [] := by
        exact List.append_eq_nil.mp hemp
      obtain ⟨_, d0, ds, hdd, _⟩ := (decDigits_spec q.num.natAbs).2.2.2
        (by have : q.num ≠ 0 := Rat.num_ne_zero.mpr (by intro hz; rw [hz] at hneg; norm_num at hneg); omega)
      rw [decBytes, hdd] at h0
      simp [digitBytes] at h0
    obtain ⟨c0, t0, hc0⟩ : ∃ c0 t0, decBytes q.num.natAbs ++ rest = c0 :: t0 := by
      cases hh : decBytes q.num.natAbs ++ rest with
      | nil => exact absurd hh hne
      | cons a b => exact ⟨a, b, rfl⟩
    have ht : t = c0 :: t0 := by rw [← h2, hc0]
    unfold parse_number
    rw [if_pos (by decide : (((45 : Int) == 45) = true)), ht]
    have hb := parse_number_body_digits fl true q.num.natAbs habs rest hrest c0 t0 hc0
    rw [show Stm.get (c0 :: t0) = (c0, t0) from rfl]
    rw [show ((c0, t0) : Int × Stm).1 = c0 from rfl, show ((c0, t0) : Int × Stm).2 = t0 from rfl, hb]
    have hv : -((q.num.natAbs : Nat) : ℚ) = q := by
      have hna : ((q.num.natAbs : Nat) : Int) = -q.num := by
        have : q.num < 0 := Rat.num_neg.mpr hneg
        omega
      have h3 : ((q.num.natAbs : Nat) : ℚ) = -((q.num : Int) : ℚ) := by
        have h4 := congrArg (fun z : Int => (z : ℚ)) hna
        dsimp only at h4
        rwa [Int.cast_natCast, Int.cast_neg] at h4
      rw [h3, hq]
      ring
    norm_num [hv]
  · rw [if_neg hneg, List.nil_append] at hfg
    intro c t hct
    rw [hfg] at hct
    have hcd : is_digit c = true := by
      obtain ⟨hds, _, _, hpos⟩ := decDigits_spec q.num.natAbs
      by_cases hz : q.num.natAbs = 0
      · rw [hz] at hct
        have h48 : decBytes 0 = [48] := by decide
        rw [h48, List.cons_append, List.nil_append] at hct
        injection hct with h1 _
        rw [← h1]
        decide
      · obtain ⟨_, d0, ds, hdd, hd0⟩ := hpos (by omega)
        have hd09 : d0 < 10 := hds d0 (by rw [hdd]; simp)
        rw [decBytes, hdd, show digitBytes (d0 :: ds) = ((48 + d0 : Nat) : Int) :: digitBytes ds from rfl,
          List.cons_append] at hct
        injection hct with h1 _
        rw [← h1]
        simp only [is_digit, Bool.and_eq_true, decide_eq_true_eq]
        constructor <;> omega
    have hc45 : (c == 45) = false := by
      simp only [beq_eq_false_iff_ne, ne_eq]
      intro hcc
      rw [hcc] at hcd
      simp [is_digit] at hcd
    have hc43 : (c == 43) = false := by
      simp only [beq_eq_false_iff_ne, ne_eq]
      intro hcc
      rw [hcc] at hcd
      simp [is_digit] at hcd
    unfold parse_number
    rw [if_neg (by simp only [hc45]; exact Bool.false_ne_true), if_neg (by
      simp only [hc43, Bool.and_false]; exact Bool.false_ne_true)]
    have hb := parse_number_body_digits fl false q.num.natAbs habs rest hrest c t hct
    rw [hb]
    have hv : ((q.num.natAbs : Nat) : ℚ) = q := by
      have hna : ((q.num.natAbs : Nat) : Int) = q.num := by
        have : 0 ≤ q.num := Rat.num_nonneg.mpr (le_of_not_lt hneg)
        omega
      have h3 : ((q.num.natAbs : Nat) : ℚ) = ((q.num : Int) : ℚ) := by
        have h4 := congrArg (fun z : Int => (z : ℚ)) hna
        dsimp only at h4
        rwa [Int.cast_natCast] at h4
      rw [h3, hq]
    norm_num [hv]

/-! ### Parsing back a rendered string -/

/-- Hex digit rendering and decoding are mutually inverse on `0..15`. -/
lemma hexDigitB_rt (d : Nat) (hd : d < 16) : to_number_hex (hexDigitB d) = (d : Int) := by
  interval_cases d <;> decide

lemma hexStep_digit (cname : String) (code d : Nat) (hd : d < 16) (s : Stm) :
    hexStep cname code (hexDigitB d :: s) = .ok (code * 16 + d, s) := by
  unfold hexStep
  rw [show Stm.get (hexDigitB d :: s) = (hexDigitB d, s) from rfl]
  dsimp only
  rw [hexDigitB_rt d hd]
  rw [if_neg (by omega : ¬ ((d : Int) < 0))]
  rw [Int.toNat_natCast]

lemma hexQuad_00XX (cname : String) (hi lo : Nat) (hhi : hi < 16) (hlo : lo < 16) (s : Stm) :
    hexQuad cname (48 :: 48 :: hexDigitB hi :: hexDigitB lo :: s) = .ok (hi * 16 + lo, s) := by
  have h0 : (48 : Int) = hexDigitB 0 := rfl
  unfold hexQuad
  rw [h0, hexStep_digit cname 0 0 (by omega), okBind]
  dsimp only
  rw [hexStep_digit cname (0 * 16 + 0) 0 (by omega), okBind]
  dsimp only
  rw [show (0 * 16 + 0) * 16 + 0 = 0 from rfl]
  rw [hexStep_digit cname 0 hi hhi, okBind]
  dsimp only
  rw [show 0 * 16 + hi = hi from by omega]
  exact hexStep_digit cname hi lo hlo s

/-- One named single-character escape consumes two fuel frames and
appends the decoded byte. -/
lemma str_named_esc (fl : Nat) (cname : String) (acc : List Int) (X : Stm) (f : Nat)
    (e d : Int)
    (h : (e = 34 ∧ d = 34) ∨ (e = 92 ∧ d = 92) ∨ (e = 98 ∧ d = 8) ∨ (e = 102 ∧ d = 12) ∨
      (e = 110 ∧ d = 10) ∨ (e = 114 ∧ d = 13) ∨ (e = 116 ∧ d = 9)) :
    str_loopF (f + 2) fl 34 cname acc (92 :: e :: X) =
      str_loopF f fl 34 cname (acc ++ [d]) X := by
  rcases h with ⟨rfl, rfl⟩ | ⟨rfl, rfl⟩ | ⟨rfl, rfl⟩ | ⟨rfl, rfl⟩ | ⟨rfl, rfl⟩ | ⟨rfl, rfl⟩ |
    ⟨rfl, rfl⟩ <;>
    simp [str_loopF, str_escF, Stm.get]

/-- A `\u00XX` escape of a code below 128 consumes two fuel frames and
appends the decoded byte. -/
lemma str_u_esc (fl : Nat) (cname : String) (acc : List Int) (X : Stm) (f : Nat)
    (hi lo : Nat) (hhi : hi < 16) (hlo : lo < 16) (hsmall : hi * 16 + lo < 128) :
    str_loopF (f + 2) fl 34 cname acc
        (92 :: 117 :: 48 :: 48 :: hexDigitB hi :: hexDigitB lo :: X) =
      str_loopF f fl 34 cname (acc ++ [((hi * 16 + lo : Nat) : Int)]) X := by
  simp only [str_loopF, Stm.get]
  rw [if_neg (by decide), if_neg (by decide), if_pos (by decide)]
  simp only [str_escF]
  rw [if_neg (by decide), if_neg (by decide), if_neg (by decide), if_neg (by decide),
    if_neg (by decide), if_neg (by decide), if_neg (by decide), if_pos (by decide)]
  rw [hexQuad_00XX cname hi lo hhi hlo X]
  dsimp only
  rw [show utf8enc (hi * 16 + lo) = [((hi * 16 + lo : Nat) : Int)] from by
    unfold utf8enc; rw [if_pos hsmall]]

/-- A plain (unescaped) string byte consumes one fuel frame. -/
lemma str_loopF_plain_step (f fl : Nat) (cname : String) (acc : List Int) (b : Int) (X : Stm)
    (h34 : b ≠ 34) (hge : ¬ b < 32) (h92 : b ≠ 92) :
    str_loopF (f + 1) fl 34 cname acc (b :: X) = str_loopF f fl 34 cname (acc ++ [b]) X := by
  simp only [str_loopF, Stm.get]
  rw [if_neg (by simp only [beq_iff_eq]; exact h34), if_neg hge,
    if_neg (by simp only [beq_iff_eq]; exact h92)]

/-- The string-character loop decodes the escaped rendering of a byte
list back to the original bytes, stopping at the closing quote. -/
lemma str_loopF_content : ∀ (bs : List Int) (fl : Nat) (cname : String) (acc : List Int)
    (rest : Stm) (f : Nat),
    bs.all byteOK = true →
    2 * bs.length + 1 ≤ f →
    str_loopF f fl 34 cname acc ((bs.map escChar).flatten ++ 34 :: rest) =
      .ok (acc ++ bs, rest) := by
  intro bs
  induction bs with
  | nil =>
    intro fl cname acc rest f _ hf
    obtain ⟨f', rfl⟩ : ∃ f', f = f' + 1 := ⟨f - 1, by omega⟩
    simp only [List.map_nil, List.flatten_nil, List.nil_append, str_loopF]
    rw [show Stm.get ((34 : Int) :: rest) = ((34 : Int), rest) from rfl]
    simp
  | cons b bs ih =>
    intro fl cname acc rest f hall hf
    simp only [List.all_cons, Bool.and_eq_true] at hall
    obtain ⟨hb, hall'⟩ := hall
    simp only [byteOK, Bool.and_eq_true, decide_eq_true_eq] at hb
    obtain ⟨hb0, hb256⟩ := hb
    have hmod : b % 256 = b := Int.emod_eq_of_lt hb0 hb256
    obtain ⟨f', rfl⟩ : ∃ f', f = f' + 2 := ⟨f - 2, by simp only [List.length_cons] at hf; omega⟩
    have hfuel : 2 * bs.length + 1 ≤ f' := by simp only [List.length_cons] at hf; omega
    simp only [List.map_cons, List.flatten_cons, List.append_assoc]
    set nb : Nat := (b % 256).toNat with hnb
    have hnbb : (nb : Int) = b := by rw [hnb, hmod]; exact Int.toNat_of_nonneg hb0
    have hnb256 : nb < 256 := by omega
    have happ : ∀ d : Int, (acc ++ [d]) ++ bs = acc ++ d :: bs := by
      intro d
      simp
    by_cases h34 : nb = 34
    · have hbv : b = 34 := by omega
      subst hbv
      rw [show escChar 34 = [92, 34] from by decide]
      simp only [List.cons_append, List.nil_append]
      rw [str_named_esc fl cname acc _ f' 34 34 (by norm_num),
        ih fl cname (acc ++ [34]) rest f' hall' hfuel, happ]
    · by_cases h92 : nb = 92
      · have hbv : b = 92 := by omega
        subst hbv
        rw [show escChar 92 = [92, 92] from by decide]
        simp only [List.cons_append, List.nil_append]
        rw [str_named_esc fl cname acc _ f' 92 92 (by norm_num),
          ih fl cname (acc ++ [92]) rest f' hall' hfuel, happ]
      · by_cases h8 : nb = 8
        · have hbv : b = 8 := by omega
          subst hbv
          rw [show escChar 8 = [92, 98] from by decide]
          simp only [List.cons_append, List.nil_append]
          rw [str_named_esc fl cname acc _ f' 98 8 (by norm_num),
            ih fl cname (acc ++ [8]) rest f' hall' hfuel, happ]
        · by_cases h12 : nb = 12
          · have hbv : b = 12 := by omega
            subst hbv
            rw [show escChar 12 = [92, 102] from by decide]
            simp only [List.cons_append, List.nil_append]
            rw [str_named_esc fl cname acc _ f' 102 12 (by norm_num),
              ih fl cname (acc ++ [12]) rest f' hall' hfuel, happ]
          · by_cases h10 : nb = 10
            · have hbv : b = 10 := by omega
              subst hbv
              rw [show escChar 10 = [92, 110] from by decide]
              simp only [List.cons_append, List.nil_append]
              rw [str_named_esc fl cname acc _ f' 110 10 (by norm_num),
                ih fl cname (acc ++ [10]) rest f' hall' hfuel, happ]
            · by_cases h13 : nb = 13
              · have hbv : b = 13 := by omega
                subst hbv
                rw [show escChar 13 = [92, 114] from by decide]
                simp only [List.cons_append, List.nil_append]
                rw [str_named_esc fl cname acc _ f' 114 13 (by norm_num),
                  ih fl cname (acc ++ [13]) rest f' hall' hfuel, happ]
              · by_cases h9 : nb = 9
                · have hbv : b = 9 := by omega
                  subst hbv
                  rw [show escChar 9 = [92, 116] from by decide]
                  simp only [List.cons_append, List.nil_append]
                  rw [str_named_esc fl cname acc _ f' 116 9 (by norm_num),
                    ih fl cname (acc ++ [9]) rest f' hall' hfuel, happ]
                · by_cases hctl : nb < 32
                  · have hesc : escChar b = [92, 117, 48, 48,
                        hexDigitB (nb >>> 4), hexDigitB (nb &&& 15)] := by
                      unfold escChar
                      rw [← hnb]
                      rw [if_neg (by simp only [beq_iff_eq]; omega),
                        if_neg (by simp only [beq_iff_eq]; omega),
                        if_neg (by simp only [beq_iff_eq]; omega),
                        if_neg (by simp only [beq_iff_eq]; omega),
                        if_neg (by simp only [beq_iff_eq]; omega),
                        if_neg (by simp only [beq_iff_eq]; omega),
                        if_neg (by simp only [beq_iff_eq]; omega),
                        if_pos hctl]
                    have hhi : nb >>> 4 < 16 := by
                      rw [Nat.shiftRight_eq_div_pow]
                      omega
                    have hlo : nb &&& 15 < 16 := by
                      rw [show (15 : Nat) = 2 ^ 4 - 1 from rfl,
                        Nat.and_pow_two_sub_one_eq_mod]
                      omega
                    have hrec : (nb >>> 4) * 16 + (nb &&& 15) = nb := by
                      rw [Nat.shiftRight_eq_div_pow,
                        show (15 : Nat) = 2 ^ 4 - 1 from rfl,
                        Nat.and_pow_two_sub_one_eq_mod]
                      omega
                    rw [hesc]
                    simp only [List.cons_append, List.nil_append]
                    rw [str_u_esc fl cname acc _ f' (nb >>> 4) (nb &&& 15) hhi hlo
                      (by omega)]
                    rw [hrec, hnbb]
                    rw [ih fl cname (acc ++ [b]) rest f' hall' hfuel, happ]
                  · have hesc : escChar b = [b] := by
                      unfold escChar
                      rw [← hnb]
                      rw [if_neg (by simp only [beq_iff_eq]; omega),
                        if_neg (by simp only [beq_iff_eq]; omega),
                        if_neg (by simp only [beq_iff_eq]; omega),
                        if_neg (by simp only [beq_iff_eq]; omega),
                        if_neg (by simp only [beq_iff_eq]; omega),
                        if_neg (by simp only [beq_iff_eq]; omega),
                        if_neg (by simp only [beq_iff_eq]; omega),
                        if_neg hctl, hnbb]
                    rw [hesc]
                    simp only [List.cons_append, List.nil_append]
                    rw [show f' + 2 = (f' + 1) + 1 from rfl]
                    rw [str_loopF_plain_step (f' + 1) fl cname acc b _
                      (by omega) (by omega) (by omega)]
                    rw [ih fl cname (acc ++ [b]) rest (f' + 1) hall' (by omega), happ]

/-! ### Whitespace and terminator facts -/

lemma wsB_vals {b : Int} (h : wsB b = true) : b = 9 ∨ b = 10 ∨ b = 13 ∨ b = 32 := by
  simp only [wsB, Bool.or_eq_true, beq_iff_eq] at h
  tauto

lemma wsB_false_of {c : Int} (h : ¬(c = 9 ∨ c = 10 ∨ c = 13 ∨ c = 32)) : wsB c = false := by
  simp only [wsB, Bool.or_eq_false_iff, beq_eq_false_iff_ne, ne_eq]
  tauto

lemma wsOnly_append {a b : List Int} (ha : wsOnly a = true) (hb : wsOnly b = true) :
    wsOnly (a ++ b) = true := by
  simp only [wsOnly, List.all_append, Bool.and_eq_true]
  exact ⟨ha, hb⟩

lemma wsOnly_get_indent (c : context_base) : wsOnly (get_indent c) = true := by
  unfold get_indent
  split
  · simp only [wsOnly, List.all_eq_true]
    intro x hx
    rw [List.eq_of_mem_replicate hx]
    decide
  · split
    · simp only [wsOnly, List.all_eq_true]
      intro x hx
      rw [List.eq_of_mem_replicate hx]
      decide
    · rfl

lemma wsOnly_get_newline (fl : Nat) : wsOnly (get_newline fl) = true := by
  unfold get_newline
  split <;> rfl

lemma numTermS_ws (w : List Int) (hw : wsOnly w = true) (c : Int) (hc : numTerm c = true)
    (hc0 : 0 ≤ c) (X : Stm) : numTermS (w ++ c :: X) = true := by
  cases w with
  | nil =>
    simp only [List.nil_append, numTermS, Bool.and_eq_true, decide_eq_true_eq]
    exact ⟨hc, hc0⟩
  | cons b w2 =>
    have hb : wsB b = true := by
      simp only [wsOnly, List.all_cons, Bool.and_eq_true] at hw
      exact hw.1
    rcases wsB_vals hb with rfl | rfl | rfl | rfl <;> rfl

/-! ### Rendering shape facts -/

lemma escChar_len (b : Int) : 1 ≤ (escChar b).length := by
  unfold escChar
  dsimp only
  repeat' split
  all_goals simp

lemma flatten_escChar_len (bs : List Int) : bs.length ≤ ((bs.map escChar).flatten).length := by
  induction bs with
  | nil => simp
  | cons b bs ih =>
    simp only [List.map_cons, List.flatten_cons, List.length_append]
    have := escChar_len b
    simp only [List.length_cons]
    omega

lemma parse_string_b_content (fl : Nat) (cname : String) (bs : List Int) (rest : Stm)
    (hall : bs.all byteOK = true) :
    parse_string_b fl 34 cname ((bs.map escChar).flatten ++ 34 :: rest) = .ok (bs, rest) := by
  unfold parse_string_b
  rw [if_pos (by simp :
    (((34 : Int) == 34) || (has_flag fl flags.single_quote && ((34 : Int) == 39))) = true)]
  have hlen : 2 * bs.length + 1 ≤
      2 * ((bs.map escChar).flatten ++ 34 :: rest).length + 4 := by
    have := flatten_escChar_len bs
    simp only [List.length_append, List.length_cons]
    omega
  have h := str_loopF_content bs fl cname [] rest _ hall hlen
  rw [List.nil_append] at h
  exact h

lemma parse_null_exact (rest : Stm) : parse_null (bytesOf "ull" ++ rest) = .ok (.null, rest) := rfl

lemma parse_boolean_true (rest : Stm) :
    parse_boolean 116 (bytesOf "rue" ++ rest) = .ok (.boolean true, rest) := rfl

lemma parse_boolean_false (rest : Stm) :
    parse_boolean 102 (bytesOf "alse" ++ rest) = .ok (.boolean false, rest) := rfl

/-- Every rendered value begins with a significant, pushback-safe byte
that cannot be confused with a container delimiter. -/
lemma stringify_head (fl : Nat) (ind : Int) (v : JVal) (pre : List Int) (hs : SafeB v = true) :
    ∃ c t, stringify_to fl ind v pre = c :: t ∧ 0 ≤ c ∧ wsB c = false ∧ c ≠ 47 ∧
      c ≠ 93 ∧ c ≠ 125 ∧ c ≠ 44 := by
  cases v with
  | null =>
    exact ⟨110, _, rfl, by decide, by decide, by decide, by decide, by decide, by decide⟩
  | boolean b =>
    cases b with
    | false => exact ⟨102, _, rfl, by decide, by decide, by decide, by decide, by decide, by decide⟩
    | true => exact ⟨116, _, rfl, by decide, by decide, by decide, by decide, by decide, by decide⟩
  | str bs =>
    exact ⟨34, _, rfl, by decide, by decide, by decide, by decide, by decide, by decide⟩
  | number n =>
    cases n with
    | nan => simp [SafeB] at hs
    | posInf => simp [SafeB] at hs
    | negInf => simp [SafeB] at hs
    | fin q =>
      simp only [SafeB, Bool.and_eq_true, beq_iff_eq, decide_eq_true_eq] at hs
      obtain ⟨hden, habs⟩ := hs
      have hfg := fmtG_int q hden habs
      have hmain : stringify_to fl ind (.number (.fin q)) pre = fmtG q := rfl
      by_cases hneg : q < 0
      · refine ⟨45, decBytes q.num.natAbs, ?_, by decide, by decide, by decide, by decide,
          by decide, by decide⟩
        rw [hmain, hfg, if_pos hneg]
        rfl
      · obtain ⟨hds, _, _, hpos⟩ := decDigits_spec q.num.natAbs
        by_cases hz : q.num.natAbs = 0
        · refine ⟨48, [], ?_, by decide, by decide, by decide, by decide, by decide, by decide⟩
          rw [hmain, hfg, if_neg hneg, List.nil_append, hz]
          rfl
        · obtain ⟨_, d0, ds, hdd, hd0⟩ := hpos (by omega)
          have hd9 : d0 < 10 := hds d0 (by rw [hdd]; simp)
          refine ⟨((48 + d0 : Nat) : Int), digitBytes ds, ?_, by omega,
            wsB_false_of (by omega), by omega, by omega, by omega, by omega⟩
          rw [hmain, hfg, if_neg hneg, List.nil_append, decBytes, hdd]
          rfl
  | arr elems =>
    by_cases he : elems.isEmpty = true
    · refine ⟨91, [93], ?_, by decide, by decide, by decide, by decide, by decide, by decide⟩
      show stringify_to fl ind (.arr elems) pre = _
      rw [show stringify_to fl ind (.arr elems) pre =
          (if elems.isEmpty then bytesOf "[]"
           else if ind == 0 then 91 :: stringify_items fl ind elems ++ [93]
           else
            91 :: stringify_items_indent fl ind elems (get_newline fl)
                (pre ++ get_indent ⟨fl, ind⟩) ++ get_newline fl ++ pre ++ [93]) from rfl]
      rw [if_pos he]
      rfl
    · by_cases hi : (ind == 0) = true
      · refine ⟨91, stringify_items fl ind elems ++ [93], ?_, by decide, by decide, by decide,
          by decide, by decide, by decide⟩
        rw [show stringify_to fl ind (.arr elems) pre =
            (if elems.isEmpty then bytesOf "[]"
             else if ind == 0 then 91 :: stringify_items fl ind elems ++ [93]
             else
              91 :: stringify_items_indent fl ind elems (get_newline fl)
                  (pre ++ get_indent ⟨fl, ind⟩) ++ get_newline fl ++ pre ++ [93]) from rfl]
        rw [if_neg (by simp [he]), if_pos hi]
        exact List.cons_append _ _ _
      · refine ⟨91, stringify_items_indent fl ind elems (get_newline fl)
            (pre ++ get_indent ⟨fl, ind⟩) ++ get_newline fl ++ pre ++ [93], ?_, by decide,
          by decide, by decide, by decide, by decide, by decide⟩
        rw [show stringify_to fl ind (.arr elems) pre =
            (if elems.isEmpty then bytesOf "[]"
             else if ind == 0 then 91 :: stringify_items fl ind elems ++ [93]
             else
              91 :: stringify_items_indent fl ind elems (get_newline fl)
                  (pre ++ get_indent ⟨fl, ind⟩) ++ get_newline fl ++ pre ++ [93]) from rfl]
        rw [if_neg (by simp [he]), if_neg (by simp [hi])]
        exact List.cons_append _ _ _
  | obj entries =>
    by_cases he : entries.isEmpty = true
    · refine ⟨123, [125], ?_, by decide, by decide, by decide, by decide, by decide, by decide⟩
      rw [show stringify_to fl ind (.obj entries) pre =
          (if entries.isEmpty then bytesOf "{}"
           else if ind == 0 then 123 :: stringify_members fl ind entries ++ [125]
           else
            123 :: stringify_members_indent fl ind entries (get_newline fl)
                (pre ++ get_indent ⟨fl, ind⟩) ++ get_newline fl ++ pre ++ [125]) from rfl]
      rw [if_pos he]
      rfl
    · by_cases hi : (ind == 0) = true
      · refine ⟨123, stringify_members fl ind entries ++ [125], ?_, by decide, by decide,
          by decide, by decide, by decide, by decide⟩
        rw [show stringify_to fl ind (.obj entries) pre =
            (if entries.isEmpty then bytesOf "{}"
             else if ind == 0 then 123 :: stringify_members fl ind entries ++ [125]
             else
              123 :: stringify_members_indent fl ind entries (get_newline fl)
                  (pre ++ get_indent ⟨fl, ind⟩) ++ get_newline fl ++ pre ++ [125]) from rfl]
        rw [if_neg (by simp [he]), if_pos hi]
        exact List.cons_append _ _ _
      · refine ⟨123, stringify_members_indent fl ind entries (get_newline fl)
            (pre ++ get_indent ⟨fl, ind⟩) ++ get_newline fl ++ pre ++ [125], ?_, by decide,
          by decide, by decide, by decide, by decide, by decide⟩
        rw [show stringify_to fl ind (.obj entries) pre =
            (if entries.isEmpty then bytesOf "{}"
             else if ind == 0 then 123 :: stringify_members fl ind entries ++ [125]
             else
              123 :: stringify_members_indent fl ind entries (get_newline fl)
                  (pre ++ get_indent ⟨fl, ind⟩) ++ get_newline fl ++ pre ++ [125]) from rfl]
        rw [if_neg (by simp [he]), if_neg (by simp [hi])]
        exact List.cons_append _ _ _

/-! ### `std::map` key-order facts -/

lemma keyLt_irrefl (k : List Int) : keyLt k k = false := by
  induction k with
  | nil => rfl
  | cons a as ih =>
    show (if a < a then true else if a < a then false else keyLt as as) = false
    rw [if_neg (lt_irrefl a), if_neg (lt_irrefl a)]
    exact ih

lemma keyLt_ne {a b : List Int} (h : keyLt a b = true) : a ≠ b := by
  intro hab
  rw [hab, keyLt_irrefl] at h
  exact Bool.noConfusion h

lemma keyLt_trans : ∀ {a b c : List Int},
    keyLt a b = true → keyLt b c = true → keyLt a c = true := by
  intro a
  induction a with
  | nil =>
    intro b c hab hbc
    cases b with
    | nil => exact Bool.noConfusion hab
    | cons b0 bs =>
      cases c with
      | nil => exact Bool.noConfusion hbc
      | cons c0 cs => rfl
  | cons a0 as ih =>
    intro b c hab hbc
    cases b with
    | nil => exact Bool.noConfusion hab
    | cons b0 bs =>
      cases c with
      | nil => exact Bool.noConfusion hbc
      | cons c0 cs =>
        have hab' : (if a0 < b0 then true else if b0 < a0 then false else keyLt as bs) = true :=
          hab
        have hbc' : (if b0 < c0 then true else if c0 < b0 then false else keyLt bs cs) = true :=
          hbc
        show (if a0 < c0 then true else if c0 < a0 then false else keyLt as cs) = true
        by_cases h1 : a0 < b0
        · by_cases h2 : b0 < c0
          · rw [if_pos (lt_trans h1 h2)]
          · rw [if_neg h2] at hbc'
            by_cases h3 : c0 < b0
            · rw [if_pos h3] at hbc'
              exact Bool.noConfusion hbc'
            · have : b0 = c0 := le_antisymm (le_of_not_lt h3) (le_of_not_lt h2)
              rw [if_pos (this ▸ h1)]
        · rw [if_neg h1] at hab'
          by_cases h4 : b0 < a0
          · rw [if_pos h4] at hab'
            exact Bool.noConfusion hab'
          · have hab0 : a0 = b0 := le_antisymm (le_of_not_lt h4) (le_of_not_lt h1)
            subst hab0
            rw [if_neg (lt_irrefl a0)] at hab'
            by_cases h2 : a0 < c0
            · rw [if_pos h2]
            · rw [if_neg h2] at hbc' ⊢
              by_cases h3 : c0 < a0
              · rw [if_pos h3] at hbc'
                exact Bool.noConfusion hbc'
              · rw [if_neg h3] at hbc' ⊢
                exact ih hab' hbc'

lemma keyLt_asymm {a b : List Int} (h : keyLt a b = true) : keyLt b a = false := by
  cases hba : keyLt b a with
  | false => rfl
  | true =>
    have := keyLt_trans h hba
    rw [keyLt_irrefl] at this
    exact Bool.noConfusion this

/-- In a strictly ascending list every earlier key is below a later one. -/
lemma keysAscB_prefix_lt : ∀ (acc : List (List Int × JVal)) (k : List Int) (v : JVal)
    (es : List (List Int × JVal)),
    keysAscB (acc ++ (k, v) :: es) = true → ∀ p ∈ acc, keyLt p.1 k = true := by
  intro acc
  induction acc with
  | nil => intro k v es _ p hp; exact absurd hp (List.not_mem_nil p)
  | cons q acc ih =>
    intro k v es hasc p hp
    obtain ⟨q1, q2⟩ := q
    cases acc with
    | nil =>
      simp only [List.nil_append, List.cons_append] at hasc
      have hasc' : (keyLt q1 k && keysAscB ((k, v) :: es)) = true := hasc
      simp only [Bool.and_eq_true] at hasc'
      rcases List.mem_cons.mp hp with rfl | hmem
      · exact hasc'.1
      · exact absurd hmem (List.not_mem_nil p)
    | cons r acc2 =>
      obtain ⟨r1, r2⟩ := r
      have hasc' : (keyLt q1 r1 && keysAscB ((r1, r2) :: (acc2 ++ (k, v) :: es))) = true := hasc
      simp only [Bool.and_eq_true] at hasc'
      rcases List.mem_cons.mp hp with rfl | hmem
      · have hrk : keyLt r1 k = true :=
          ih k v es hasc'.2 (r1, r2) (List.mem_cons_self _ _)
        exact keyLt_trans hasc'.1 hrk
      · exact ih k v es hasc'.2 p hmem

/-- `emplace` of a key above every existing key appends; the subsequent
iterator write updates that entry: the member lands at the end. -/
lemma obj_put_append (acc : List (List Int × JVal)) (k : List Int) (v : JVal)
    (h : ∀ p ∈ acc, keyLt p.1 k = true) :
    obj_put acc k v = acc ++ [(k, v)] := by
  have hemp : obj_emplace acc k .null = acc ++ [(k, .null)] := by
    induction acc with
    | nil => rfl
    | cons q acc ih =>
      obtain ⟨q1, q2⟩ := q
      have hq : keyLt q1 k = true := h (q1, q2) (List.mem_cons_self _ _)
      show (if keyLt k q1 then (k, JVal.null) :: (q1, q2) :: acc
        else if q1 = k then (q1, q2) :: acc
        else (q1, q2) :: obj_emplace acc k .null) = _
      rw [if_neg (by rw [keyLt_asymm hq]; exact Bool.noConfusion),
        if_neg (fun he => absurd hq (by rw [he, keyLt_irrefl]; exact Bool.noConfusion))]
      rw [ih (fun p hp => h p (List.mem_cons_of_mem _ hp))]
      rfl
  unfold obj_put
  rw [hemp]
  clear hemp
  induction acc with
  | nil =>
    show (if k = k then (k, v) :: [] else (k, JVal.null) :: obj_assign [] k v) = _
    rw [if_pos rfl]
    rfl
  | cons q acc ih =>
    obtain ⟨q1, q2⟩ := q
    have hq : keyLt q1 k = true := h (q1, q2) (List.mem_cons_self _ _)
    show (if q1 = k then (q1, v) :: (acc ++ [(k, JVal.null)])
      else (q1, q2) :: obj_assign (acc ++ [(k, JVal.null)]) k v) = _
    rw [if_neg (fun he => absurd hq (by rw [he, keyLt_irrefl]; exact Bool.noConfusion))]
    have := ih (fun p hp => h p (List.mem_cons_of_mem _ hp))
    simp only [List.cons_append]
    rw [show obj_assign (acc ++ [(k, JVal.null)]) k v = acc ++ [(k, v)] from this]

/-- Raw lookahead into whitespace-prefixed rendered text: the byte read is
pushback-safe and is no container terminator. -/
lemma get_ws_cons (w : List Int) (hw : wsOnly w = true) (c : Int) (hc0 : 0 ≤ c)
    (hc93 : c ≠ 93) (hc125 : c ≠ 125) (t : Stm) :
    ((Stm.get (w ++ c :: t)).1 == 93) = false ∧ ((Stm.get (w ++ c :: t)).1 == 125) = false ∧
    (Stm.get (w ++ c :: t)).2.unget (Stm.get (w ++ c :: t)).1 = w ++ c :: t := by
  cases w with
  | nil =>
    simp only [List.nil_append, Stm.get]
    refine ⟨by simp only [beq_eq_false_iff_ne, ne_eq]; exact hc93,
      by simp only [beq_eq_false_iff_ne, ne_eq]; exact hc125, ?_⟩
    simp only [Stm.unget]
    rw [if_neg]
    intro hce
    rw [hce] at hc0
    exact absurd hc0 (by decide)
  | cons b w2 =>
    have hb : wsB b = true := by
      simp only [wsOnly, List.all_cons, Bool.and_eq_true] at hw
      exact hw.1
    simp only [List.cons_append, Stm.get]
    rcases wsB_vals hb with rfl | rfl | rfl | rfl <;>
      exact ⟨by decide, by decide, rfl⟩

/-- `parse_key` on a quoted rendered key (any flag set): the key bytes are
recovered. -/
lemma parse_key_quoted (fl : Nat) (k : List Int) (hk : k.all byteOK = true)
    (ws : List Int) (hws : wsOnly ws = true) (X : Stm) :
    parse_key fl (ws ++ (stringify_string k ++ X)) = .ok (k, X) := by
  unfold parse_key
  have hshape : ws ++ (stringify_string k ++ X) =
      ws ++ 34 :: ((k.map escChar).flatten ++ 34 :: X) := by
    simp [stringify_string]
  rw [hshape]
  rw [skip_spaces_ws fl ws 34 _ hws (by decide) (by decide), okBind]
  dsimp only
  rw [if_neg (by simp)]
  exact parse_string_b_content fl ctxObjectKey k X hk

/-! ### The round-trip induction -/

lemma fuelNeed_pos (v : JVal) : 1 ≤ fuelNeed v := by
  cases v <;> simp only [fuelNeed] <;> omega

lemma fuelNeedL_pos (vs : List JVal) : 1 ≤ fuelNeedL vs := by
  cases vs <;> simp only [fuelNeedL] <;> omega

lemma fuelNeedE_pos (es : List (List Int × JVal)) : 1 ≤ fuelNeedE es := by
  cases es with
  | nil => simp only [fuelNeedE]; omega
  | cons e es =>
    obtain ⟨k, v⟩ := e
    simp only [fuelNeedE]
    omega

lemma rt_zero : RTall 0 := by
  refine ⟨?_, ?_, ?_, ?_, ?_⟩
  · intro fl ind v ws pre rest cname _ _ _ _ hfuel
    exact absurd hfuel (by have := fuelNeed_pos v; omega)
  · intro fl ind vs acc rest _ _ hfuel
    exact absurd hfuel (by have := fuelNeedL_pos vs; omega)
  · intro fl ind vs acc nl inner endws rest _ _ _ _ _ hfuel
    exact absurd hfuel (by have := fuelNeedL_pos vs; omega)
  · intro fl ind es acc rest _ _ _ hfuel
    exact absurd hfuel (by have := fuelNeedE_pos es; omega)
  · intro fl ind es acc nl inner endws rest _ _ _ _ _ _ hfuel
    exact absurd hfuel (by have := fuelNeedE_pos es; omega)

/-- Pushing back a genuine byte restores the stream. -/
lemma unget_cons (c : Int) (s : Stm) (hc : 0 ≤ c) : s.unget c = c :: s := by
  simp only [Stm.unget]
  rw [if_neg]
  intro hce
  rw [hce] at hc
  exact absurd hc (by decide)

lemma numTermS_itemsT (fl : Nat) (ind : Int) (vs : List JVal) (rest : Stm) :
    numTermS (stringify_items_tail fl ind vs ++ 93 :: rest) = true := by
  cases vs with
  | nil => rfl
  | cons v vs => rfl

lemma numTermS_itemsIT (fl : Nat) (ind : Int) (vs : List JVal) (nl inner : List Int)
    (endws : List Int) (hend : wsOnly endws = true) (rest : Stm) :
    numTermS (stringify_items_indent_tail fl ind vs nl inner ++ (endws ++ 93 :: rest)) =
      true := by
  cases vs with
  | nil =>
    show numTermS ([] ++ (endws ++ 93 :: rest)) = true
    rw [List.nil_append]
    exact numTermS_ws endws hend 93 (by decide) (by decide) rest
  | cons v vs => rfl

lemma numTermS_memsT (fl : Nat) (ind : Int) (es : List (List Int × JVal)) (rest : Stm) :
    numTermS (stringify_members_tail fl ind es ++ 125 :: rest) = true := by
  cases es with
  | nil => rfl
  | cons e es =>
    obtain ⟨k, v⟩ := e
    rfl

lemma numTermS_memsIT (fl : Nat) (ind : Int) (es : List (List Int × JVal)) (nl inner : List Int)
    (endws : List Int) (hend : wsOnly endws = true) (rest : Stm) :
    numTermS (stringify_members_indent_tail fl ind es nl inner ++ (endws ++ 125 :: rest)) =
      true := by
  cases es with
  | nil =>
    show numTermS ([] ++ (endws ++ 125 :: rest)) = true
    rw [List.nil_append]
    exact numTermS_ws endws hend 125 (by decide) (by decide) rest
  | cons e es =>
    obtain ⟨k, v⟩ := e
    rfl

lemma isEmpty_append_singleton {α : Type} (acc : List α) (v : α) :
    (acc ++ [v]).isEmpty = false := by
  cases h : acc ++ [v] with
  | nil => exact absurd h (by simp)
  | cons a b => rfl

/-- One tail iteration of the compact array loop. -/
lemma rt_arrT_step (f : Nat) (ihA : RTvalue f) (ihAT : RTarrT f) : RTarrT (f + 1) := by
  intro fl ind vs acc rest hsL hne hfuel
  cases vs with
  | nil =>
    rw [show stringify_items_tail fl ind [] = [] from rfl, List.nil_append]
    simp only [parse_arrayF]
    rw [skip_spaces_sig fl 93 rest (by decide) (by decide), okBind]
    dsimp only
    rw [if_pos (by decide)]
    rw [List.append_nil]
    rfl
  | cons v0 vs =>
    simp only [SafeL, Bool.and_eq_true] at hsL
    obtain ⟨hs0, hs2⟩ := hsL
    simp only [fuelNeedL] at hfuel
    obtain ⟨c1, t1, hct1, h1a, h1b, h1c, h1d, h1e, h1f⟩ := stringify_head fl ind v0 [] hs0
    have hX := numTermS_itemsT fl ind vs rest
    have hstep : stringify_items_tail fl ind (v0 :: vs) ++ 93 :: rest =
        44 :: (stringify_to fl ind v0 [] ++
          (stringify_items_tail fl ind vs ++ 93 :: rest)) := by
      show (44 :: stringify_to fl ind v0 [] ++ stringify_items_tail fl ind vs) ++ 93 :: rest = _
      simp [List.append_assoc]
    rw [hstep]
    simp only [parse_arrayF]
    rw [skip_spaces_sig fl 44 _ (by decide) (by decide), okBind]
    dsimp only
    rw [if_neg (by decide)]
    simp only [hne, Bool.false_eq_true, if_false]
    rw [if_neg (by decide)]
    have hv := ihA fl ind v0 [] [] (stringify_items_tail fl ind vs ++ 93 :: rest) ctxArray
      hs0 rfl rfl hX (by omega)
    rw [List.nil_append] at hv
    have hrec := ihAT fl ind vs (acc ++ [v0]) rest hs2 (isEmpty_append_singleton acc v0)
      (by omega)
    rcases Bool.eq_false_or_eq_true (has_flag fl flags.trailing_comma) with htc | htc
    · simp only [pureBind]
      rw [if_pos htc]
      rw [hct1, List.cons_append]
      simp only [Stm.get]
      rw [if_neg (by simp only [beq_iff_eq]; exact h1d)]
      rw [unget_cons c1 _ h1a, ← List.cons_append, ← hct1]
      rw [hv, okBind]
      dsimp only
      rw [hrec]
      simp
    · rw [if_neg (by simp [htc])]
      simp only [pureBind]
      rw [hv, okBind]
      dsimp only
      rw [hrec]
      simp

/-- One tail iteration of the indented array loop. -/
lemma rt_arrTI_step (f : Nat) (ihA : RTvalue f) (ihATI : RTarrTI f) : RTarrTI (f + 1) := by
  intro fl ind vs acc nl inner endws rest hsL hne hnl hinner hend hfuel
  cases vs with
  | nil =>
    rw [show stringify_items_indent_tail fl ind [] nl inner = [] from rfl, List.nil_append]
    simp only [parse_arrayF]
    rw [skip_spaces_ws fl endws 93 rest hend (by decide) (by decide), okBind]
    dsimp only
    rw [if_pos (by decide)]
    rw [List.append_nil]
    rfl
  | cons v0 vs =>
    simp only [SafeL, Bool.and_eq_true] at hsL
    obtain ⟨hs0, hs2⟩ := hsL
    simp only [fuelNeedL] at hfuel
    have hW : wsOnly (nl ++ inner) = true := wsOnly_append hnl hinner
    obtain ⟨c1, t1, hct1, h1a, h1b, h1c, h1d, h1e, h1f⟩ := stringify_head fl ind v0 inner hs0
    have hX := numTermS_itemsIT fl ind vs nl inner endws hend rest
    have hstep : stringify_items_indent_tail fl ind (v0 :: vs) nl inner ++
        (endws ++ 93 :: rest) =
        44 :: ((nl ++ inner) ++ c1 :: (t1 ++
          (stringify_items_indent_tail fl ind vs nl inner ++ (endws ++ 93 :: rest)))) := by
      show (44 :: (nl ++ inner ++ stringify_to fl ind v0 inner ++
        stringify_items_indent_tail fl ind vs nl inner)) ++ (endws ++ 93 :: rest) = _
      rw [hct1]
      simp [List.append_assoc]
    rw [hstep]
    simp only [parse_arrayF]
    rw [skip_spaces_sig fl 44 _ (by decide) (by decide), okBind]
    dsimp only
    rw [if_neg (by decide)]
    simp only [hne, Bool.false_eq_true, if_false]
    rw [if_neg (by decide)]
    have hv0 := ihA fl ind v0 (nl ++ inner) inner
      (stringify_items_indent_tail fl ind vs nl inner ++ (endws ++ 93 :: rest)) ctxArray
      hs0 hW hinner hX (by omega)
    have hv : parse_valueF f fl ((nl ++ inner) ++ c1 :: (t1 ++
        (stringify_items_indent_tail fl ind vs nl inner ++ (endws ++ 93 :: rest)))) ctxArray =
        .ok (v0, stringify_items_indent_tail fl ind vs nl inner ++ (endws ++ 93 :: rest)) := by
      rw [← hv0, hct1]
      simp [List.append_assoc]
    have hrec := ihATI fl ind vs (acc ++ [v0]) nl inner endws rest hs2
      (isEmpty_append_singleton acc v0) hnl hinner hend (by omega)
    rcases Bool.eq_false_or_eq_true (has_flag fl flags.trailing_comma) with htc | htc
    · simp only [pureBind]
      rw [if_pos htc]
      obtain ⟨hg93, hg125, hgu⟩ := get_ws_cons (nl ++ inner) hW c1 h1a h1d h1e (t1 ++
        (stringify_items_indent_tail fl ind vs nl inner ++ (endws ++ 93 :: rest)))
      rw [if_neg (by simp only [hg93]; exact Bool.noConfusion)]
      rw [hgu]
      rw [hv, okBind]
      dsimp only
      rw [hrec]
      simp
    · rw [if_neg (by simp [htc])]
      simp only [pureBind]
      rw [hv, okBind]
      dsimp only
      rw [hrec]
      simp

/-- One tail iteration of the compact object loop. -/
lemma rt_objT_step (f : Nat) (ihA : RTvalue f) (ihOT : RTobjT f) : RTobjT (f + 1) := by
  intro fl ind es acc rest hsE hne hasc hfuel
  cases es with
  | nil =>
    rw [show stringify_members_tail fl ind [] = [] from rfl, List.nil_append]
    simp only [parse_objectF]
    rw [skip_spaces_sig fl 125 rest (by decide) (by decide), okBind]
    dsimp only
    rw [if_pos (by decide)]
    rw [List.append_nil]
    rfl
  | cons e0 es =>
    obtain ⟨k0, v0⟩ := e0
    simp only [SafeE, Bool.and_eq_true] at hsE
    obtain ⟨⟨hk0, hs0⟩, hs2⟩ := hsE
    simp only [fuelNeedE] at hfuel
    have hX := numTermS_memsT fl ind es rest
    have hstep : stringify_members_tail fl ind ((k0, v0) :: es) ++ 125 :: rest =
        44 :: (stringify_string k0 ++ (58 :: (stringify_to fl ind v0 [] ++
          (stringify_members_tail fl ind es ++ 125 :: rest)))) := by
      show (44 :: (stringify_string k0 ++ 58 :: stringify_to fl ind v0 [] ++
        stringify_members_tail fl ind es)) ++ 125 :: rest = _
      simp [List.append_assoc]
    rw [hstep]
    simp only [parse_objectF]
    rw [skip_spaces_sig fl 44 _ (by decide) (by decide), okBind]
    dsimp only
    rw [if_neg (by decide)]
    simp only [hne, Bool.false_eq_true, if_false]
    rw [if_neg (by decide)]
    have hkey := parse_key_quoted fl k0 hk0 [] rfl (58 :: (stringify_to fl ind v0 [] ++
      (stringify_members_tail fl ind es ++ 125 :: rest)))
    rw [List.nil_append] at hkey
    have hv := ihA fl ind v0 [] [] (stringify_members_tail fl ind es ++ 125 :: rest)
      ctxObject hs0 rfl rfl hX (by omega)
    rw [List.nil_append] at hv
    have hlt := keysAscB_prefix_lt acc k0 v0 es hasc
    have hput : obj_assign (obj_emplace acc k0 .null) k0 v0 = acc ++ [(k0, v0)] :=
      obj_put_append acc k0 v0 hlt
    have hasc2 : keysAscB ((acc ++ [(k0, v0)]) ++ es) = true := by
      rw [List.append_assoc]
      simpa using hasc
    have hrec := ihOT fl ind es (acc ++ [(k0, v0)]) rest hs2
      (isEmpty_append_singleton acc (k0, v0)) hasc2 (by omega)
    rcases Bool.eq_false_or_eq_true (has_flag fl flags.trailing_comma) with htc | htc
    · simp only [pureBind]
      rw [if_pos htc]
      have hss : stringify_string k0 ++ (58 :: (stringify_to fl ind v0 [] ++
          (stringify_members_tail fl ind es ++ 125 :: rest))) =
          34 :: ((k0.map escChar).flatten ++ [34] ++ (58 :: (stringify_to fl ind v0 [] ++
            (stringify_members_tail fl ind es ++ 125 :: rest)))) := by
        show (34 :: ((k0.map escChar).flatten ++ [34])) ++ _ = _
        simp [List.append_assoc]
      rw [hss]
      simp only [Stm.get]
      rw [if_neg (by decide)]
      rw [unget_cons 34 _ (by decide), ← hss]
      rw [hkey, okBind]
      dsimp only
      rw [skip_spaces_sig fl 58 _ (by decide) (by decide), okBind]
      dsimp only
      rw [if_neg (by decide)]
      rw [hv, okBind]
      dsimp only
      rw [hput, hrec]
      simp
    · rw [if_neg (by simp [htc])]
      simp only [pureBind]
      rw [hkey, okBind]
      dsimp only
      rw [skip_spaces_sig fl 58 _ (by decide) (by decide), okBind]
      dsimp only
      rw [if_neg (by decide)]
      rw [hv, okBind]
      dsimp only
      rw [hput, hrec]
      simp

/-- One tail iteration of the indented object loop. -/
lemma rt_objTI_step (f : Nat) (ihA : RTvalue f) (ihOTI : RTobjTI f) : RTobjTI (f + 1) := by
  intro fl ind es acc nl inner endws rest hsE hne hasc hnl hinner hend hfuel
  cases es with
  | nil =>
    rw [show stringify_members_indent_tail fl ind [] nl inner = [] from rfl, List.nil_append]
    simp only [parse_objectF]
    rw [skip_spaces_ws fl endws 125 rest hend (by decide) (by decide), okBind]
    dsimp only
    rw [if_pos (by decide)]
    rw [List.append_nil]
    rfl
  | cons e0 es =>
    obtain ⟨k0, v0⟩ := e0
    simp only [SafeE, Bool.and_eq_true] at hsE
    obtain ⟨⟨hk0, hs0⟩, hs2⟩ := hsE
    simp only [fuelNeedE] at hfuel
    have hW : wsOnly (nl ++ inner) = true := wsOnly_append hnl hinner
    have hX := numTermS_memsIT fl ind es nl inner endws hend rest
    have hstep : stringify_members_indent_tail fl ind ((k0, v0) :: es) nl inner ++
        (endws ++ 125 :: rest) =
        44 :: ((nl ++ inner) ++ (stringify_string k0 ++ (58 :: 32 ::
          (stringify_to fl ind v0 inner ++
            (stringify_members_indent_tail fl ind es nl inner ++
              (endws ++ 125 :: rest)))))) := by
      show (44 :: (nl ++ inner ++ stringify_string k0 ++ 58 :: 32 ::
        stringify_to fl ind v0 inner ++
        stringify_members_indent_tail fl ind es nl inner)) ++ (endws ++ 125 :: rest) = _
      simp [List.append_assoc]
    rw [hstep]
    simp only [parse_objectF]
    rw [skip_spaces_sig fl 44 _ (by decide) (by decide), okBind]
    dsimp only
    rw [if_neg (by decide)]
    simp only [hne, Bool.false_eq_true, if_false]
    rw [if_neg (by decide)]
    have hkey := parse_key_quoted fl k0 hk0 (nl ++ inner) hW (58 :: 32 ::
      (stringify_to fl ind v0 inner ++
        (stringify_members_indent_tail fl ind es nl inner ++ (endws ++ 125 :: rest))))
    have hv0 := ihA fl ind v0 [32] inner
      (stringify_members_indent_tail fl ind es nl inner ++ (endws ++ 125 :: rest))
      ctxObject hs0 rfl hinner hX (by omega)
    have hv : parse_valueF f fl (32 :: (stringify_to fl ind v0 inner ++
        (stringify_members_indent_tail fl ind es nl inner ++ (endws ++ 125 :: rest))))
        ctxObject =
        .ok (v0, stringify_members_indent_tail fl ind es nl inner ++
          (endws ++ 125 :: rest)) := by
      rw [← hv0]
      simp [List.append_assoc]
    have hlt := keysAscB_prefix_lt acc k0 v0 es hasc
    have hput : obj_assign (obj_emplace acc k0 .null) k0 v0 = acc ++ [(k0, v0)] :=
      obj_put_append acc k0 v0 hlt
    have hasc2 : keysAscB ((acc ++ [(k0, v0)]) ++ es) = true := by
      rw [List.append_assoc]
      simpa using hasc
    have hrec := ihOTI fl ind es (acc ++ [(k0, v0)]) nl inner endws rest hs2
      (isEmpty_append_singleton acc (k0, v0)) hasc2 hnl hinner hend (by omega)
    rcases Bool.eq_false_or_eq_true (has_flag fl flags.trailing_comma) with htc | htc
    · simp only [pureBind]
      rw [if_pos htc]
      obtain ⟨hg93, hg125, hgu⟩ := get_ws_cons (nl ++ inner) hW 34 (by decide) (by decide)
        (by decide) ((k0.map escChar).flatten ++ [34] ++ (58 :: 32 ::
          (stringify_to fl ind v0 inner ++
            (stringify_members_indent_tail fl ind es nl inner ++ (endws ++ 125 :: rest)))))
      have hss : stringify_string k0 ++ (58 :: 32 :: (stringify_to fl ind v0 inner ++
          (stringify_members_indent_tail fl ind es nl inner ++ (endws ++ 125 :: rest)))) =
          34 :: ((k0.map escChar).flatten ++ [34] ++ (58 :: 32 ::
            (stringify_to fl ind v0 inner ++
              (stringify_members_indent_tail fl ind es nl inner ++
                (endws ++ 125 :: rest))))) := by
        show (34 :: ((k0.map escChar).flatten ++ [34])) ++ _ = _
        simp [List.append_assoc]
      rw [hss]
      rw [if_neg (by simp only [hg125]; exact Bool.noConfusion)]
      rw [hgu, ← hss]
      rw [hkey, okBind]
      dsimp only
      rw [skip_spaces_sig fl 58 _ (by decide) (by decide), okBind]
      dsimp only
      rw [if_neg (by decide)]
      rw [hv, okBind]
      dsimp only
      rw [hput, hrec]
      simp
    · rw [if_neg (by simp [htc])]
      simp only [pureBind]
      rw [hkey, okBind]
      dsimp only
      rw [skip_spaces_sig fl 58 _ (by decide) (by decide), okBind]
      dsimp only
      rw [if_neg (by decide)]
      rw [hv, okBind]
      dsimp only
      rw [hput, hrec]
      simp

/-- Parsing the rendering of one safe value (the dispatch step of the
round-trip induction; the loop invariants at all smaller fuels are
available). -/
lemma rt_value_step (f : Nat) (ih : ∀ g, g ≤ f → RTall g) : RTvalue (f + 1) := by
  obtain ⟨ihA, ihAT, ihATI, ihOT, ihOTI⟩ := ih f (le_refl f)
  intro fl ind v ws pre rest cname hs hws hpre hrest hfuel
  cases v with
  | null =>
    have hshape : ws ++ stringify_to fl ind .null pre ++ rest =
        ws ++ 110 :: (bytesOf "ull" ++ rest) := by
      rw [show stringify_to fl ind .null pre = 110 :: bytesOf "ull" from rfl]
      simp
    rw [hshape]
    simp only [parse_valueF]
    rw [skip_spaces_ws fl ws 110 _ hws (by decide) (by decide), okBind]
    dsimp only
    rw [if_neg (by decide), if_neg (by decide), if_neg (by decide), if_pos (by decide)]
    exact parse_null_exact rest
  | boolean b =>
    cases b with
    | true =>
      have hshape : ws ++ stringify_to fl ind (.boolean true) pre ++ rest =
          ws ++ 116 :: (bytesOf "rue" ++ rest) := by
        rw [show stringify_to fl ind (.boolean true) pre = 116 :: bytesOf "rue" from rfl]
        simp
      rw [hshape]
      simp only [parse_valueF]
      rw [skip_spaces_ws fl ws 116 _ hws (by decide) (by decide), okBind]
      dsimp only
      rw [if_neg (by decide), if_neg (by decide), if_neg (by decide), if_neg (by decide),
        if_pos (by decide)]
      exact parse_boolean_true rest
    | false =>
      have hshape : ws ++ stringify_to fl ind (.boolean false) pre ++ rest =
          ws ++ 102 :: (bytesOf "alse" ++ rest) := by
        rw [show stringify_to fl ind (.boolean false) pre = 102 :: bytesOf "alse" from rfl]
        simp
      rw [hshape]
      simp only [parse_valueF]
      rw [skip_spaces_ws fl ws 102 _ hws (by decide) (by decide), okBind]
      dsimp only
      rw [if_neg (by decide), if_neg (by decide), if_neg (by decide), if_neg (by decide),
        if_pos (by decide)]
      exact parse_boolean_false rest
  | str bs =>
    simp only [SafeB] at hs
    have hshape : ws ++ stringify_to fl ind (.str bs) pre ++ rest =
        ws ++ 34 :: ((bs.map escChar).flatten ++ 34 :: rest) := by
      rw [show stringify_to fl ind (.str bs) pre =
        34 :: ((bs.map escChar).flatten ++ [34]) from rfl]
      simp
    rw [hshape]
    simp only [parse_valueF]
    rw [skip_spaces_ws fl ws 34 _ hws (by decide) (by decide), okBind]
    dsimp only
    rw [if_neg (by decide), if_neg (by decide), if_pos (by decide)]
    unfold parse_string_v
    rw [parse_string_b_content fl ctxString bs rest hs, okBind]
    rfl
  | number n =>
    cases n with
    | nan => simp [SafeB] at hs
    | posInf => simp [SafeB] at hs
    | negInf => simp [SafeB] at hs
    | fin q =>
      simp only [SafeB, Bool.and_eq_true, beq_iff_eq, decide_eq_true_eq] at hs
      obtain ⟨hden, habs⟩ := hs
      have hfg := fmtG_int q hden habs
      have hhead : ∃ c0 t0, fmtG q = c0 :: t0 ∧ (c0 = 45 ∨ (48 ≤ c0 ∧ c0 ≤ 57)) := by
        by_cases hneg : q < 0
        · exact ⟨45, decBytes q.num.natAbs, by rw [hfg, if_pos hneg]; rfl, Or.inl rfl⟩
        · obtain ⟨hds, _, _, hpos⟩ := decDigits_spec q.num.natAbs
          by_cases hz : q.num.natAbs = 0
          · refine ⟨48, [], ?_, Or.inr (by omega)⟩
            rw [hfg, if_neg hneg, List.nil_append, hz]
            rfl
          · obtain ⟨_, d0, ds, hdd, hd0⟩ := hpos (by omega)
            have hd9 : d0 < 10 := hds d0 (by rw [hdd]; simp)
            refine ⟨((48 + d0 : Nat) : Int), digitBytes ds, ?_, Or.inr (by omega)⟩
            rw [hfg, if_neg hneg, List.nil_append, decBytes, hdd]
            rfl
      obtain ⟨c0, t0, hc0, hcd⟩ := hhead
      have hshape : ws ++ stringify_to fl ind (.number (.fin q)) pre ++ rest =
          ws ++ c0 :: (t0 ++ rest) := by
        rw [show stringify_to fl ind (.number (.fin q)) pre = fmtG q from rfl, hc0]
        simp
      rw [hshape]
      simp only [parse_valueF]
      rw [skip_spaces_ws fl ws c0 _ hws (wsB_false_of (by omega)) (by omega), okBind]
      dsimp only
      rw [if_neg (by simp only [beq_iff_eq]; omega),
        if_neg (by simp only [beq_iff_eq]; omega),
        if_neg (by simp only [Bool.or_eq_true, beq_iff_eq]; omega),
        if_neg (by simp only [beq_iff_eq]; omega),
        if_neg (by simp only [Bool.or_eq_true, beq_iff_eq]; omega),
        if_pos (by simp only [is_digit, Bool.or_eq_true, Bool.and_eq_true,
          decide_eq_true_eq, beq_iff_eq]; omega)]
      exact parse_number_fmtG fl q hden habs rest hrest c0 (t0 ++ rest)
        (by rw [hc0]; simp)
  | arr elems =>
    simp only [SafeB] at hs
    cases elems with
    | nil =>
      simp only [fuelNeed, fuelNeedL] at hfuel
      obtain ⟨f1, rfl⟩ : ∃ f1, f = f1 + 1 := ⟨f - 1, by omega⟩
      have hshape : ws ++ stringify_to fl ind (.arr []) pre ++ rest =
          ws ++ 91 :: (93 :: rest) := by
        rw [show stringify_to fl ind (.arr []) pre = [91, 93] from rfl]
        simp
      rw [hshape]
      simp only [parse_valueF]
      rw [skip_spaces_ws fl ws 91 _ hws (by decide) (by decide), okBind]
      dsimp only
      rw [if_neg (by decide), if_pos (by decide)]
      simp only [parse_arrayF]
      rw [skip_spaces_sig fl 93 rest (by decide) (by decide), okBind]
      dsimp only
      rw [if_pos (by decide)]
      rfl
    | cons v0 vs =>
      simp only [SafeL, Bool.and_eq_true] at hs
      obtain ⟨hs0, hs2⟩ := hs
      simp only [fuelNeed, fuelNeedL] at hfuel
      obtain ⟨f1, rfl⟩ : ∃ f1, f = f1 + 1 := ⟨f - 1, by omega⟩
      obtain ⟨ihA1, ihAT1, ihATI1, _, _⟩ := ih f1 (by omega)
      by_cases hind : (ind == 0) = true
      · -- compact mode
        obtain ⟨c1, t1, hct1, h1a, h1b, h1c, h1d, h1e, h1f⟩ :=
          stringify_head fl ind v0 [] hs0
        have hX := numTermS_itemsT fl ind vs rest
        have hr : stringify_to fl ind (.arr (v0 :: vs)) pre =
            91 :: (stringify_items fl ind (v0 :: vs) ++ [93]) := by
          rw [show stringify_to fl ind (.arr (v0 :: vs)) pre =
              (if (v0 :: vs).isEmpty then bytesOf "[]"
               else if ind == 0 then 91 :: stringify_items fl ind (v0 :: vs) ++ [93]
               else
                91 :: stringify_items_indent fl ind (v0 :: vs) (get_newline fl)
                    (pre ++ get_indent ⟨fl, ind⟩) ++ get_newline fl ++ pre ++ [93]) from rfl]
          rw [if_neg (by simp), if_pos hind]
          exact List.cons_append _ _ _
        have hshape : ws ++ stringify_to fl ind (.arr (v0 :: vs)) pre ++ rest =
            ws ++ 91 :: (c1 :: (t1 ++ (stringify_items_tail fl ind vs ++ 93 :: rest))) := by
          rw [hr, show stringify_items fl ind (v0 :: vs) =
            stringify_to fl ind v0 [] ++ stringify_items_tail fl ind vs from rfl, hct1]
          simp [List.append_assoc]
        rw [hshape]
        simp only [parse_valueF]
        rw [skip_spaces_ws fl ws 91 _ hws (by decide) (by decide), okBind]
        dsimp only
        rw [if_neg (by decide), if_pos (by decide)]
        simp only [parse_arrayF]
        rw [skip_spaces_sig fl c1 _ h1b h1c, okBind]
        dsimp only
        rw [if_neg (by simp only [beq_iff_eq]; exact h1d)]
        rw [if_pos (by decide : List.isEmpty ([] : List JVal) = true)]
        simp only [pureBind]
        rw [unget_cons c1 _ h1a, ← List.cons_append, ← hct1]
        have hv := ihA1 fl ind v0 [] [] (stringify_items_tail fl ind vs ++ 93 :: rest)
          ctxArray hs0 rfl rfl hX (by omega)
        rw [List.nil_append] at hv
        rw [hv, okBind]
        dsimp only
        have hrec := ihAT1 fl ind vs ([] ++ [v0]) rest hs2
          (isEmpty_append_singleton [] v0) (by omega)
        rw [hrec]
        simp
      · -- indented mode
        obtain ⟨c1, t1, hct1, h1a, h1b, h1c, h1d, h1e, h1f⟩ :=
          stringify_head fl ind v0 (pre ++ get_indent ⟨fl, ind⟩) hs0
        have hnl := wsOnly_get_newline fl
        have hinner : wsOnly (pre ++ get_indent ⟨fl, ind⟩) = true :=
          wsOnly_append hpre (wsOnly_get_indent _)
        have hendw : wsOnly (get_newline fl ++ pre) = true := wsOnly_append hnl hpre
        have hX := numTermS_itemsIT fl ind vs (get_newline fl)
          (pre ++ get_indent ⟨fl, ind⟩) (get_newline fl ++ pre) hendw rest
        have hW : wsOnly (get_newline fl ++ (pre ++ get_indent ⟨fl, ind⟩)) = true :=
          wsOnly_append hnl hinner
        have hr : stringify_to fl ind (.arr (v0 :: vs)) pre =
            (91 :: stringify_items_indent fl ind (v0 :: vs) (get_newline fl)
              (pre ++ get_indent ⟨fl, ind⟩)) ++ get_newline fl ++ pre ++ [93] := by
          rw [show stringify_to fl ind (.arr (v0 :: vs)) pre =
              (if (v0 :: vs).isEmpty then bytesOf "[]"
               else if ind == 0 then 91 :: stringify_items fl ind (v0 :: vs) ++ [93]
               else
                91 :: stringify_items_indent fl ind (v0 :: vs) (get_newline fl)
                    (pre ++ get_indent ⟨fl, ind⟩) ++ get_newline fl ++ pre ++ [93]) from rfl]
          rw [if_neg (by simp), if_neg (by simp [hind])]
        have hshape : ws ++ stringify_to fl ind (.arr (v0 :: vs)) pre ++ rest =
            ws ++ 91 :: ((get_newline fl ++ (pre ++ get_indent ⟨fl, ind⟩)) ++ c1 :: (t1 ++
              (stringify_items_indent_tail fl ind vs (get_newline fl)
                  (pre ++ get_indent ⟨fl, ind⟩) ++
                ((get_newline fl ++ pre) ++ 93 :: rest)))) := by
          rw [hr, show stringify_items_indent fl ind (v0 :: vs) (get_newline fl)
              (pre ++ get_indent ⟨fl, ind⟩) =
            get_newline fl ++ (pre ++ get_indent ⟨fl, ind⟩) ++
              stringify_to fl ind v0 (pre ++ get_indent ⟨fl, ind⟩) ++
              stringify_items_indent_tail fl ind vs (get_newline fl)
                (pre ++ get_indent ⟨fl, ind⟩) from rfl, hct1]
          simp [List.append_assoc]
        rw [hshape]
        simp only [parse_valueF]
        rw [skip_spaces_ws fl ws 91 _ hws (by decide) (by decide), okBind]
        dsimp only
        rw [if_neg (by decide), if_pos (by decide)]
        simp only [parse_arrayF]
        rw [skip_spaces_ws fl (get_newline fl ++ (pre ++ get_indent ⟨fl, ind⟩)) c1 _
          hW h1b h1c, okBind]
        dsimp only
        rw [if_neg (by simp only [beq_iff_eq]; exact h1d)]
        rw [if_pos (by decide : List.isEmpty ([] : List JVal) = true)]
        simp only [pureBind]
        rw [unget_cons c1 _ h1a, ← List.cons_append, ← hct1]
        have hv := ihA1 fl ind v0 [] (pre ++ get_indent ⟨fl, ind⟩)
          (stringify_items_indent_tail fl ind vs (get_newline fl)
              (pre ++ get_indent ⟨fl, ind⟩) ++ ((get_newline fl ++ pre) ++ 93 :: rest))
          ctxArray hs0 rfl hinner hX (by omega)
        rw [List.nil_append] at hv
        rw [hv, okBind]
        dsimp only
        have hrec := ihATI1 fl ind vs ([] ++ [v0]) (get_newline fl)
          (pre ++ get_indent ⟨fl, ind⟩) (get_newline fl ++ pre) rest hs2
          (isEmpty_append_singleton [] v0) hnl hinner hendw (by omega)
        rw [hrec]
        simp
  | obj entries =>
    simp only [SafeB, Bool.and_eq_true] at hs
    obtain ⟨hasc, hsE⟩ := hs
    cases entries with
    | nil =>
      simp only [fuelNeed, fuelNeedE] at hfuel
      obtain ⟨f1, rfl⟩ : ∃ f1, f = f1 + 1 := ⟨f - 1, by omega⟩
      have hshape : ws ++ stringify_to fl ind (.obj []) pre ++ rest =
          ws ++ 123 :: (125 :: rest) := by
        rw [show stringify_to fl ind (.obj []) pre = [123, 125] from rfl]
        simp
      rw [hshape]
      simp only [parse_valueF]
      rw [skip_spaces_ws fl ws 123 _ hws (by decide) (by decide), okBind]
      dsimp only
      rw [if_pos (by decide)]
      simp only [parse_objectF]
      rw [skip_spaces_sig fl 125 rest (by decide) (by decide), okBind]
      dsimp only
      rw [if_pos (by decide)]
      rfl
    | cons e0 es =>
      obtain ⟨k0, v0⟩ := e0
      simp only [SafeE, Bool.and_eq_true] at hsE
      obtain ⟨⟨hk0, hs0⟩, hs2⟩ := hsE
      simp only [fuelNeed, fuelNeedE] at hfuel
      obtain ⟨f1, rfl⟩ : ∃ f1, f = f1 + 1 := ⟨f - 1, by omega⟩
      obtain ⟨ihA1, _, _, ihOT1, ihOTI1⟩ := ih f1 (by omega)
      have hput : obj_assign (obj_emplace [] k0 .null) k0 v0 = [(k0, v0)] :=
        obj_put_append [] k0 v0 (fun p hp => absurd hp (List.not_mem_nil p))
      by_cases hind : (ind == 0) = true
      · -- compact mode
        have hX := numTermS_memsT fl ind es rest
        have hr : stringify_to fl ind (.obj ((k0, v0) :: es)) pre =
            123 :: (stringify_members fl ind ((k0, v0) :: es) ++ [125]) := by
          rw [show stringify_to fl ind (.obj ((k0, v0) :: es)) pre =
              (if ((k0, v0) :: es).isEmpty then bytesOf "{}"
               else if ind == 0 then
                123 :: stringify_members fl ind ((k0, v0) :: es) ++ [125]
               else
                123 :: stringify_members_indent fl ind ((k0, v0) :: es) (get_newline fl)
                    (pre ++ get_indent ⟨fl, ind⟩) ++ get_newline fl ++ pre ++ [125]) from rfl]
          rw [if_neg (by simp), if_pos hind]
          exact List.cons_append _ _ _
        have hshape : ws ++ stringify_to fl ind (.obj ((k0, v0) :: es)) pre ++ rest =
            ws ++ 123 :: (stringify_string k0 ++ (58 :: (stringify_to fl ind v0 [] ++
              (stringify_members_tail fl ind es ++ 125 :: rest)))) := by
          rw [hr, show stringify_members fl ind ((k0, v0) :: es) =
            stringify_string k0 ++ 58 :: stringify_to fl ind v0 [] ++
              stringify_members_tail fl ind es from rfl]
          simp [List.append_assoc]
        rw [hshape]
        simp only [parse_valueF]
        rw [skip_spaces_ws fl ws 123 _ hws (by decide) (by decide), okBind]
        dsimp only
        rw [if_pos (by decide)]
        simp only [parse_objectF]
        have hss : stringify_string k0 ++ (58 :: (stringify_to fl ind v0 [] ++
            (stringify_members_tail fl ind es ++ 125 :: rest))) =
            34 :: ((k0.map escChar).flatten ++ [34] ++ (58 :: (stringify_to fl ind v0 [] ++
              (stringify_members_tail fl ind es ++ 125 :: rest)))) := by
          show (34 :: ((k0.map escChar).flatten ++ [34])) ++ _ = _
          simp [List.append_assoc]
        rw [hss]
        rw [skip_spaces_sig fl 34 _ (by decide) (by decide), okBind]
        dsimp only
        rw [if_neg (by decide)]
        rw [if_pos (by decide : List.isEmpty ([] : List (List Int × JVal)) = true)]
        simp only [pureBind]
        rw [unget_cons 34 _ (by decide), ← hss]
        have hkey := parse_key_quoted fl k0 hk0 [] rfl (58 :: (stringify_to fl ind v0 [] ++
          (stringify_members_tail fl ind es ++ 125 :: rest)))
        rw [List.nil_append] at hkey
        rw [hkey, okBind]
        dsimp only
        rw [skip_spaces_sig fl 58 _ (by decide) (by decide), okBind]
        dsimp only
        rw [if_neg (by decide)]
        have hv := ihA1 fl ind v0 [] [] (stringify_members_tail fl ind es ++ 125 :: rest)
          ctxObject hs0 rfl rfl hX (by omega)
        rw [List.nil_append] at hv
        rw [hv, okBind]
        dsimp only
        rw [hput]
        have hrec := ihOT1 fl ind es [(k0, v0)] rest hs2 rfl
          (by simpa using hasc) (by omega)
        rw [hrec]
        simp
      · -- indented mode
        have hnl := wsOnly_get_newline fl
        have hinner : wsOnly (pre ++ get_indent ⟨fl, ind⟩) = true :=
          wsOnly_append hpre (wsOnly_get_indent _)
        have hendw : wsOnly (get_newline fl ++ pre) = true := wsOnly_append hnl hpre
        have hW : wsOnly (get_newline fl ++ (pre ++ get_indent ⟨fl, ind⟩)) = true :=
          wsOnly_append hnl hinner
        have hX := numTermS_memsIT fl ind es (get_newline fl)
          (pre ++ get_indent ⟨fl, ind⟩) (get_newline fl ++ pre) hendw rest
        have hr : stringify_to fl ind (.obj ((k0, v0) :: es)) pre =
            (123 :: stringify_members_indent fl ind ((k0, v0) :: es) (get_newline fl)
              (pre ++ get_indent ⟨fl, ind⟩)) ++ get_newline fl ++ pre ++ [125] := by
          rw [show stringify_to fl ind (.obj ((k0, v0) :: es)) pre =
              (if ((k0, v0) :: es).isEmpty then bytesOf "{}"
               else if ind == 0 then
                123 :: stringify_members fl ind ((k0, v0) :: es) ++ [125]
               else
                123 :: stringify_members_indent fl ind ((k0, v0) :: es) (get_newline fl)
                    (pre ++ get_indent ⟨fl, ind⟩) ++ get_newline fl ++ pre ++ [125]) from rfl]
          rw [if_neg (by simp), if_neg (by simp [hind])]
        have hshape : ws ++ stringify_to fl ind (.obj ((k0, v0) :: es)) pre ++ rest =
            ws ++ 123 :: ((get_newline fl ++ (pre ++ get_indent ⟨fl, ind⟩)) ++
              (stringify_string k0 ++ (58 :: 32 ::
                (stringify_to fl ind v0 (pre ++ get_indent ⟨fl, ind⟩) ++
                  (stringify_members_indent_tail fl ind es (get_newline fl)
                      (pre ++ get_indent ⟨fl, ind⟩) ++
                    ((get_newline fl ++ pre) ++ 125 :: rest)))))) := by
          rw [hr, show stringify_members_indent fl ind ((k0, v0) :: es) (get_newline fl)
              (pre ++ get_indent ⟨fl, ind⟩) =
            get_newline fl ++ (pre ++ get_indent ⟨fl, ind⟩) ++ stringify_string k0 ++
              58 :: 32 :: stringify_to fl ind v0 (pre ++ get_indent ⟨fl, ind⟩) ++
              stringify_members_indent_tail fl ind es (get_newline fl)
                (pre ++ get_indent ⟨fl, ind⟩) from rfl]
          simp [List.append_assoc]
        rw [hshape]
        simp only [parse_valueF]
        rw [skip_spaces_ws fl ws 123 _ hws (by decide) (by decide), okBind]
        dsimp only
        rw [if_pos (by decide)]
        simp only [parse_objectF]
        have hkey := parse_key_quoted fl k0 hk0 [] rfl (58 :: 32 ::
          (stringify_to fl ind v0 (pre ++ get_indent ⟨fl, ind⟩) ++
            (stringify_members_indent_tail fl ind es (get_newline fl)
                (pre ++ get_indent ⟨fl, ind⟩) ++ ((get_newline fl ++ pre) ++ 125 :: rest))))
        rw [List.nil_append] at hkey
        obtain ⟨hg93, hg125, hgu⟩ := get_ws_cons
          (get_newline fl ++ (pre ++ get_indent ⟨fl, ind⟩)) hW 34 (by decide) (by decide)
          (by decide) ((k0.map escChar).flatten ++ [34] ++ (58 :: 32 ::
            (stringify_to fl ind v0 (pre ++ get_indent ⟨fl, ind⟩) ++
              (stringify_members_indent_tail fl ind es (get_newline fl)
                  (pre ++ get_indent ⟨fl, ind⟩) ++ ((get_newline fl ++ pre) ++ 125 :: rest)))))
        have hss : stringify_string k0 ++ (58 :: 32 ::
            (stringify_to fl ind v0 (pre ++ get_indent ⟨fl, ind⟩) ++
              (stringify_members_indent_tail fl ind es (get_newline fl)
                  (pre ++ get_indent ⟨fl, ind⟩) ++ ((get_newline fl ++ pre) ++ 125 :: rest)))) =
            34 :: ((k0.map escChar).flatten ++ [34] ++ (58 :: 32 ::
              (stringify_to fl ind v0 (pre ++ get_indent ⟨fl, ind⟩) ++
                (stringify_members_indent_tail fl ind es (get_newline fl)
                    (pre ++ get_indent ⟨fl, ind⟩) ++
                  ((get_newline fl ++ pre) ++ 125 :: rest))))) := by
          show (34 :: ((k0.map escChar).flatten ++ [34])) ++ _ = _
          simp [List.append_assoc]
        rw [show (get_newline fl ++ (pre ++ get_indent ⟨fl, ind⟩)) ++
            (stringify_string k0 ++ (58 :: 32 ::
              (stringify_to fl ind v0 (pre ++ get_indent ⟨fl, ind⟩) ++
                (stringify_members_indent_tail fl ind es (get_newline fl)
                    (pre ++ get_indent ⟨fl, ind⟩) ++
                  ((get_newline fl ++ pre) ++ 125 :: rest))))) =
            (get_newline fl ++ (pre ++ get_indent ⟨fl, ind⟩)) ++
            34 :: ((k0.map escChar).flatten ++ [34] ++ (58 :: 32 ::
              (stringify_to fl ind v0 (pre ++ get_indent ⟨fl, ind⟩) ++
                (stringify_members_indent_tail fl ind es (get_newline fl)
                    (pre ++ get_indent ⟨fl, ind⟩) ++
                  ((get_newline fl ++ pre) ++ 125 :: rest))))) from by rw [← hss]]
        rw [skip_spaces_ws fl (get_newline fl ++ (pre ++ get_indent ⟨fl, ind⟩)) 34 _
          hW (by decide) (by decide), okBind]
        dsimp only
        rw [if_neg (by decide)]
        rw [if_pos (by decide : List.isEmpty ([] : List (List Int × JVal)) = true)]
        simp only [pureBind]
        rw [unget_cons 34 _ (by decide), ← hss]
        rw [hkey, okBind]
        dsimp only
        rw [skip_spaces_sig fl 58 _ (by decide) (by decide), okBind]
        dsimp only
        rw [if_neg (by decide)]
        have hv0 := ihA1 fl ind v0 [32] (pre ++ get_indent ⟨fl, ind⟩)
          (stringify_members_indent_tail fl ind es (get_newline fl)
              (pre ++ get_indent ⟨fl, ind⟩) ++ ((get_newline fl ++ pre) ++ 125 :: rest))
          ctxObject hs0 rfl hinner hX (by omega)
        have hv : parse_valueF f1 fl (32 ::
            (stringify_to fl ind v0 (pre ++ get_indent ⟨fl, ind⟩) ++
              (stringify_members_indent_tail fl ind es (get_newline fl)
                  (pre ++ get_indent ⟨fl, ind⟩) ++ ((get_newline fl ++ pre) ++ 125 :: rest))))
            ctxObject =
            .ok (v0, stringify_members_indent_tail fl ind es (get_newline fl)
                (pre ++ get_indent ⟨fl, ind⟩) ++ ((get_newline fl ++ pre) ++ 125 :: rest)) := by
          rw [← hv0]
          simp [List.append_assoc]
        rw [hv, okBind]
        dsimp only
        rw [hput]
        have hrec := ihOTI1 fl ind es [(k0, v0)] (get_newline fl)
          (pre ++ get_indent ⟨fl, ind⟩) (get_newline fl ++ pre) rest hs2 rfl
          (by simpa using hasc) hnl hinner hendw (by omega)
        rw [hrec]
        simp

/-! ### Fuel sufficiency: the rendering is at least as long as the
recursion is deep -/

mutual

/-- A safe value's fuel need is bounded by its rendering's length. -/
theorem fuelNeed_le (v : JVal) (hs : SafeB v = true) (fl : Nat) (ind : Int) (pre : List Int) :
    fuelNeed v ≤ (stringify_to fl ind v pre).length + 1 := by
  cases v with
  | null => simp only [fuelNeed]; omega
  | boolean b => simp only [fuelNeed]; omega
  | number n => simp only [fuelNeed]; omega
  | str bs => simp only [fuelNeed]; omega
  | arr elems =>
    cases elems with
    | nil =>
      rw [show stringify_to fl ind (.arr []) pre = [91, 93] from rfl]
      simp only [fuelNeed, fuelNeedL]
      simp
    | cons v0 vs =>
      simp only [SafeB, SafeL, Bool.and_eq_true] at hs
      obtain ⟨hs0, hs2⟩ := hs
      obtain ⟨c1, t1, hct1, -, -, -, -, -, -⟩ := stringify_head fl ind v0 [] hs0
      obtain ⟨c2, t2, hct2, -, -, -, -, -, -⟩ :=
        stringify_head fl ind v0 (pre ++ get_indent ⟨fl, ind⟩) hs0
      have h0 := fuelNeed_le v0 hs0 fl ind []
      have h0i := fuelNeed_le v0 hs0 fl ind (pre ++ get_indent ⟨fl, ind⟩)
      have hT := fuelNeedL_le_T vs (by simpa [SafeL] using hs2) fl ind
      have hTI := fuelNeedL_le_TI vs (by simpa [SafeL] using hs2) fl ind (get_newline fl)
        (pre ++ get_indent ⟨fl, ind⟩)
      rw [show stringify_to fl ind (.arr (v0 :: vs)) pre =
          (if (v0 :: vs).isEmpty then bytesOf "[]"
           else if ind == 0 then 91 :: stringify_items fl ind (v0 :: vs) ++ [93]
           else
            91 :: stringify_items_indent fl ind (v0 :: vs) (get_newline fl)
                (pre ++ get_indent ⟨fl, ind⟩) ++ get_newline fl ++ pre ++ [93]) from rfl]
      rw [if_neg (by simp)]
      simp only [fuelNeed, fuelNeedL]
      by_cases hind : (ind == 0) = true
      · rw [if_pos hind]
        rw [show stringify_items fl ind (v0 :: vs) =
          stringify_to fl ind v0 [] ++ stringify_items_tail fl ind vs from rfl]
        rw [hct1] at h0 ⊢
        simp only [List.length_append, List.length_cons] at h0 hT ⊢
        omega
      · rw [if_neg hind]
        rw [show stringify_items_indent fl ind (v0 :: vs) (get_newline fl)
            (pre ++ get_indent ⟨fl, ind⟩) =
          get_newline fl ++ (pre ++ get_indent ⟨fl, ind⟩) ++
            stringify_to fl ind v0 (pre ++ get_indent ⟨fl, ind⟩) ++
            stringify_items_indent_tail fl ind vs (get_newline fl)
              (pre ++ get_indent ⟨fl, ind⟩) from rfl]
        rw [hct2] at h0i ⊢
        simp only [List.length_append, List.length_cons] at h0i hTI ⊢
        omega
  | obj entries =>
    cases entries with
    | nil =>
      rw [show stringify_to fl ind (.obj []) pre = [123, 125] from rfl]
      simp only [fuelNeed, fuelNeedE]
      simp
    | cons e0 es =>
      obtain ⟨k0, v0⟩ := e0
      simp only [SafeB, SafeE, Bool.and_eq_true] at hs
      obtain ⟨-, ⟨-, hs0⟩, hs2⟩ := hs
      obtain ⟨c1, t1, hct1, -, -, -, -, -, -⟩ := stringify_head fl ind v0 [] hs0
      obtain ⟨c2, t2, hct2, -, -, -, -, -, -⟩ :=
        stringify_head fl ind v0 (pre ++ get_indent ⟨fl, ind⟩) hs0
      have h0 := fuelNeed_le v0 hs0 fl ind []
      have h0i := fuelNeed_le v0 hs0 fl ind (pre ++ get_indent ⟨fl, ind⟩)
      have hT := fuelNeedE_le_T es (by simpa [SafeE] using hs2) fl ind
      have hTI := fuelNeedE_le_TI es (by simpa [SafeE] using hs2) fl ind (get_newline fl)
        (pre ++ get_indent ⟨fl, ind⟩)
      rw [show stringify_to fl ind (.obj ((k0, v0) :: es)) pre =
          (if ((k0, v0) :: es).isEmpty then bytesOf "{}"
           else if ind == 0 then 123 :: stringify_members fl ind ((k0, v0) :: es) ++ [125]
           else
            123 :: stringify_members_indent fl ind ((k0, v0) :: es) (get_newline fl)
                (pre ++ get_indent ⟨fl, ind⟩) ++ get_newline fl ++ pre ++ [125]) from rfl]
      rw [if_neg (by simp)]
      simp only [fuelNeed, fuelNeedE]
      by_cases hind : (ind == 0) = true
      · rw [if_pos hind]
        rw [show stringify_members fl ind ((k0, v0) :: es) =
          stringify_string k0 ++ 58 :: stringify_to fl ind v0 [] ++
            stringify_members_tail fl ind es from rfl]
        rw [hct1] at h0 ⊢
        simp only [List.length_append, List.length_cons] at h0 hT ⊢
        omega
      · rw [if_neg hind]
        rw [show stringify_members_indent fl ind ((k0, v0) :: es) (get_newline fl)
            (pre ++ get_indent ⟨fl, ind⟩) =
          get_newline fl ++ (pre ++ get_indent ⟨fl, ind⟩) ++ stringify_string k0 ++
            58 :: 32 :: stringify_to fl ind v0 (pre ++ get_indent ⟨fl, ind⟩) ++
            stringify_members_indent_tail fl ind es (get_newline fl)
              (pre ++ get_indent ⟨fl, ind⟩) from rfl]
        rw [hct2] at h0i ⊢
        simp only [List.length_append, List.length_cons] at h0i hTI ⊢
        omega

theorem fuelNeedL_le_T (vs : List JVal) (hs : SafeL vs = true) (fl : Nat) (ind : Int) :
    fuelNeedL vs ≤ (stringify_items_tail fl ind vs).length + 2 := by
  cases vs with
  | nil => simp only [fuelNeedL]; omega
  | cons v0 vs =>
    simp only [SafeL, Bool.and_eq_true] at hs
    obtain ⟨hs0, hs2⟩ := hs
    obtain ⟨c1, t1, hct1, -, -, -, -, -, -⟩ := stringify_head fl ind v0 [] hs0
    have h0 := fuelNeed_le v0 hs0 fl ind []
    have hT := fuelNeedL_le_T vs hs2 fl ind
    rw [show stringify_items_tail fl ind (v0 :: vs) =
      44 :: stringify_to fl ind v0 [] ++ stringify_items_tail fl ind vs from rfl]
    rw [hct1] at h0 ⊢
    simp only [fuelNeedL, List.cons_append, List.length_cons, List.length_append] at h0 hT ⊢
    omega

theorem fuelNeedL_le_TI (vs : List JVal) (hs : SafeL vs = true) (fl : Nat) (ind : Int)
    (nl inner : List Int) :
    fuelNeedL vs ≤ (stringify_items_indent_tail fl ind vs nl inner).length + 2 := by
  cases vs with
  | nil => simp only [fuelNeedL]; omega
  | cons v0 vs =>
    simp only [SafeL, Bool.and_eq_true] at hs
    obtain ⟨hs0, hs2⟩ := hs
    obtain ⟨c1, t1, hct1, -, -, -, -, -, -⟩ := stringify_head fl ind v0 inner hs0
    have h0 := fuelNeed_le v0 hs0 fl ind inner
    have hT := fuelNeedL_le_TI vs hs2 fl ind nl inner
    rw [show stringify_items_indent_tail fl ind (v0 :: vs) nl inner =
      44 :: (nl ++ inner ++ stringify_to fl ind v0 inner ++
        stringify_items_indent_tail fl ind vs nl inner) from rfl]
    rw [hct1] at h0 ⊢
    simp only [fuelNeedL, List.length_cons, List.length_append] at h0 hT ⊢
    omega

theorem fuelNeedE_le_T (es : List (List Int × JVal)) (hs : SafeE es = true) (fl : Nat)
    (ind : Int) :
    fuelNeedE es ≤ (stringify_members_tail fl ind es).length + 2 := by
  cases es with
  | nil => simp only [fuelNeedE]; omega
  | cons e0 es =>
    obtain ⟨k0, v0⟩ := e0
    simp only [SafeE, Bool.and_eq_true] at hs
    obtain ⟨⟨-, hs0⟩, hs2⟩ := hs
    obtain ⟨c1, t1, hct1, -, -, -, -, -, -⟩ := stringify_head fl ind v0 [] hs0
    have h0 := fuelNeed_le v0 hs0 fl ind []
    have hT := fuelNeedE_le_T es hs2 fl ind
    rw [show stringify_members_tail fl ind ((k0, v0) :: es) =
      44 :: (stringify_string k0 ++ 58 :: stringify_to fl ind v0 [] ++
        stringify_members_tail fl ind es) from rfl]
    rw [hct1] at h0 ⊢
    simp only [fuelNeedE, List.length_cons, List.length_append] at h0 hT ⊢
    omega

theorem fuelNeedE_le_TI (es : List (List Int × JVal)) (hs : SafeE es = true) (fl : Nat)
    (ind : Int) (nl inner : List Int) :
    fuelNeedE es ≤ (stringify_members_indent_tail fl ind es nl inner).length + 2 := by
  cases es with
  | nil => simp only [fuelNeedE]; omega
  | cons e0 es =>
    obtain ⟨k0, v0⟩ := e0
    simp only [SafeE, Bool.and_eq_true] at hs
    obtain ⟨⟨-, hs0⟩, hs2⟩ := hs
    obtain ⟨c1, t1, hct1, -, -, -, -, -, -⟩ := stringify_head fl ind v0 inner hs0
    have h0 := fuelNeed_le v0 hs0 fl ind inner
    have hT := fuelNeedE_le_TI es hs2 fl ind nl inner
    rw [show stringify_members_indent_tail fl ind ((k0, v0) :: es) nl inner =
      44 :: (nl ++ inner ++ stringify_string k0 ++ 58 :: 32 ::
        stringify_to fl ind v0 inner ++
        stringify_members_indent_tail fl ind es nl inner) from rfl]
    rw [hct1] at h0 ⊢
    simp only [fuelNeedE, List.length_cons, List.length_append] at h0 hT ⊢
    omega

end

/-- Every fuel admits all five round-trip invariants. -/
theorem rt_all : ∀ f, RTall f := by
  intro f
  induction f using Nat.strong_induction_on with
  | _ f ih =>
    cases f with
    | zero => exact rt_zero
    | succ f =>
      have ihle : ∀ g, g ≤ f → RTall g := fun g hg => ih g (by omega)
      have ihf := ihle f (le_refl f)
      exact ⟨rt_value_step f ihle, rt_arrT_step f ihf.1 ihf.2.1,
        rt_arrTI_step f ihf.1 ihf.2.2.1, rt_objT_step f ihf.1 ihf.2.2.2.1,
        rt_objTI_step f ihf.1 ihf.2.2.2.2⟩

/-! ## Claim C2: stringify/parse round trip -/

/-- C2 (amended): for every value whose numbers
are finite integers of magnitude at most `999999` (and whose strings are
byte strings and objects in map order — exactly the values the parser
itself produces for such documents), parsing the stringified text under
the same ruleset returns the original value with the whole input
consumed, in both finished and streaming mode, for every manipulator
(ruleset and indentation). -/
theorem C2_roundtrip_amended (m : manipulator) (v : JVal) (hv : SafeB v = true)
    (finished : Bool) :
    parseWith m finished (stringifyWith [m] v) = .ok (v, []) := by
  unfold parseWith stringifyWith
  simp only [List.foldl_cons, List.foldl_nil]
  set c := apply_manipulator context_base.init m with hc
  have hlen := fuelNeed_le v hv c.flags c.indent []
  have hval := (rt_all (topFuel (stringify_to c.flags c.indent v []).length)).1 c.flags
    c.indent v [] [] [] ctxValue hv rfl rfl rfl (by simp only [topFuel]; omega)
  rw [List.nil_append, List.append_nil] at hval
  unfold parse_topF
  rw [hval, okBind]
  cases finished with
  | false => rfl
  | true =>
    dsimp only
    rw [if_pos rfl]
    rw [skip_spaces_ws_eof c.flags [] rfl, okBind]
    dsimp only
    rw [if_neg (by decide)]

/-- The decimal exponent of a positive integer is one less than its digit
count. -/
lemma decExp_nat (n : Nat) (h1 : 1 ≤ n) :
    decExp (n : ℚ) = ((decDigits n).length : ℤ) - 1 := by
  obtain ⟨hall, hval, hlen, hpos⟩ := decDigits_spec n
  obtain ⟨hlow, d0, ds, hcons, hd0⟩ := hpos h1
  set L := (decDigits n).length with hL
  have hL1 : 1 ≤ L := by
    rw [hL, hcons]
    simp
  have hcast1 : (1 : ℚ) ≤ (n : ℚ) := by
    exact_mod_cast h1
  have hfloor : (⌊(n : ℚ)⌋).toNat = n := by
    rw [Int.floor_natCast]
    simp
  unfold decExp
  rw [if_pos hcast1, hfloor]
  have hc : (((decDigits n).length - 1 : Nat) : Int) = (L : Int) - 1 := by
    rw [← hL]
    omega
  rw [hc, if_pos]
  have hz : (10 : ℚ) ^ ((L : Int) - 1) = ((10 ^ (L - 1) : Nat) : ℚ) := by
    have : (L : Int) - 1 = ((L - 1 : Nat) : Int) := by omega
    rw [this, zpow_ofNat10]
  rw [hz]
  exact_mod_cast hlow

lemma fmtG_1234567 : fmtG (1234567 : ℚ) = bytesOf "1.23457e+06" := by
  have hde : decExp (1234567 : ℚ) = 6 := by
    have hb : ((1234567 : Nat) : ℚ) = (1234567 : ℚ) := by norm_num
    rw [← hb, decExp_nat 1234567 (by norm_num)]
    decide
  have hround : roundQ ((1234567 : ℚ) * (10 : ℚ) ^ ((5 : Int) - 6)) = 123457 := by
    have h1 : (1234567 : ℚ) * (10 : ℚ) ^ ((5 : Int) - 6) + 1 / 2 = 1234572 / 10 := by
      rw [show (5 : Int) - 6 = -1 from by decide, zpow_neg, zpow_one]
      norm_num
    unfold roundQ
    rw [h1]
    rw [show ⌊(1234572 : ℚ) / 10⌋ = 123457 from by
      rw [Int.floor_eq_iff]
      constructor <;> norm_num]
    rfl
  unfold fmtG
  rw [if_neg (by norm_num), if_neg (by norm_num), List.nil_append]
  rw [abs_of_nonneg (by norm_num : (0 : ℚ) ≤ 1234567)]
  unfold fmtGpos
  rw [hde]
  dsimp only
  rw [hround]
  decide

/-- C2 counterexample to the unrestricted claim: the Number `1234567` is
producible by the parser and `ecma404` is self-consistent, yet the
stringified text `"1.23457e+06"` (defaultfloat, precision 6) re-parses to
the different Number `1234570`. -/
theorem C2_roundtrip_counterexample :
    parse "1234567" = .ok (.number (.fin 1234567), []) ∧
    stringifyWith [rule.ecma404] (.number (.fin 1234567)) = bytesOf "1.23457e+06" ∧
    parseWith rule.ecma404 true (stringifyWith [rule.ecma404] (.number (.fin 1234567))) =
      .ok (.number (.fin 1234570), []) ∧
    (JVal.number (.fin 1234570)) ≠ (JVal.number (.fin 1234567)) := by
  have hs : stringifyWith [rule.ecma404] (.number (.fin 1234567)) = bytesOf "1.23457e+06" := by
    show stringify_to _ _ _ [] = _
    rw [show stringify_to (List.foldl apply_manipulator context_base.init
        [rule.ecma404]).flags (List.foldl apply_manipulator context_base.init
        [rule.ecma404]).indent (.number (.fin 1234567)) [] = fmtG (1234567 : ℚ) from rfl]
    exact fmtG_1234567
  refine ⟨rfl, hs, ?_, ?_⟩
  · rw [hs]
    have h1 : parseWith rule.ecma404 true (bytesOf "1.23457e+06") =
        .ok (.number (.fin (number_value false 1 23457 5 false 6)), []) := rfl
    rw [h1]
    have h2 : number_value false 1 23457 5 false 6 = (1234570 : ℚ) := by
      simp only [number_value]
      norm_num
    rw [h2]
  · intro h
    injection h with h1
    injection h1 with h2
    exact absurd h2 (by norm_num)

theorem C2_roundtrip_amended_witness :
    SafeB (.obj [([97], .number (.fin 12))]) = true ∧
    parseWith rule.json5 true
        (stringifyWith [rule.json5] (.obj [([97], .number (.fin 12))])) =
      .ok (.obj [([97], .number (.fin 12))], []) :=
  ⟨by decide, C2_roundtrip_amended rule.json5 _ (by decide) true⟩

/-! ## Claim C4: duplicate keys, map semantics -/

lemma keyLt_total (a b : List Int) (h : keyLt a b = false) (hne : a ≠ b) :
    keyLt b a = true := by
  induction a generalizing b with
  | nil =>
    cases b with
    | nil => exact absurd rfl hne
    | cons b0 bs => exact absurd h (by simp [keyLt])
  | cons a0 as ih =>
    cases b with
    | nil => rfl
    | cons b0 bs =>
      have h' : (if a0 < b0 then true else if b0 < a0 then false else keyLt as bs) = false := h
      show (if b0 < a0 then true else if a0 < b0 then false else keyLt bs as) = true
      by_cases h1 : a0 < b0
      · rw [if_pos h1] at h'
        exact Bool.noConfusion h'
      · by_cases h2 : b0 < a0
        · rw [if_pos h2]
        · have he : a0 = b0 := le_antisymm (le_of_not_lt h2) (le_of_not_lt h1)
          subst he
          rw [if_neg h1, if_neg h1] at h' ⊢
          refine ih bs h' ?_
          intro hc
          exact hne (by rw [hc])

lemma keysAscB_tail {e : List Int × JVal} {es : List (List Int × JVal)}
    (h : keysAscB (e :: es) = true) : keysAscB es = true := by
  obtain ⟨k1, w⟩ := e
  cases es with
  | nil => rfl
  | cons e2 es2 =>
    obtain ⟨k2, w2⟩ := e2
    have h' : (keyLt k1 k2 && keysAscB ((k2, w2) :: es2)) = true := h
    simp only [Bool.and_eq_true] at h'
    exact h'.2

lemma keysAscB_cons_val (k : List Int) (x y : JVal) (es : List (List Int × JVal)) :
    keysAscB ((k, x) :: es) = keysAscB ((k, y) :: es) := by
  cases es with
  | nil => rfl
  | cons e2 es2 =>
    obtain ⟨k2, w2⟩ := e2
    rfl

lemma obj_emplace_head (k1 : List Int) (w : JVal) (es : List (List Int × JVal))
    (k : List Int) (v : JVal) :
    ∃ h t, obj_emplace ((k1, w) :: es) k v = h :: t ∧ (h.1 = k ∨ h.1 = k1) := by
  show ∃ h t, (if keyLt k k1 then (k, v) :: (k1, w) :: es
    else if k1 = k then (k1, w) :: es
    else (k1, w) :: obj_emplace es k v) = h :: t ∧ (h.1 = k ∨ h.1 = k1)
  by_cases h1 : keyLt k k1 = true
  · rw [if_pos h1]
    exact ⟨(k, v), _, rfl, Or.inl rfl⟩
  · rw [if_neg h1]
    by_cases h2 : k1 = k
    · rw [if_pos h2]
      exact ⟨(k1, w), es, rfl, Or.inr rfl⟩
    · rw [if_neg h2]
      exact ⟨(k1, w), _, rfl, Or.inr rfl⟩

lemma keysAscB_emplace : ∀ (es : List (List Int × JVal)) (k : List Int) (v : JVal),
    keysAscB es = true → keysAscB (obj_emplace es k v) = true := by
  intro es
  induction es with
  | nil => intro k v _; rfl
  | cons e es ih =>
    intro k v h
    obtain ⟨k1, w⟩ := e
    show keysAscB (if keyLt k k1 then (k, v) :: (k1, w) :: es
      else if k1 = k then (k1, w) :: es
      else (k1, w) :: obj_emplace es k v) = true
    by_cases h1 : keyLt k k1 = true
    · rw [if_pos h1]
      show (keyLt k k1 && keysAscB ((k1, w) :: es)) = true
      rw [h1, h]
      rfl
    · rw [if_neg h1]
      by_cases h2 : k1 = k
      · rw [if_pos h2]
        exact h
      · rw [if_neg h2]
        have hk1k : keyLt k1 k = true :=
          keyLt_total k k1 (Bool.eq_false_iff.mpr h1) (fun hc => h2 hc.symm)
        have hT := ih k v (keysAscB_tail h)
        cases es with
        | nil =>
          show (keyLt k1 k && keysAscB ((k, v) :: ([] : List (List Int × JVal)))) = true
          rw [hk1k]
          rfl
        | cons e2 es2 =>
          obtain ⟨k2, u⟩ := e2
          obtain ⟨hh, tt, hemp, hhd⟩ := obj_emplace_head k2 u es2 k v
          rw [hemp] at hT ⊢
          obtain ⟨hk, hv⟩ := hh
          have hlt : keyLt k1 hk = true := by
            rcases hhd with h3 | h3
            · have h3' : hk = k := h3
              rw [h3']
              exact hk1k
            · have h3' : hk = k2 := h3
              rw [h3']
              have h4 : (keyLt k1 k2 && keysAscB ((k2, u) :: es2)) = true := h
              simp only [Bool.and_eq_true] at h4
              exact h4.1
          show (keyLt k1 hk && keysAscB ((hk, hv) :: tt)) = true
          rw [hlt, hT]
          rfl

lemma obj_assign_fst : ∀ (es : List (List Int × JVal)) (k : List Int) (v : JVal),
    (obj_assign es k v).map Prod.fst = es.map Prod.fst := by
  intro es
  induction es with
  | nil => intro k v; rfl
  | cons e es ih =>
    intro k v
    obtain ⟨k1, w⟩ := e
    show ((if k1 = k then (k1, v) :: es else (k1, w) :: obj_assign es k v).map Prod.fst) = _
    by_cases h : k1 = k
    · rw [if_pos h]
      rfl
    · rw [if_neg h]
      simp only [List.map_cons, ih]

lemma keysAscB_eq_of_fst : ∀ (es es2 : List (List Int × JVal)),
    es.map Prod.fst = es2.map Prod.fst → keysAscB es = keysAscB es2 := by
  intro es
  induction es with
  | nil =>
    intro es2 h
    cases es2 with
    | nil => rfl
    | cons e t => exact absurd h (by simp)
  | cons e es ih =>
    intro es2 h
    obtain ⟨k1, w⟩ := e
    cases es2 with
    | nil => exact absurd h (by simp)
    | cons e2 t2 =>
      obtain ⟨k2, w2⟩ := e2
      simp only [List.map_cons, List.cons.injEq] at h
      obtain ⟨hk, ht⟩ := h
      subst hk
      cases es with
      | nil =>
        cases t2 with
        | nil => rfl
        | cons a b => exact absurd ht (by simp)
      | cons f fs =>
        obtain ⟨kf, wf⟩ := f
        cases t2 with
        | nil => exact absurd ht (by simp)
        | cons g gs =>
          obtain ⟨kg, wg⟩ := g
          simp only [List.map_cons, List.cons.injEq] at ht
          obtain ⟨hkf, ht2⟩ := ht
          subst hkf
          show (keyLt k1 kf && keysAscB ((kf, wf) :: fs)) =
            (keyLt k1 kf && keysAscB ((kf, wg) :: gs))
          rw [ih ((kf, wg) :: gs) (by simp only [List.map_cons]; rw [ht2])]

lemma keysAscB_put (es : List (List Int × JVal)) (k : List Int) (v : JVal)
    (h : keysAscB es = true) : keysAscB (obj_put es k v) = true := by
  unfold obj_put
  rw [keysAscB_eq_of_fst _ (obj_emplace es k .null) (obj_assign_fst _ k v)]
  exact keysAscB_emplace es k .null h

lemma obj_put_lookup : ∀ (acc : List (List Int × JVal)) (k0 : List Int) (v0 : JVal)
    (k : List Int),
    obj_lookup (obj_put acc k0 v0) k = if k0 = k then some v0 else obj_lookup acc k := by
  intro acc
  induction acc with
  | nil =>
    intro k0 v0 k
    show obj_lookup (obj_assign [(k0, .null)] k0 v0) k = _
    show obj_lookup (if k0 = k0 then (k0, v0) :: [] else _) k = _
    rw [if_pos (rfl : k0 = k0)]
    rfl
  | cons e es ih =>
    intro k0 v0 k
    obtain ⟨k1, w⟩ := e
    unfold obj_put at ih ⊢
    show obj_lookup (obj_assign (if keyLt k0 k1 then (k0, .null) :: (k1, w) :: es
      else if k1 = k0 then (k1, w) :: es
      else (k1, w) :: obj_emplace es k0 .null) k0 v0) k = _
    by_cases h1 : keyLt k0 k1 = true
    · rw [if_pos h1]
      show obj_lookup (if k0 = k0 then (k0, v0) :: (k1, w) :: es else _) k = _
      rw [if_pos (rfl : k0 = k0)]
      rfl
    · rw [if_neg h1]
      by_cases h2 : k1 = k0
      · rw [if_pos h2]
        subst h2
        show obj_lookup (if k1 = k1 then (k1, v0) :: es else _) k = _
        rw [if_pos (rfl : k1 = k1)]
        show (if k1 = k then some v0 else obj_lookup es k) = _
        by_cases h3 : k1 = k
        · rw [if_pos h3, if_pos h3]
        · rw [if_neg h3, if_neg h3]
          show _ = obj_lookup ((k1, w) :: es) k
          show _ = if k1 = k then some w else obj_lookup es k
          rw [if_neg h3]
      · rw [if_neg h2]
        show obj_lookup (if k1 = k0 then _ else (k1, w) :: obj_assign (obj_emplace es k0 .null) k0 v0) k = _
        rw [if_neg h2]
        show (if k1 = k then some w else obj_lookup (obj_assign (obj_emplace es k0 .null) k0 v0) k) = _
        by_cases h3 : k1 = k
        · rw [if_pos h3]
          have hk0 : k0 ≠ k := by
            intro hc
            exact h2 (by rw [h3, hc])
          rw [if_neg hk0]
          show _ = obj_lookup ((k1, w) :: es) k
          show _ = if k1 = k then some w else obj_lookup es k
          rw [if_pos h3]
        · rw [if_neg h3, ih k0 v0 k]
          by_cases h4 : k0 = k
          · rw [if_pos h4, if_pos h4]
          · rw [if_neg h4, if_neg h4]
            show _ = obj_lookup ((k1, w) :: es) k
            show _ = if k1 = k then some w else obj_lookup es k
            rw [if_neg h3]

lemma objBuild_asc : ∀ (entries : List (List Int × Nat)) (acc : List (List Int × JVal)),
    keysAscB acc = true →
    keysAscB (entries.foldl (fun m e => obj_put m e.1 (.number (.fin (e.2 : ℚ)))) acc) =
      true := by
  intro entries
  induction entries with
  | nil => intro acc h; exact h
  | cons e es ih =>
    intro acc h
    rw [List.foldl_cons]
    exact ih _ (keysAscB_put acc e.1 _ h)

lemma objBuild_lookup : ∀ (entries : List (List Int × Nat)) (acc : List (List Int × JVal))
    (k : List Int),
    obj_lookup (entries.foldl (fun m e => obj_put m e.1 (.number (.fin (e.2 : ℚ)))) acc) k =
      (match lastAssoc entries k with
       | some n => some (.number (.fin (n : ℚ)))
       | none => obj_lookup acc k) := by
  intro entries
  induction entries with
  | nil => intro acc k; rfl
  | cons e es ih =>
    intro acc k
    obtain ⟨k0, n0⟩ := e
    rw [List.foldl_cons]
    rw [ih (obj_put acc k0 (.number (.fin (n0 : ℚ)))) k]
    show (match lastAssoc es k with
      | some n => some (JVal.number (JNum.fin (n : ℚ)))
      | none => obj_lookup (obj_put acc k0 (JVal.number (JNum.fin (n0 : ℚ)))) k) =
      (match (match lastAssoc es k with
        | some m => some m
        | none => if k0 = k then some n0 else none) with
      | some n => some (JVal.number (JNum.fin (n : ℚ)))
      | none => obj_lookup acc k)
    cases hles : lastAssoc es k with
    | some m => rfl
    | none =>
      rw [obj_put_lookup acc k0 _ k]
      by_cases h : k0 = k
      · rw [if_pos h, if_pos h]
      · rw [if_neg h, if_neg h]

/-- A plain key byte needs no escape. -/
lemma escChar_plain (b : Int) (h0 : 0 ≤ b) (h256 : b < 256) (h32 : 32 ≤ b)
    (h34 : b ≠ 34) (h92 : b ≠ 92) : escChar b = [b] := by
  have hmod : b % 256 = b := Int.emod_eq_of_lt h0 h256
  have hb : ((b.toNat : Nat) : Int) = b := Int.toNat_of_nonneg h0
  unfold escChar
  rw [hmod]
  rw [if_neg (by simp only [beq_iff_eq]; omega),
    if_neg (by simp only [beq_iff_eq]; omega),
    if_neg (by simp only [beq_iff_eq]; omega),
    if_neg (by simp only [beq_iff_eq]; omega),
    if_neg (by simp only [beq_iff_eq]; omega),
    if_neg (by simp only [beq_iff_eq]; omega),
    if_neg (by simp only [beq_iff_eq]; omega),
    if_neg (by omega), hb]

lemma plain_facts {k : List Int} (hp : plainKeyB k = true) :
    (k.map escChar).flatten = k ∧ k.all byteOK = true := by
  simp only [plainKeyB, Bool.and_eq_true] at hp
  obtain ⟨-, hall⟩ := hp
  simp only [List.all_eq_true] at hall
  constructor
  · induction k with
    | nil => rfl
    | cons b k ih =>
      have hb := hall b (by simp)
      simp only [Bool.and_eq_true, decide_eq_true_eq, bne_iff_ne, ne_eq] at hb
      obtain ⟨⟨⟨h32, h256⟩, h34⟩, h92⟩ := hb
      simp only [List.map_cons, List.flatten_cons]
      rw [escChar_plain b (by omega) h256 h32 h34 h92]
      rw [ih (fun b hb => hall b (by simp [hb]))]
      rfl
  · simp only [List.all_eq_true]
    intro b hb
    have := hall b hb
    simp only [Bool.and_eq_true, decide_eq_true_eq] at this
    simp only [byteOK, Bool.and_eq_true, decide_eq_true_eq]
    omega

lemma numTermS_mkTail (es : List (List Int × Nat)) (rest : Stm) :
    numTermS (mkEntriesTail es ++ 125 :: rest) = true := by
  cases es with
  | nil => rfl
  | cons e es =>
    obtain ⟨k, n⟩ := e
    rfl

lemma obj_put_nonempty (acc : List (List Int × JVal)) (k : List Int) (v : JVal) :
    (obj_put acc k v).isEmpty = false := by
  have hemp : 1 ≤ (obj_emplace acc k .null).length := by
    cases acc with
    | nil => simp [obj_emplace]
    | cons e es =>
      obtain ⟨k1, w⟩ := e
      show 1 ≤ (if keyLt k k1 then (k, JVal.null) :: (k1, w) :: es
        else if k1 = k then (k1, w) :: es
        else (k1, w) :: obj_emplace es k .null).length
      by_cases h1 : keyLt k k1 = true
      · rw [if_pos h1]; simp
      · rw [if_neg h1]
        by_cases h2 : k1 = k
        · rw [if_pos h2]; simp
        · rw [if_neg h2]; simp
  have hlen : (obj_put acc k v).length = (obj_emplace acc k .null).length := by
    unfold obj_put
    rw [← List.length_map (obj_assign (obj_emplace acc k .null) k v) Prod.fst,
      obj_assign_fst, List.length_map]
  cases h : obj_put acc k v with
  | nil =>
    rw [h] at hlen
    simp at hlen
    omega
  | cons a b => rfl

/-- The safe-number fact for a small natural literal. -/
lemma safe_natNum (n : Nat) (hn : n ≤ 999999) :
    SafeB (.number (.fin (n : ℚ))) = true := by
  simp only [SafeB, Bool.and_eq_true, beq_iff_eq, decide_eq_true_eq]
  exact ⟨Rat.den_natCast n, by rw [Rat.num_natCast]; simpa using hn⟩

lemma fmtG_natCast (n : Nat) (hn : n ≤ 999999) : fmtG (n : ℚ) = decBytes n := by
  have h := fmtG_int (n : ℚ) (Rat.den_natCast n)
    (by rw [Rat.num_natCast]; simpa using hn)
  rw [h, if_neg (not_lt.mpr (Nat.cast_nonneg n)), List.nil_append, Rat.num_natCast]
  simp

/-- The object member loop on a `"key":number` member list with arbitrary
(possibly repeated) plain keys: the accumulated map is the `obj_put` fold
in source order. -/
lemma dup_loopT : ∀ (entries : List (List Int × Nat)) (f : Nat), ∀ (fl : Nat)
    (acc : List (List Int × JVal)) (rest : Stm),
    (∀ e ∈ entries, plainKeyB e.1 = true ∧ e.2 ≤ 999999) →
    acc.isEmpty = false →
    entries.length + 1 ≤ f →
    parse_objectF f fl acc (mkEntriesTail entries ++ 125 :: rest) =
      .ok (.obj (entries.foldl
        (fun m e => obj_put m e.1 (.number (.fin (e.2 : ℚ)))) acc), rest) := by
  intro entries
  induction entries with
  | nil =>
    intro f fl acc rest _ hne hf
    obtain ⟨f1, rfl⟩ : ∃ f1, f = f1 + 1 := ⟨f - 1, by omega⟩
    rw [show mkEntriesTail [] = [] from rfl, List.nil_append]
    simp only [parse_objectF]
    rw [skip_spaces_sig fl 125 rest (by decide) (by decide), okBind]
    dsimp only
    rw [if_pos (by decide)]
    rfl
  | cons e0 es ih =>
    intro f fl acc rest hE hne hf
    obtain ⟨k0, n0⟩ := e0
    obtain ⟨f1, rfl⟩ : ∃ f1, f = f1 + 1 := ⟨f - 1, by omega⟩
    have he0 := hE (k0, n0) (by simp)
    obtain ⟨hp0, hn0⟩ := he0
    obtain ⟨hflat, hbok⟩ := plain_facts hp0
    have hss : stringify_string k0 = 34 :: k0 ++ [34] := by
      unfold stringify_string
      rw [hflat]
    have hX := numTermS_mkTail es rest
    have hstep : mkEntriesTail ((k0, n0) :: es) ++ 125 :: rest =
        44 :: (stringify_string k0 ++ (58 :: (decBytes n0 ++
          (mkEntriesTail es ++ 125 :: rest)))) := by
      show (44 :: (mkEntryText k0 n0 ++ mkEntriesTail es)) ++ 125 :: rest = _
      rw [hss, show mkEntryText k0 n0 = 34 :: k0 ++ [34, 58] ++ decBytes n0 from rfl]
      simp [List.append_assoc]
    rw [hstep]
    simp only [parse_objectF]
    rw [skip_spaces_sig fl 44 _ (by decide) (by decide), okBind]
    dsimp only
    rw [if_neg (by decide)]
    simp only [hne, Bool.false_eq_true, if_false]
    rw [if_neg (by decide)]
    have hkey := parse_key_quoted fl k0 hbok [] rfl (58 :: (decBytes n0 ++
      (mkEntriesTail es ++ 125 :: rest)))
    rw [List.nil_append] at hkey
    have hr : stringify_to fl 0 (.number (.fin (n0 : ℚ))) [] = decBytes n0 := by
      show fmtG ((n0 : Nat) : ℚ) = _
      exact fmtG_natCast n0 hn0
    have hv0 := (rt_all f1).1 fl 0 (.number (.fin (n0 : ℚ))) [] []
      (mkEntriesTail es ++ 125 :: rest) ctxObject (safe_natNum n0 hn0) rfl rfl hX
      (by simp only [fuelNeed]; simp only [List.length_cons] at hf; omega)
    rw [List.nil_append, hr] at hv0
    have hrec := ih f1 fl (obj_put acc k0 (.number (.fin (n0 : ℚ)))) rest
      (fun e he => hE e (by simp [he])) (obj_put_nonempty acc k0 _)
      (by simp only [List.length_cons] at hf; omega)
    rcases Bool.eq_false_or_eq_true (has_flag fl flags.trailing_comma) with htc | htc
    · simp only [pureBind]
      rw [if_pos htc]
      have hss2 : stringify_string k0 ++ (58 :: (decBytes n0 ++
          (mkEntriesTail es ++ 125 :: rest))) =
          34 :: (k0 ++ [34] ++ (58 :: (decBytes n0 ++
            (mkEntriesTail es ++ 125 :: rest)))) := by
        rw [hss]
        simp [List.append_assoc]
      rw [hss2]
      simp only [Stm.get]
      rw [if_neg (by decide)]
      rw [unget_cons 34 _ (by decide), ← hss2]
      rw [hkey, okBind]
      dsimp only
      rw [skip_spaces_sig fl 58 _ (by decide) (by decide), okBind]
      dsimp only
      rw [if_neg (by decide)]
      rw [hv0, okBind]
      dsimp only
      rw [show obj_assign (obj_emplace acc k0 .null) k0 (JVal.number (JNum.fin (n0 : ℚ))) =
        obj_put acc k0 (JVal.number (JNum.fin (n0 : ℚ))) from rfl]
      rw [hrec]
      rfl
    · rw [if_neg (by simp [htc])]
      simp only [pureBind]
      rw [hkey, okBind]
      dsimp only
      rw [skip_spaces_sig fl 58 _ (by decide) (by decide), okBind]
      dsimp only
      rw [if_neg (by decide)]
      rw [hv0, okBind]
      dsimp only
      rw [show obj_assign (obj_emplace acc k0 .null) k0 (JVal.number (JNum.fin (n0 : ℚ))) =
        obj_put acc k0 (JVal.number (JNum.fin (n0 : ℚ))) from rfl]
      rw [hrec]
      rfl

lemma mkEntriesTail_len (es : List (List Int × Nat)) :
    es.length ≤ (mkEntriesTail es).length := by
  induction es with
  | nil => simp [mkEntriesTail]
  | cons e es ih =>
    obtain ⟨k, n⟩ := e
    show es.length + 1 ≤ (44 :: (mkEntryText k n ++ mkEntriesTail es)).length
    simp only [List.length_cons, List.length_append]
    omega

/-- C4: for every object text (`{"k1":n1,...}` with plain keys and small
number values, keys arbitrary and possibly repeated), the parse succeeds
and produces the `emplace`-then-write fold of the members; the resulting
object maps every key to the value of its last occurrence in the text
(last-write-wins), and its entry order is strictly ascending key order
(the `std::map` iteration order), not insertion order. -/
theorem C4_duplicate_keys (fl : Nat) (entries : List (List Int × Nat))
    (hE : ∀ e ∈ entries, plainKeyB e.1 = true ∧ e.2 ≤ 999999) :
    parse_topF (topFuel (mkObjText entries).length) fl true (mkObjText entries) =
      .ok (.obj (objBuildNum entries), []) ∧
    keysAscB (objBuildNum entries) = true ∧
    (∀ k, obj_lookup (objBuildNum entries) k =
      (lastAssoc entries k).map (fun n => JVal.number (JNum.fin (n : ℚ)))) := by
  refine ⟨?_, objBuild_asc entries [] rfl, ?_⟩
  · cases entries with
    | nil =>
      have h1 : ∀ f : Nat, parse_valueF ((f + 1) + 1) fl ([123, 125] : Stm) ctxValue =
          .ok (.obj [], []) := by
        intro f
        simp only [parse_valueF]
        rw [skip_spaces_sig fl 123 _ (by decide) (by decide), okBind]
        dsimp only
        rw [if_pos (by decide)]
        simp only [parse_objectF]
        rw [skip_spaces_sig fl 125 _ (by decide) (by decide), okBind]
        dsimp only
        rw [if_pos (by decide)]
        rfl
      show parse_topF ((10 + 1) + 1) fl true ([123, 125] : Stm) = _
      unfold parse_topF
      rw [h1 10, okBind]
      dsimp only
      rw [if_pos rfl]
      rw [skip_spaces_ws_eof fl [] rfl, okBind]
      dsimp only
      rw [if_neg (by decide)]
      rfl
    | cons e0 es =>
      obtain ⟨k0, n0⟩ := e0
      obtain ⟨hp0, hn0⟩ := hE (k0, n0) (by simp)
      obtain ⟨hflat, hbok⟩ := plain_facts hp0
      have hss : stringify_string k0 = 34 :: k0 ++ [34] := by
        unfold stringify_string
        rw [hflat]
      have hlen : es.length ≤ (mkObjText ((k0, n0) :: es)).length := by
        show es.length ≤ ((123 :: (mkEntryText k0 n0 ++ mkEntriesTail es)) ++ [125]).length
        have := mkEntriesTail_len es
        simp only [List.length_append, List.length_cons]
        omega
      obtain ⟨F2, hF⟩ : ∃ F2, topFuel (mkObjText ((k0, n0) :: es)).length = (F2 + 1) + 1 ∧
          es.length + 1 ≤ F2 := by
        refine ⟨topFuel (mkObjText ((k0, n0) :: es)).length - 2, ?_, ?_⟩ <;>
          simp only [topFuel] <;> omega
      obtain ⟨hF, hF2⟩ := hF
      rw [hF]
      have hshape : (mkObjText ((k0, n0) :: es) : Stm) =
          123 :: (stringify_string k0 ++ (58 :: (decBytes n0 ++
            (mkEntriesTail es ++ 125 :: [])))) := by
        show (123 :: (mkEntryText k0 n0 ++ mkEntriesTail es)) ++ [125] = _
        rw [hss, show mkEntryText k0 n0 = 34 :: k0 ++ [34, 58] ++ decBytes n0 from rfl]
        simp [List.append_assoc]
      have hX := numTermS_mkTail es ([] : Stm)
      have hkey := parse_key_quoted fl k0 hbok [] rfl (58 :: (decBytes n0 ++
        (mkEntriesTail es ++ 125 :: [])))
      rw [List.nil_append] at hkey
      have hr : stringify_to fl 0 (.number (.fin (n0 : ℚ))) [] = decBytes n0 := by
        show fmtG ((n0 : Nat) : ℚ) = _
        exact fmtG_natCast n0 hn0
      have hv0 := (rt_all F2).1 fl 0 (.number (.fin (n0 : ℚ))) [] []
        (mkEntriesTail es ++ 125 :: []) ctxObject
        (safe_natNum n0 hn0) rfl rfl hX (by simp only [fuelNeed]; omega)
      rw [List.nil_append, hr] at hv0
      have hloop := dup_loopT es F2 fl (obj_put [] k0 (.number (.fin (n0 : ℚ)))) []
        (fun e he => hE e (by simp [he])) (obj_put_nonempty [] k0 _) hF2
      have h1 : parse_valueF ((F2 + 1) + 1) fl (mkObjText ((k0, n0) :: es)) ctxValue =
          .ok (.obj (objBuildNum ((k0, n0) :: es)), []) := by
        simp only [parse_valueF]
        rw [hshape]
        rw [skip_spaces_sig fl 123 _ (by decide) (by decide), okBind]
        dsimp only
        rw [if_pos (by decide)]
        simp only [parse_objectF]
        have hss2 : stringify_string k0 ++ (58 :: (decBytes n0 ++
            (mkEntriesTail es ++ 125 :: []))) =
            34 :: (k0 ++ [34] ++ (58 :: (decBytes n0 ++
              (mkEntriesTail es ++ 125 :: [])))) := by
          rw [hss]
          simp [List.append_assoc]
        rw [hss2]
        rw [skip_spaces_sig fl 34 _ (by decide) (by decide), okBind]
        dsimp only
        rw [if_neg (by decide)]
        rw [if_pos (by decide : List.isEmpty ([] : List (List Int × JVal)) = true)]
        simp only [pureBind]
        rw [unget_cons 34 _ (by decide), ← hss2]
        rw [hkey, okBind]
        dsimp only
        rw [skip_spaces_sig fl 58 _ (by decide) (by decide), okBind]
        dsimp only
        rw [if_neg (by decide)]
        rw [hv0, okBind]
        dsimp only
        rw [show obj_assign (obj_emplace [] k0 .null) k0 (JVal.number (JNum.fin (n0 : ℚ))) =
          obj_put [] k0 (JVal.number (JNum.fin (n0 : ℚ))) from rfl]
        rw [hloop]
        rfl
      unfold parse_topF
      rw [h1, okBind]
      dsimp only
      rw [if_pos rfl]
      rw [skip_spaces_ws_eof fl [] rfl, okBind]
      dsimp only
      rw [if_neg (by decide)]
  · intro k
    have h := objBuild_lookup entries [] k
    rw [show objBuildNum entries =
      entries.foldl (fun m e => obj_put m e.1 (.number (.fin (e.2 : ℚ)))) [] from rfl]
    rw [h]
    cases hles : lastAssoc entries k with
    | some m => rfl
    | none => rfl

theorem C4_duplicate_keys_witness :
    (∀ e ∈ ([([98], 1), ([97], 2), ([98], 3)] : List (List Int × Nat)),
      plainKeyB e.1 = true ∧ e.2 ≤ 999999) ∧
    (parse_topF (topFuel (mkObjText [([98], 1), ([97], 2), ([98], 3)]).length) 0 true
        (mkObjText [([98], 1), ([97], 2), ([98], 3)]) =
      .ok (.obj (objBuildNum [([98], 1), ([97], 2), ([98], 3)]), []) ∧
    keysAscB (objBuildNum [([98], 1), ([97], 2), ([98], 3)]) = true ∧
    (∀ k, obj_lookup (objBuildNum [([98], 1), ([97], 2), ([98], 3)]) k =
      (lastAssoc [([98], 1), ([97], 2), ([98], 3)] k).map
        (fun n => JVal.number (JNum.fin (n : ℚ))))) :=
  ⟨by decide, C4_duplicate_keys 0 _ (by decide)⟩

end Json5pp
